import Mathlib

/-!
# GS2 bytecode container parser and decompiler: a shallow embedding

The definitions below follow `src/visitors/GS2Decompiler.cpp` function by function.

Modelling conventions
* A byte is a `Fin 256`; the byte buffer `bytecodeData` and every `std::string` built from
  buffer bytes are lists of bytes.
* `size_t` positions are natural numbers: a position never exceeds the buffer length by more
  than `2^32 + 8`, so 64-bit `size_t` arithmetic does not wrap. `uint32_t`, `int16_t`,
  `int32_t` conversions are written out with explicit `% 2^w`.
* The members of the decompiler object that parsing mutates are the fields of `Decomp`;
  the buffer itself is read-only during parsing and is passed as an argument.
* A `while` loop is a step function iterated by `runLoop` with a fuel bound; a result of
  `none` means the fuel ran out. Totality lemmas show that the fuel used by the callers is
  enough whenever the source loop terminates.
* Opcode numbers live in `opcodes.h`, which is not part of the sources at hand; the decoder
  takes them as a parameter (`Opcodes`).
-/

namespace GS2

/-! ## Data model -/

abbrev Byte := Fin 256

/-- The constant `UINT32_MAX`. -/
def UINT32_MAX : Nat := 4294967295

/-- Record `FunctionInfo` of `GS2Decompiler.h`. -/
structure FunctionInfo where
  name : List Byte
  opIndex : Nat
  endOpIndex : Nat
  bytecode : List Byte
deriving DecidableEq, Repr

/-- Record `Instruction` of `GS2Decompiler.h`; `operandDouble` is never written by the
source and is left out. -/
structure Instruction where
  op : Nat
  bytecodeOffset : Nat
  operandInt : Int
  operandString : List Byte
deriving DecidableEq, Repr

/-- Mutable members of the class `GS2Decompiler` (all but the buffer). -/
structure Decomp where
  stringTable : List (List Byte)
  functions : List FunctionInfo
  functionInstructions : List (List Byte × List Instruction)
  jumpTargets : List Nat
  error : String
deriving DecidableEq, Repr

/-- State after the `clear()` calls at the start of `loadBytecode`. -/
def Decomp.empty : Decomp :=
  { stringTable := [], functions := [], functionInstructions := [], jumpTargets := [],
    error := "" }

/-- Method `setError`. -/
def Decomp.setError (st : Decomp) (err : String) : Decomp := { st with error := err }

/-! ## Loops -/

/-- Outcome of one pass through a loop body. -/
inductive LoopStep (σ ρ : Type) where
  | continue (s : σ)
  | exit (r : ρ)

/-- Iterate a loop body until it exits; `none` when the fuel is used up first. -/
def runLoop {σ ρ : Type} (step : σ → LoopStep σ ρ) : Nat → σ → Option ρ
  | 0, _ => none
  | fuel + 1, s =>
    match step s with
    | .continue s' => runLoop step fuel s'
    | .exit r => some r

/-! ## Reading from the buffer -/

/-- Value of `buf[i]` as an unsigned number. Every read in the source is guarded by a bounds
check, so the default is never observed. -/
def byteAt (buf : List Byte) (i : Nat) : Nat := (buf.getD i 0).val

/-- The expression `(uint32_t(b[pos]) << 24) | (uint32_t(b[pos+1]) << 16) |
(uint32_t(b[pos+2]) << 8) | uint32_t(b[pos+3])`. -/
def readU32BE (buf : List Byte) (pos : Nat) : Nat :=
  ((byteAt buf pos <<< 24) ||| (byteAt buf (pos + 1) <<< 16) |||
    (byteAt buf (pos + 2) <<< 8) ||| byteAt buf (pos + 3)) % 2 ^ 32

/-- The inline idiom
`while (pos < size && buf[pos] != 0) { str += buf[pos]; pos++; } if (pos < size) pos++;`
returning the string and the new position. -/
def readCString (buf : List Byte) (pos : Nat) : List Byte × Nat :=
  let str := (buf.drop pos).takeWhile (fun b => decide (b.val ≠ 0))
  let pos := pos + str.length
  (str, if pos < buf.length then pos + 1 else pos)

/-! ## Segment parsers -/

/-- Method `parseGS1Flags`. -/
def parseGS1Flags (_offset _length : Nat) (st : Decomp) : Bool × Decomp := (true, st)

/-- Body of the `while (pos < offset + length)` loop of `parseFunctionTable`; the loop state
is `(pos, functions)`, the exit value is the success flag and `functions`. -/
def functionTableStep (data : List Byte) (endPos : Nat) (s : Nat × List FunctionInfo) :
    LoopStep (Nat × List FunctionInfo) (Bool × List FunctionInfo) :=
  if s.1 < endPos then
    if s.1 + 4 > data.length then .exit (false, s.2)
    else
      let opIndex := readU32BE data s.1
      let r := readCString data (s.1 + 4)
      .continue (r.2, s.2 ++ [{ name := r.1, opIndex := opIndex, endOpIndex := 0,
                                bytecode := [] }])
  else .exit (true, s.2)

/-- The `std::sort` call of `parseFunctionTable`, ordering by `opIndex`. The order of entries
with equal `opIndex` is unspecified for `std::sort`; the model keeps them in insertion
order. -/
def sortByOpIndex (fns : List FunctionInfo) : List FunctionInfo :=
  fns.insertionSort (fun a b => a.opIndex ≤ b.opIndex)

/-- The "Set end indices" loop of `parseFunctionTable`. -/
def setEndIndices : List FunctionInfo → List FunctionInfo
  | [] => []
  | [f] => [{ f with endOpIndex := UINT32_MAX }]
  | f :: g :: rest => { f with endOpIndex := g.opIndex } :: setEndIndices (g :: rest)

/-- Method `parseFunctionTable`. -/
def parseFunctionTable (data : List Byte) (offset length : Nat) (st : Decomp) :
    Option (Bool × Decomp) :=
  match runLoop (functionTableStep data (offset + length)) (data.length + 1)
      (offset, st.functions) with
  | none => none
  | some (false, fns) =>
    some (false, { st with functions := fns, error := "Invalid function table entry" })
  | some (true, fns) =>
    some (true, { st with functions := setEndIndices (sortByOpIndex fns) })

/-- Body of the `while (pos < offset + length)` loop of `parseStringTable`; the loop state is
`(pos, stringTable)`. -/
def stringTableStep (data : List Byte) (endPos : Nat) (s : Nat × List (List Byte)) :
    LoopStep (Nat × List (List Byte)) (List (List Byte)) :=
  if s.1 < endPos then
    let r := readCString data s.1
    .continue (r.2, s.2 ++ [r.1])
  else .exit s.2

/-- Method `parseStringTable`. The source loop does not terminate when it is entered with
`offset + length` beyond the buffer; the only caller checks the bound first. -/
def parseStringTable (data : List Byte) (offset length : Nat) (st : Decomp) :
    Option (Bool × Decomp) :=
  match runLoop (stringTableStep data (offset + length)) (length + 1)
      (offset, st.stringTable) with
  | none => none
  | some tab => some (true, { st with stringTable := tab })

/-- Position `funcStart` computed by `parseBytecodeSegment`, after the bounds check. -/
def funcStart (data : List Byte) (offset : Nat) (func : FunctionInfo) : Nat :=
  let funcStart := offset + func.opIndex
  if funcStart > data.length then data.length else funcStart

/-- Position `funcEnd` computed by `parseBytecodeSegment`, after the bounds check. -/
def funcEnd (data : List Byte) (offset length : Nat) (func : FunctionInfo) : Nat :=
  let funcEnd :=
    if func.endOpIndex = UINT32_MAX then offset + length else offset + func.endOpIndex
  if funcEnd > data.length then data.length else funcEnd

/-- Body of the `for (auto& func : functions)` loop of `parseBytecodeSegment`. -/
def sliceFunction (data : List Byte) (offset length : Nat) (func : FunctionInfo) :
    FunctionInfo :=
  let s := funcStart data offset func
  let e := funcEnd data offset length func
  if s ≤ e ∧ s ≤ data.length then
    { func with bytecode := (data.drop s).take (e - s) }
  else func

/-- Method `parseBytecodeSegment`. -/
def parseBytecodeSegment (data : List Byte) (offset length : Nat) (st : Decomp) :
    Bool × Decomp :=
  (true, { st with functions := st.functions.map (sliceFunction data offset length) })

/-! ## Segment scanner -/

/-- The `switch (segType)` of `parseSegments`. -/
def dispatchSegment (data : List Byte) (segType pos segLength : Nat) (st : Decomp) :
    Option (Bool × Decomp) :=
  if segType = 1 then some (parseGS1Flags pos segLength st)
  else if segType = 2 then parseFunctionTable data pos segLength st
  else if segType = 3 then parseStringTable data pos segLength st
  else if segType = 4 then some (parseBytecodeSegment data pos segLength st)
  else some (true, st)

/-- Outcome of one pass through the `while` loop of `parseSegments`. -/
inductive ScanStep where
  | done (st : Decomp)
  | fail (st : Decomp)
  | next (pos : Nat) (st : Decomp)
deriving DecidableEq, Repr

/-- One pass through the body of the `while (pos < bytecodeData.size())` loop of
`parseSegments`, started at `pos`. `none` only if a sub-parser does not return. -/
def segmentStep (data : List Byte) (pos : Nat) (st : Decomp) : Option ScanStep :=
  if pos < data.length then
    if pos + 8 > data.length then some (.done st)
    else
      let segType := readU32BE data pos
      let segLength := readU32BE data (pos + 4)
      let pos := pos + 8
      if segType < 1 ∨ segType > 4 then
        some (.fail (st.setError ("Invalid segment type: " ++ toString segType)))
      else if pos + segLength > data.length then
        some (.fail (st.setError "Segment extends beyond file bounds"))
      else
        match dispatchSegment data segType pos segLength st with
        | none => none
        | some (false, st') => some (.fail st')
        | some (true, st') => some (.next (pos + segLength) st')
  else some (.done st)

/-- The loop of `parseSegments` as a `runLoop` body; the exit value is the return value and
the final state, `none` standing for a sub-parser that does not return. -/
def segmentLoopStep (data : List Byte) (s : Nat × Decomp) :
    LoopStep (Nat × Decomp) (Option (Bool × Decomp)) :=
  match segmentStep data s.1 s.2 with
  | none => .exit none
  | some (.done st) => .exit (some (true, st))
  | some (.fail st) => .exit (some (false, st))
  | some (.next pos st) => .continue (pos, st)

/-- The loop of `parseSegments` entered at position `pos` in state `st`. -/
def parseSegmentsFrom (data : List Byte) (pos : Nat) (st : Decomp) : Option (Bool × Decomp) :=
  (runLoop (segmentLoopStep data) (data.length + 1) (pos, st)).join

/-- Method `parseSegments`. -/
def parseSegments (data : List Byte) (st : Decomp) : Option (Bool × Decomp) :=
  parseSegmentsFrom data 0 st

/-! ## Instruction decoder -/

/-- Opcode numbers used by the decoder. They are declared in `opcodes.h`, which is not among
the sources at hand, so they are a parameter of the decoder. -/
structure Opcodes where
  OP_SET_INDEX : Nat
  OP_SET_INDEX_TRUE : Nat
  OP_JMP : Nat
  OP_IF : Nat
  OP_AND : Nat
  OP_OR : Nat
  OP_WITH : Nat
  OP_FOREACH : Nat
  OP_WITHEND : Nat
  OP_TYPE_NUMBER : Nat
  OP_TYPE_STRING : Nat
  OP_TYPE_VAR : Nat
deriving DecidableEq, Repr

/-- The `case` labels of the decoder's `switch`, in source order. -/
def Opcodes.labels (ops : Opcodes) : List Nat :=
  [ops.OP_SET_INDEX, ops.OP_SET_INDEX_TRUE, ops.OP_JMP, ops.OP_IF, ops.OP_AND, ops.OP_OR,
    ops.OP_WITH, ops.OP_FOREACH, ops.OP_WITHEND, ops.OP_TYPE_NUMBER, ops.OP_TYPE_STRING,
    ops.OP_TYPE_VAR]

/-- The `case` labels of a C++ `switch` are pairwise different. -/
def Opcodes.Distinct (ops : Opcodes) : Prop := ops.labels.Nodup

instance (ops : Opcodes) : Decidable ops.Distinct := by
  unfold Opcodes.Distinct; infer_instance

/-- An opcode table used for examples. -/
def sampleOpcodes : Opcodes :=
  { OP_SET_INDEX := 1, OP_SET_INDEX_TRUE := 2, OP_OR := 3, OP_IF := 4, OP_AND := 5,
    OP_JMP := 10, OP_TYPE_NUMBER := 20, OP_TYPE_STRING := 21, OP_TYPE_VAR := 22,
    OP_WITH := 150, OP_WITHEND := 151, OP_FOREACH := 163 }

/-- Conversion of an integer value to `int8_t`. -/
def toInt8 (n : Nat) : Int :=
  if n % 2 ^ 8 < 2 ^ 7 then (n % 2 ^ 8 : Nat) else (n % 2 ^ 8 : Nat) - 2 ^ 8

/-- Conversion of an integer value to `int16_t`. -/
def toInt16 (n : Nat) : Int :=
  if n % 2 ^ 16 < 2 ^ 15 then (n % 2 ^ 16 : Nat) else (n % 2 ^ 16 : Nat) - 2 ^ 16

/-- Conversion of an integer value to `int32_t`. -/
def toInt32 (n : Nat) : Int :=
  if n % 2 ^ 32 < 2 ^ 31 then (n % 2 ^ 32 : Nat) else (n % 2 ^ 32 : Nat) - 2 ^ 32

/-- The expression `(b[pos] << 8) | b[pos + 1]` on zero-extended bytes. -/
def readU16BE (buf : List Byte) (pos : Nat) : Nat :=
  (byteAt buf pos <<< 8) ||| byteAt buf (pos + 1)

/-- The first group of `case` labels in the decoder's `switch`. -/
def isJumpCarrying (ops : Opcodes) (op : Nat) : Bool :=
  op = ops.OP_SET_INDEX || op = ops.OP_SET_INDEX_TRUE || op = ops.OP_JMP || op = ops.OP_IF ||
  op = ops.OP_AND || op = ops.OP_OR || op = ops.OP_WITH || op = ops.OP_FOREACH ||
  op = ops.OP_WITHEND

/-- The condition guarding `jumpTargets[targetOpIndex] = true`. -/
def isJumpTracked (ops : Opcodes) (op : Nat) : Bool :=
  op = ops.OP_JMP || op = ops.OP_IF || op = ops.OP_AND || op = ops.OP_OR ||
  op = ops.OP_SET_INDEX || op = ops.OP_SET_INDEX_TRUE

/-- Loop state of the per-function decoding loop, and the value of one `switch` pass. -/
structure DecodeState where
  pos : Nat
  instructions : List Instruction
  jumpTargets : List Nat
deriving DecidableEq, Repr

/-- Result of the operand `switch`: the instruction, the position and the jump targets. -/
structure Operand where
  inst : Instruction
  pos : Nat
  jumpTargets : List Nat
deriving DecidableEq, Repr

/-- The jump-offset branch of the `switch`. -/
def decodeJump (ops : Opcodes) (code : List Byte) (inst : Instruction) (pos count : Nat)
    (jt : List Nat) : Operand :=
  if pos + 2 ≤ code.length then
    let jumpOffset := readU16BE code pos % 2 ^ 16
    let inst := { inst with operandInt := toInt16 jumpOffset }
    if isJumpTracked ops inst.op then
      let currentOpIndex : Nat := count % 2 ^ 32
      let targetOpIndex : Nat := (((currentOpIndex : Int) + inst.operandInt) % 2 ^ 32).toNat
      ⟨inst, pos + 2, targetOpIndex :: jt⟩
    else ⟨inst, pos + 2, jt⟩
  else ⟨inst, pos, jt⟩

/-- The `OP_TYPE_NUMBER` branch of the `switch`. The 4-byte read shifts a signed value into
the sign bit; the model takes the two's-complement result. -/
def decodeNumber (code : List Byte) (inst : Instruction) (pos : Nat) (jt : List Nat) :
    Operand :=
  if pos ≥ code.length then ⟨inst, pos, jt⟩
  else
    let numPfx := byteAt code pos
    let pos := pos + 1
    if numPfx = 0xF6 then
      let r := readCString code pos
      ⟨{ inst with operandString := r.1 }, r.2, jt⟩
    else if numPfx ≥ 0xF0 ∧ numPfx ≤ 0xF5 then
      let byteCount := 1 <<< (numPfx % 3)
      if pos + byteCount ≤ code.length then
        if byteCount = 1 then
          ⟨{ inst with operandInt := toInt8 (byteAt code pos) }, pos + byteCount, jt⟩
        else if byteCount = 2 then
          ⟨{ inst with operandInt := toInt16 (readU16BE code pos) }, pos + byteCount, jt⟩
        else if byteCount = 4 then
          ⟨{ inst with operandInt := toInt32 (readU32BE code pos) }, pos + byteCount, jt⟩
        else ⟨inst, pos + byteCount, jt⟩
      else ⟨inst, pos, jt⟩
    else ⟨inst, pos, jt⟩

/-- The `OP_TYPE_STRING` / `OP_TYPE_VAR` branch of the `switch`. -/
def decodeStringRef (stringTable : List (List Byte)) (code : List Byte) (inst : Instruction)
    (pos : Nat) (jt : List Nat) : Operand :=
  if pos ≥ code.length then ⟨inst, pos, jt⟩
  else
    let numPfx := byteAt code pos
    let pos := pos + 1
    if numPfx ≥ 0xF0 ∧ numPfx ≤ 0xF2 then
      let byteCount := 1 <<< (numPfx - 0xF0)
      if pos + byteCount ≤ code.length then
        let strIdx : Nat :=
          if byteCount = 1 then byteAt code pos
          else if byteCount = 2 then readU16BE code pos % 2 ^ 32
          else if byteCount = 4 then readU32BE code pos
          else 0
        let inst := { inst with operandInt := toInt32 strIdx }
        if strIdx < stringTable.length then
          ⟨{ inst with operandString := stringTable.getD strIdx [] }, pos + byteCount, jt⟩
        else ⟨inst, pos + byteCount, jt⟩
      else ⟨inst, pos, jt⟩
    else ⟨inst, pos, jt⟩

/-- The operand `switch (inst.op)` of `decodeInstructions`; `pos` is the position after the
opcode byte and `count` is `instructions.size()`. -/
def decodeOperand (ops : Opcodes) (stringTable : List (List Byte)) (code : List Byte)
    (inst : Instruction) (pos count : Nat) (jt : List Nat) : Operand :=
  if isJumpCarrying ops inst.op then decodeJump ops code inst pos count jt
  else if inst.op = ops.OP_TYPE_NUMBER then decodeNumber code inst pos jt
  else if inst.op = ops.OP_TYPE_STRING ∨ inst.op = ops.OP_TYPE_VAR then
    decodeStringRef stringTable code inst pos jt
  else ⟨inst, pos, jt⟩

/-- Body of the `while (pos < funcBytecode.size())` loop of `decodeInstructions`. -/
def decodeStep (ops : Opcodes) (stringTable : List (List Byte)) (code : List Byte)
    (s : DecodeState) : LoopStep DecodeState (List Instruction × List Nat) :=
  if s.pos < code.length then
    let inst : Instruction :=
      { op := byteAt code s.pos, bytecodeOffset := s.pos, operandInt := 0,
        operandString := [] }
    let r := decodeOperand ops stringTable code inst (s.pos + 1) s.instructions.length
      s.jumpTargets
    .continue { pos := r.pos, instructions := s.instructions ++ [r.inst],
                jumpTargets := r.jumpTargets }
  else .exit (s.instructions, s.jumpTargets)

/-- Decoding loop for one function: the instruction vector and the updated jump targets. -/
def decodeFunction (ops : Opcodes) (stringTable : List (List Byte)) (code : List Byte)
    (jt : List Nat) : Option (List Instruction × List Nat) :=
  runLoop (decodeStep ops stringTable code) (code.length + 1)
    { pos := 0, instructions := [], jumpTargets := jt }

/-- Assignment `m[key] = value` on an `unordered_map` kept as an association list. -/
def mapAssign {κ ν : Type} [DecidableEq κ] (m : List (κ × ν)) (key : κ) (value : ν) :
    List (κ × ν) :=
  if m.any (fun e => decide (e.1 = key)) then
    m.map (fun e => if e.1 = key then (key, value) else e)
  else m ++ [(key, value)]

/-- Lookup `m.find(key)` on an `unordered_map` kept as an association list. -/
def mapFind {κ ν : Type} [DecidableEq κ] (m : List (κ × ν)) (key : κ) : Option ν :=
  (m.find? (fun e => decide (e.1 = key))).map Prod.snd

/-- The `for (const auto& func : functions)` loop of `decodeInstructions`, over the
remaining functions. -/
def decodeAll (ops : Opcodes) : List FunctionInfo → Decomp → Option Decomp
  | [], st => some st
  | func :: rest, st =>
    match decodeFunction ops st.stringTable func.bytecode st.jumpTargets with
    | none => none
    | some (instructions, jt) =>
      decodeAll ops rest
        { st with functionInstructions := mapAssign st.functionInstructions func.name instructions,
                  jumpTargets := jt }

/-- Method `decodeInstructions`. -/
def decodeInstructions (ops : Opcodes) (st : Decomp) : Option (Bool × Decomp) :=
  (decodeAll ops st.functions st).map (fun st' => (true, st'))

/-- Method `loadBytecode` from the point where the file content is in `bytecodeData`. -/
def loadBytecode (ops : Opcodes) (data : List Byte) : Option (Bool × Decomp) :=
  match parseSegments data Decomp.empty with
  | none => none
  | some (false, st) => some (false, st)
  | some (true, st) => decodeInstructions ops st

/-- Method `isJumpTarget`. -/
def isJumpTarget (st : Decomp) (opIndex : Nat) : Bool := decide (opIndex ∈ st.jumpTargets)

/-! ## Source emitter -/

/-- Text of a `std::string` that was built from buffer bytes, one character per byte. -/
def bytesToString (bs : List Byte) : String := String.mk (bs.map (fun b => Char.ofNat b.val))

/-- The character `'.'`. -/
def dotByte : Byte := 46

/-- The string `"public"`. -/
def publicBytes : List Byte := [112, 117, 98, 108, 105, 99]

/-- Scan for `c` in `s`, `i` being the index of the head of `s`. -/
def findByteAux (c : Byte) : List Byte → Nat → Option Nat
  | [], _ => none
  | b :: rest, i => if b = c then some i else findByteAux c rest (i + 1)

/-- The call `s.find(c, start)`; `none` stands for `npos`. -/
def findByte (s : List Byte) (c : Byte) (start : Nat) : Option Nat :=
  findByteAux c (s.drop start) start

/-- Local variables of `generateFunction` after the name has been parsed. -/
structure ParsedName where
  isPublic : Bool
  hasObject : Bool
  objectName : List Byte
  funcName : List Byte
deriving DecidableEq, Repr

/-- The block "Parse function name for public/object qualifiers" of `generateFunction`. -/
def parseFunctionName (name : List Byte) : ParsedName :=
  match findByte name dotByte 0 with
  | none => { isPublic := false, hasObject := false, objectName := [], funcName := name }
  | some dotPos =>
    let firstPart := name.take dotPos
    if firstPart = publicBytes then
      match findByte name dotByte (dotPos + 1) with
      | some secondDot =>
        let objectName := (name.drop (dotPos + 1)).take (secondDot - dotPos - 1)
        { isPublic := true, hasObject := !objectName.isEmpty, objectName := objectName,
          funcName := name.drop (secondDot + 1) }
      | none =>
        { isPublic := true, hasObject := false, objectName := [],
          funcName := name.drop (dotPos + 1) }
    else
      { isPublic := false, hasObject := !firstPart.isEmpty, objectName := firstPart,
        funcName := name.drop (dotPos + 1) }

/-- The block "Function declaration" of `generateFunction`, appending to the stream. -/
def emitDeclaration (out : String) (p : ParsedName) : String :=
  let out := if p.isPublic then out ++ "public " else out
  if p.hasObject then
    out ++ "function " ++ bytesToString p.objectName ++ "." ++ bytesToString p.funcName ++
      "() \x7b\n"
  else
    out ++ "function " ++ bytesToString p.funcName ++ "() \x7b\n"

/-- Body of the `for (const auto& inst : instructions)` loop of `generateFunction`;
`mnemonic` stands for `opcode::OpcodeToString`, declared in the absent `opcodes.h`. -/
def emitInstruction (mnemonic : Nat → String) (out : String) (inst : Instruction) : String :=
  let out := out ++ "  // " ++ mnemonic inst.op
  let out :=
    if inst.operandString ≠ [] then out ++ " \"" ++ bytesToString inst.operandString ++ "\""
    else if inst.operandInt ≠ 0 then out ++ " " ++ toString inst.operandInt
    else out
  out ++ "\n"

/-- Method `generateFunction`. -/
def generateFunction (mnemonic : Nat → String) (st : Decomp) (func : FunctionInfo) : String :=
  let out := emitDeclaration "" (parseFunctionName func.name)
  let out := out ++ "  // Decompilation not fully implemented yet\n"
  let out := out ++ "  // Function: " ++ bytesToString func.name ++ "\n"
  let out := out ++ "  // Opcodes: " ++ toString func.bytecode.length ++ " bytes\n"
  let out :=
    match mapFind st.functionInstructions func.name with
    | some instructions => instructions.foldl (emitInstruction mnemonic) out
    | none => out
  out ++ "\x7d"

/-- Method `generateSource`. -/
def generateSource (mnemonic : Nat → String) (st : Decomp) : String :=
  st.functions.foldl (fun out func => out ++ generateFunction mnemonic st func ++ "\n\n") ""

/-- Method `decompile`. -/
def decompile (mnemonic : Nat → String) (st : Decomp) : String := generateSource mnemonic st

/-- Record `DecompileResult` of `main.cpp`; `written` is the text sent to the output file,
if any (the output path is left out). -/
structure DecompileResult where
  source : String
  written : Option String
  errmsg : String
deriving DecidableEq, Repr

/-- Function `decompileFile` of `main.cpp`, from the point where the file content is in the
buffer. -/
def decompileFile (ops : Opcodes) (mnemonic : Nat → String) (data : List Byte) :
    Option DecompileResult :=
  match loadBytecode ops data with
  | none => none
  | some (false, st) => some { source := "", written := none, errmsg := st.error }
  | some (true, st) =>
    some { source := decompile mnemonic st, written := some (decompile mnemonic st),
           errmsg := "" }

/-! ## Command line -/

/-- Record `Arguments` of `main.cpp`; a `std::filesystem::path` is kept as its string. -/
structure Arguments where
  input_paths : List String
  output_path : String
  help : Bool
  verbose : Bool
  directory_mode : Bool
  multi_file_mode : Bool
  decompile_mode : Bool
  error : String
deriving DecidableEq, Repr

/-- A default-constructed `Arguments`. -/
def Arguments.empty : Arguments :=
  { input_paths := [], output_path := "", help := false, verbose := false,
    directory_mode := false, multi_file_mode := false, decompile_mode := false, error := "" }

/-- The call `arg.starts_with('-')`. -/
def startsWithDash (arg : String) : Bool := decide (arg.data.head? = some '-')

/-- Outcome of the `for` loop of `parseArguments`: a `return` from inside the loop, or the
loop left at its end. -/
inductive ArgLoop where
  | returned (args : Arguments)
  | finished (args : Arguments)
deriving DecidableEq, Repr

/-- The `for (size_t i = 1; i < arg_span.size(); i++)` loop of `parseArguments`, over the
arguments not yet read. -/
def argumentLoop : List String → Arguments → ArgLoop
  | [], args => .finished args
  | arg :: rest, args =>
    if arg = "--help" ∨ arg = "-h" then .returned { args with help := true }
    else if arg = "--verbose" ∨ arg = "-v" then
      argumentLoop rest { args with verbose := true }
    else if arg = "--decompile" ∨ arg = "-d" then
      argumentLoop rest { args with decompile_mode := true }
    else if arg = "--output" ∨ arg = "-o" then
      match rest with
      | [] => .returned { args with error := "Missing output file after " ++ arg }
      | out :: rest' => argumentLoop rest' { args with output_path := out }
    else if startsWithDash arg then
      .returned { args with error := "Unknown option: " ++ arg }
    else argumentLoop rest { args with input_paths := args.input_paths ++ [arg] }

/-- The part of `parseArguments` after the loop. `isDirectory` stands for
`std::filesystem::is_directory` and `replaceExtension` for `path::replace_extension`. -/
def finishArguments (isDirectory : String → Bool) (replaceExtension : String → String → String)
    (args : Arguments) : Arguments :=
  if args.input_paths.isEmpty then { args with error := "No input file specified" }
  else
    let args :=
      if args.input_paths.length = 2 ∧ args.output_path = "" then
        { args with output_path := args.input_paths.getD 1 "",
                    input_paths := args.input_paths.dropLast }
      else args
    if args.input_paths.length = 1 then
      let input_path := args.input_paths.getD 0 ""
      if isDirectory input_path then
        let args := { args with directory_mode := true }
        if args.output_path ≠ "" then
          { args with error := "Output file cannot be specified for directory mode" }
        else args
      else if args.output_path = "" ∧ args.decompile_mode = false then
        { args with output_path := replaceExtension input_path ".gs2bc" }
      else args
    else
      let args := { args with multi_file_mode := true }
      if args.output_path ≠ "" then
        { args with error := "Output file cannot be specified when processing multiple files" }
      else if args.input_paths.any isDirectory then
        { args with error := "Cannot mix files and directories in multi-file mode" }
      else args

/-- Function `parseArguments` of `main.cpp`; `argv` holds the program name and the
arguments. -/
def parseArguments (isDirectory : String → Bool) (replaceExtension : String → String → String)
    (argv : List String) : Arguments :=
  if argv.length < 2 then
    { Arguments.empty with
        error := "No input file specified. Use --help for usage information." }
  else
    match argumentLoop (argv.drop 1) Arguments.empty with
    | .returned args => args
    | .finished args => finishArguments isDirectory replaceExtension args

/-! ## Specification vocabulary -/

/-- Unsigned big-endian value of a byte string. -/
def bigEndian (bs : List Byte) : Nat := bs.foldl (fun acc b => acc * 256 + b.val) 0

/-- Two's-complement value of a byte string read big-endian. -/
def twosComplement (bs : List Byte) : Int :=
  if bigEndian bs < 2 ^ (8 * bs.length - 1) then (bigEndian bs : Int)
  else (bigEndian bs : Int) - 2 ^ (8 * bs.length)

/-- The bytes `buf[pos], ..., buf[pos + n - 1]`. -/
def bytesAt (buf : List Byte) (pos n : Nat) : List Byte := (buf.drop pos).take n

/-- The entries that the reading loop of `parseFunctionTable` appends for the segment at
`offset` with `length`, together with the loop's success flag. -/
def readFunctionEntries (data : List Byte) (offset length : Nat) :
    Option (Bool × List FunctionInfo) :=
  runLoop (functionTableStep data (offset + length)) (data.length + 1) (offset, [])

/-- What a function-table entry is read as: its name and its `opIndex`. -/
def FunctionInfo.entry (f : FunctionInfo) : List Byte × Nat := (f.name, f.opIndex)

/-- Byte slice `buf[s, e)`, empty when `s > e`. -/
def sliceOf (buf : List Byte) (s e : Nat) : List Byte :=
  if s > e then [] else bytesAt buf s (e - s)

/-- Slice of a function as the specification words it: start and end are offsets from the
payload offset `B` clamped to the buffer length, the end being the end of the Bytecode
segment for the last function of the list. -/
def specSlice (buf : List Byte) (B L : Nat) (isLast : Bool) (f : FunctionInfo) : List Byte :=
  sliceOf buf (min (B + f.opIndex) buf.length)
    (if isLast then min (B + L) buf.length else min (B + f.endOpIndex) buf.length)

/-- Slice of a function with the end chosen by the sentinel: the end of the Bytecode segment
when `endOpIndex` is `UINT32_MAX`, the clamped `B + endOpIndex` otherwise. -/
def sentinelSlice (buf : List Byte) (B L : Nat) (f : FunctionInfo) : List Byte :=
  sliceOf buf (min (B + f.opIndex) buf.length)
    (if f.endOpIndex = UINT32_MAX then min (B + L) buf.length
     else min (B + f.endOpIndex) buf.length)

/-- End of a function's range inside a Bytecode segment of length `L`. -/
def rangeEnd (L : Nat) (f : FunctionInfo) : Nat :=
  if f.endOpIndex = UINT32_MAX then L else f.endOpIndex

/-- The ranges `[opIndex, rangeEnd)` of the listed functions follow one another from `start`
up to `L` without gap or overlap. -/
def RangesPartitionFrom (L : Nat) : Nat → List FunctionInfo → Prop
  | start, [] => start = L
  | start, f :: rest =>
    f.opIndex = start ∧ f.opIndex ≤ rangeEnd L f ∧ RangesPartitionFrom L (rangeEnd L f) rest

/-- The function ranges partition a Bytecode segment of length `L`. -/
def RangesPartition (L : Nat) (fns : List FunctionInfo) : Prop := RangesPartitionFrom L 0 fns

instance decRangesPartitionFrom (L : Nat) :
    (start : Nat) → (fns : List FunctionInfo) → Decidable (RangesPartitionFrom L start fns)
  | start, [] => inferInstanceAs (Decidable (start = L))
  | start, f :: rest =>
    have := decRangesPartitionFrom L (rangeEnd L f) rest
    inferInstanceAs (Decidable (f.opIndex = start ∧ f.opIndex ≤ rangeEnd L f ∧
      RangesPartitionFrom L (rangeEnd L f) rest))

instance (L : Nat) (fns : List FunctionInfo) : Decidable (RangesPartition L fns) :=
  decRangesPartitionFrom L 0 fns

/-- A byte string without NUL byte. -/
def NulFree (s : List Byte) : Prop := ∀ b ∈ s, b ≠ 0

instance (s : List Byte) : Decidable (NulFree s) := by unfold NulFree; infer_instance

/-- Payload made of the given strings, each followed by one NUL byte. -/
def cstrings (ss : List (List Byte)) : List Byte := (ss.map (fun s => s ++ [0])).flatten

/-- States in which the loop of `parseSegments` stands at the top of its body during a scan
of `data` that started from the cleared state. -/
inductive ScanReaches (data : List Byte) : Nat → Decomp → Prop where
  | start : ScanReaches data 0 Decomp.empty
  | step {pos pos' : Nat} {st st' : Decomp} :
      ScanReaches data pos st → segmentStep data pos st = some (.next pos' st') →
      ScanReaches data pos' st'

instance : IsTotal FunctionInfo (fun a b => a.opIndex ≤ b.opIndex) :=
  ⟨fun a b => Nat.le_total a.opIndex b.opIndex⟩

instance : IsTrans FunctionInfo (fun a b => a.opIndex ≤ b.opIndex) :=
  ⟨fun _ _ _ h1 h2 => Nat.le_trans h1 h2⟩

/-! ## Sample containers -/

/-- A function-table payload with the entries (5, "b"), (0, "a"), (5, "c"). -/
def bufFunctionTable : List Byte :=
  [0, 0, 0, 5, 0x62, 0, 0, 0, 0, 0, 0x61, 0, 0, 0, 0, 5, 0x63, 0]

/-- A GS1Flags segment with a one-byte payload followed by a header of type 7 whose length
field is `0xFFFFFFFF`. -/
def bufBadType : List Byte :=
  [0, 0, 0, 1, 0, 0, 0, 1, 0xAA, 0, 0, 0, 7, 0xFF, 0xFF, 0xFF, 0xFF]

/-- A GS1Flags segment with a one-byte payload followed by a StringTable header that claims
five payload bytes where only two are left. -/
def bufTruncated : List Byte :=
  [0, 0, 0, 1, 0, 0, 0, 1, 0xAA, 0, 0, 0, 3, 0, 0, 0, 5, 0x61, 0]

/-- State after parsing `bufFunctionTable` as a FunctionTable payload from the cleared
state. -/
def stFunctionTable : Decomp :=
  { Decomp.empty with functions :=
      [⟨[0x61], 0, 5, []⟩, ⟨[0x62], 5, 5, []⟩, ⟨[0x63], 5, UINT32_MAX, []⟩] }

/-- A container with a FunctionTable segment holding (0, "a") and (0xFFFFFFFF, "b"), a
Bytecode segment with the two payload bytes 0x11 0x22 at payload offset 28, and three
trailing bytes. -/
def bufSentinel : List Byte :=
  [0, 0, 0, 2, 0, 0, 0, 12, 0, 0, 0, 0, 0x61, 0, 0xFF, 0xFF, 0xFF, 0xFF, 0x62, 0,
   0, 0, 0, 4, 0, 0, 0, 2, 0x11, 0x22, 0x33, 0x44, 0x55]

/-- A container with a FunctionTable segment holding (2, "b") and (0, "a"), a Bytecode
segment with the three payload bytes 0x11 0x22 0x33 at payload offset 28, and one trailing
byte. -/
def bufTwoFunctions : List Byte :=
  [0, 0, 0, 2, 0, 0, 0, 12, 0, 0, 0, 2, 0x62, 0, 0, 0, 0, 0, 0x61, 0,
   0, 0, 0, 4, 0, 0, 0, 3, 0x11, 0x22, 0x33, 0x44]

/-- State of the scan of `bufTwoFunctions` when it stands at the Bytecode header. -/
def stTwoFunctions : Decomp :=
  { Decomp.empty with functions := [⟨[0x61], 0, 2, []⟩, ⟨[0x62], 2, UINT32_MAX, []⟩] }

/-- State in which the load of `bufSentinel` ends. -/
def stSentinelLoaded : Decomp :=
  { stringTable := [],
    functions :=
      [⟨[0x61], 0, UINT32_MAX, [0x11, 0x22]⟩, ⟨[0x62], UINT32_MAX, UINT32_MAX, []⟩],
    functionInstructions := [([0x61], [⟨0x11, 0, 0, []⟩, ⟨0x22, 1, 0, []⟩]), ([0x62], [])],
    jumpTargets := [],
    error := "" }

/-! ## Specification vocabulary: decoder -/

/-- Instruction without operand decoded from the byte at offset `k`. -/
def plainInstruction (code : List Byte) (k : Nat) : Instruction :=
  { op := byteAt code k, bytecodeOffset := k, operandInt := 0, operandString := [] }

/-- Opcodes whose jump target is recorded. -/
def trackedOpcodes (ops : Opcodes) : List Nat :=
  [ops.OP_JMP, ops.OP_IF, ops.OP_AND, ops.OP_OR, ops.OP_SET_INDEX, ops.OP_SET_INDEX_TRUE]

/-- Signed 16-bit big-endian value of the two bytes after the opcode of `inst`. -/
def jumpOperand (code : List Byte) (inst : Instruction) : Int :=
  twosComplement (bytesAt code (inst.bytecodeOffset + 1) 2)

/-- The value `t` is `(i + r) mod 2^32` for an instruction at index `i` of `insts` that has
a tracked opcode and both operand bytes inside `code`, `r` being its jump operand. -/
def IsJumpTargetOf (ops : Opcodes) (code : List Byte) (insts : List Instruction) (t : Nat) :
    Prop :=
  ∃ (i : Nat) (inst : Instruction), insts[i]? = some inst ∧ inst.op ∈ trackedOpcodes ops ∧
    inst.bytecodeOffset + 3 ≤ code.length ∧
    (t : Int) = ((i : Int) + jumpOperand code inst) % 2 ^ 32

/-- Instruction sequence decoded from a function slice. -/
def decodedInstructions (ops : Opcodes) (stringTable : List (List Byte)) (code : List Byte) :
    List Instruction :=
  match decodeFunction ops stringTable code [] with
  | some r => r.1
  | none => []

/-- Jump targets recorded while decoding a function slice. -/
def decodedTargets (ops : Opcodes) (stringTable : List (List Byte)) (code : List Byte) :
    List Nat :=
  match decodeFunction ops stringTable code [] with
  | some r => r.2
  | none => []

/-- Bytes of a text, one per character. -/
def strBytes (s : String) : List Byte := s.toList.map (fun c => Fin.ofNat c.toNat)

/-- A mnemonic table used for examples. -/
def sampleMnemonic (op : Nat) : String := "OP_" ++ toString op

/-- State carried by the outcome of a pass of the scanner loop. -/
def ScanStep.state : ScanStep → Decomp
  | .done st => st
  | .fail st => st
  | .next _ st => st

/-- A function slice with three instructions: a jump with operand -1, a plain opcode and a
`with` opcode with operand 2. -/
def codeJumps : List Byte := [10, 0xFF, 0xFF, 7, 150, 0, 2]

/-- A container with a FunctionTable segment holding (0, "f") and a Bytecode segment with
payload `codeJumps` at payload offset 22. -/
def bufJumps : List Byte :=
  [0, 0, 0, 2, 0, 0, 0, 6, 0, 0, 0, 0, 0x66, 0, 0, 0, 0, 4, 0, 0, 0, 7] ++ codeJumps

/-- State in which the load of `bufJumps` ends. -/
def stJumpsLoaded : Decomp :=
  { stringTable := [],
    functions := [⟨[0x66], 0, UINT32_MAX, codeJumps⟩],
    functionInstructions := [([0x66], [⟨10, 0, -1, []⟩, ⟨7, 3, 0, []⟩, ⟨150, 4, 2, []⟩])],
    jumpTargets := [4294967295],
    error := "" }

/-! ## Specification vocabulary: emitter -/

/-- Concatenation of pieces of text. -/
def concatText (pieces : List String) : String := pieces.foldr (fun a b => a ++ b) ""

/-- Declaration line emitted for a function name. -/
def declarationLine (name : List Byte) : String :=
  emitDeclaration "" (parseFunctionName name)

/-- Comment line of one instruction: the mnemonic, then the quoted string operand if it is
not empty, otherwise the integer operand if it is not zero, otherwise nothing. -/
def instructionLine (mnemonic : Nat → String) (inst : Instruction) : String :=
  "  // " ++ mnemonic inst.op ++
    (if inst.operandString ≠ [] then " \"" ++ bytesToString inst.operandString ++ "\""
     else if inst.operandInt ≠ 0 then " " ++ toString inst.operandInt
     else "") ++ "\n"

/-- The three comment lines that open every function body. -/
def headerLines (func : FunctionInfo) : List String :=
  ["  // Decompilation not fully implemented yet\n",
   "  // Function: " ++ bytesToString func.name ++ "\n",
   "  // Opcodes: " ++ toString func.bytecode.length ++ " bytes\n"]

/-- Instruction sequence that the decompiler holds for a function: the entry of the
instruction map under the function's name. -/
def heldInstructions (st : Decomp) (func : FunctionInfo) : List Instruction :=
  (mapFind st.functionInstructions func.name).getD []

/-- The last function of the list that carries the given name. -/
def lastNamed (fns : List FunctionInfo) (name : List Byte) : Option FunctionInfo :=
  (fns.filter (fun g => decide (g.name = name))).getLast?

/-- Lines of a text, split at the newline character. -/
def textLines : List Char → List (List Char)
  | [] => [[]]
  | c :: cs =>
    if c = Char.ofNat 10 then [] :: textLines cs
    else
      match textLines cs with
      | l :: ls => (c :: l) :: ls
      | [] => [[c]]

/-- Number of lines of a text that are comment lines of a function body (they start with
two blanks and two slashes). -/
def commentLineCount (text : String) : Nat :=
  ((textLines text.data).filter (fun l => decide (l.take 4 = "  //".data))).length

/-- A container with a FunctionTable segment holding (0, "public.onCreated"), an empty
StringTable segment and a Bytecode segment whose payload is the single byte `b`. -/
def containerOneFunction (b : Byte) : List Byte :=
  [0, 0, 0, 2, 0, 0, 0, 21, 0, 0, 0, 0,
   112, 117, 98, 108, 105, 99, 46, 111, 110, 67, 114, 101, 97, 116, 101, 100, 0,
   0, 0, 0, 3, 0, 0, 0, 0, 0, 0, 0, 4, 0, 0, 0, 1, b]

/-- State of the scan of `containerOneFunction b` when it ends. -/
def stOneFunction (b : Byte) : Decomp :=
  { Decomp.empty with
      functions := [⟨strBytes "public.onCreated", 0, UINT32_MAX, [b]⟩] }

/-- State of the decompiler after `containerOneFunction b` has been loaded, when `b` is an
opcode without operand. -/
def stOneFunctionLoaded (b : Byte) : Decomp :=
  { stOneFunction b with
      functionInstructions := [(strBytes "public.onCreated", [⟨b.val, 0, 0, []⟩])] }

/-- Pieces of text that `generateFunction` emits between the declaration line and the closing
brace: the three header lines, then one line per held instruction. -/
def bodyLines (mnemonic : Nat → String) (st : Decomp) (func : FunctionInfo) : List String :=
  headerLines func ++ (heldInstructions st func).map (instructionLine mnemonic)

/-- Payload ranges `[start, end)` of the Bytecode segments that are met when the segment
headers of `data` are followed from position `pos`: a header counts while it lies inside
the buffer, has a type code in 1..4 and a payload inside the buffer. -/
def bytecodePayloads (data : List Byte) : Nat → Nat → List (Nat × Nat)
  | 0, _ => []
  | fuel + 1, pos =>
    if pos + 8 ≤ data.length then
      let segType := readU32BE data pos
      let segLength := readU32BE data (pos + 4)
      if 1 ≤ segType ∧ segType ≤ 4 ∧ pos + 8 + segLength ≤ data.length then
        (if segType = 4 then [(pos + 8, pos + 8 + segLength)] else []) ++
          bytecodePayloads data fuel (pos + 8 + segLength)
      else []
    else []

/-- Index `i` lies inside the payload of a Bytecode segment of `data`. -/
def InBytecodePayload (data : List Byte) (i : Nat) : Prop :=
  ∃ r ∈ bytecodePayloads data (data.length + 1) 0, r.1 ≤ i ∧ i < r.2

instance (data : List Byte) (i : Nat) : Decidable (InBytecodePayload data i) := by
  unfold InBytecodePayload; infer_instance

/-- Buffer `data'` differs from `data` only in bytes inside Bytecode segment payloads of
`data`. -/
def SameOutsideBytecode (data data' : List Byte) : Prop :=
  data'.length = data.length ∧
    ∀ i, i < data.length → ¬ InBytecodePayload data i → data'.getD i 0 = data.getD i 0

instance (data data' : List Byte) : Decidable (SameOutsideBytecode data data') := by
  unfold SameOutsideBytecode; infer_instance

/-- A FunctionTable segment whose payload is the two bytes `00 00`, too short for an
`opIndex`, followed by a GS1Flags segment with an empty payload. -/
def bufTruncatedEntry : List Byte :=
  [0, 0, 0, 2, 0, 0, 0, 2, 0, 0,
   0, 0, 0, 1, 0, 0, 0, 0]

/-- A FunctionTable segment at the end of the file whose payload is an `opIndex` 0 and the
name byte `a` without a NUL terminator. -/
def bufUnterminatedName : List Byte :=
  [0, 0, 0, 2, 0, 0, 0, 5, 0, 0, 0, 0, 0x61]

/-- A FunctionTable segment holding (0, "a"), a StringTable segment holding "s", and a
Bytecode header that claims nine payload bytes where only one is left. -/
def bufPartial : List Byte :=
  [0, 0, 0, 2, 0, 0, 0, 6, 0, 0, 0, 0, 0x61, 0,
   0, 0, 0, 3, 0, 0, 0, 2, 0x73, 0,
   0, 0, 0, 4, 0, 0, 0, 9, 0x07]

/-- State of the scan of `bufPartial` when it stands at the Bytecode header. -/
def stPartial : Decomp :=
  { Decomp.empty with functions := [⟨[0x61], 0, UINT32_MAX, []⟩], stringTable := [[0x73]] }

/-- Invariant of the decoding loop started without jump targets. -/
def TargetsInv (ops : Opcodes) (code : List Byte) (s : DecodeState) : Prop :=
  (∀ t, t ∈ s.jumpTargets ↔ IsJumpTargetOf ops code s.instructions t) ∧
  (∀ (i : Nat) (inst : Instruction), s.instructions[i]? = some inst →
    inst.op ∈ trackedOpcodes ops → inst.bytecodeOffset + 3 ≤ code.length →
    inst.operandInt = jumpOperand code inst)

/-- A segment as the scanner sees it: the position of its 8-byte header, its type code and
the length of its payload. -/
structure Segment where
  headerPos : Nat
  segType : Nat
  length : Nat
deriving DecidableEq, Repr

/-- The segments `segs` tile the buffer from position `p` to position `e`: each header
starts where the one before it ends (the first at `p`), type code and length are the two
big-endian words of the header, the type code is in 1..4 and the payload ends inside the
buffer; `e` is the end of the last payload. -/
def SegmentChain (data : List Byte) : Nat → List Segment → Nat → Prop
  | p, [], e => p = e
  | p, s :: rest, e =>
    s.headerPos = p ∧ s.segType = bigEndian (bytesAt data p 4) ∧
    s.length = bigEndian (bytesAt data (p + 4) 4) ∧
    1 ≤ s.segType ∧ s.segType ≤ 4 ∧ p + 8 + s.length ≤ data.length ∧
    SegmentChain data (p + 8 + s.length) rest e

/-- State of the scan of `bufTwoFunctions` when it ends. -/
def stTwoFunctionsSliced : Decomp :=
  { Decomp.empty with
      functions := [⟨[0x61], 0, 2, [0x11, 0x22]⟩, ⟨[0x62], 2, UINT32_MAX, [0x33]⟩] }

instance decSegmentChain (data : List Byte) :
    (p : Nat) → (segs : List Segment) → (e : Nat) → Decidable (SegmentChain data p segs e)
  | p, [], e => inferInstanceAs (Decidable (p = e))
  | p, s :: rest, e =>
    have := decSegmentChain data (p + 8 + s.length) rest e
    inferInstanceAs (Decidable (s.headerPos = p ∧ s.segType = bigEndian (bytesAt data p 4) ∧
      s.length = bigEndian (bytesAt data (p + 4) 4) ∧
      1 ≤ s.segType ∧ s.segType ≤ 4 ∧ p + 8 + s.length ≤ data.length ∧
      SegmentChain data (p + 8 + s.length) rest e))

/-- The string table built from one segment alone: what `parseStringTable` makes of its
payload when it starts from the cleared state. -/
def segmentStrings (data : List Byte) (s : Segment) : List (List Byte) :=
  match parseStringTable data (s.headerPos + 8) s.length Decomp.empty with
  | some r => r.2.stringTable
  | none => []

/-- The function entries read from one segment alone. -/
def segmentEntries (data : List Byte) (s : Segment) : List FunctionInfo :=
  match readFunctionEntries data (s.headerPos + 8) s.length with
  | some r => r.2
  | none => []

/-- Strings of all StringTable segments of a chain, in file order. -/
def chainStrings (data : List Byte) (segs : List Segment) : List (List Byte) :=
  ((segs.filter (fun s => decide (s.segType = 3))).map (segmentStrings data)).flatten

/-- Function entries of all FunctionTable segments of a chain, in file order. -/
def chainEntries (data : List Byte) (segs : List Segment) : List FunctionInfo :=
  ((segs.filter (fun s => decide (s.segType = 2))).map (segmentEntries data)).flatten

/-- Two StringTable segments, holding "a" and "b". -/
def bufTwoStringTables : List Byte :=
  [0, 0, 0, 3, 0, 0, 0, 2, 0x61, 0,
   0, 0, 0, 3, 0, 0, 0, 2, 0x62, 0]

/-- Two FunctionTable segments, holding (0, "a") and (1, "b"). -/
def bufTwoFunctionTables : List Byte :=
  [0, 0, 0, 2, 0, 0, 0, 6, 0, 0, 0, 0, 0x61, 0,
   0, 0, 0, 2, 0, 0, 0, 6, 0, 0, 0, 1, 0x62, 0]

/-- A StringTable segment whose payload is the two bytes "ab" without NUL terminator,
followed by the trailing byte `t`. -/
def bufOverread (t : Byte) : List Byte :=
  [0, 0, 0, 3, 0, 0, 0, 2, 0x61, 0x62, t]

/-- A FunctionTable segment with the entries (0, "f") and (1, "f"), which share their name,
followed by a Bytecode segment with the payload 07 08. -/
def bufSharedName : List Byte :=
  [0, 0, 0, 2, 0, 0, 0, 12, 0, 0, 0, 0, 0x66, 0, 0, 0, 0, 1, 0x66, 0,
   0, 0, 0, 4, 0, 0, 0, 2, 7, 8]

/-- State of the decompiler after `bufSharedName` has been loaded. -/
def stSharedName : Decomp :=
  { Decomp.empty with
      functions := [⟨[0x66], 0, 1, [7]⟩, ⟨[0x66], 1, UINT32_MAX, [8]⟩],
      functionInstructions := [([0x66], [⟨8, 0, 0, []⟩])] }

/-- An argument that is one of the two flags without value, in either spelling. -/
def isPlainFlag (arg : String) : Bool :=
  decide (arg = "--verbose" ∨ arg = "-v" ∨ arg = "--decompile" ∨ arg = "-d")

/-- The non-option paths of a command line, in order. -/
def pathArguments (args : List String) : List String :=
  args.filter (fun a => !startsWithDash a)

/-- A stand-in for `path::replace_extension` used for examples. -/
def sampleReplaceExtension (p ext : String) : String := p ++ ext

/-- The four bytes of a 32-bit value, most significant first. -/
def be32 (n : Nat) : List Byte :=
  [Fin.ofNat (n / 16777216), Fin.ofNat (n / 65536), Fin.ofNat (n / 256), Fin.ofNat n]

/-- Bytes of a segment: type code, payload length, payload. -/
def encodeSegment (segType : Nat) (payload : List Byte) : List Byte :=
  be32 segType ++ be32 payload.length ++ payload

/-- Payload of a FunctionTable segment with the entries `es`, each an `opIndex` and a name:
the `opIndex` as four bytes, the name, one NUL byte. -/
def encodeEntries (es : List (Nat × List Byte)) : List Byte :=
  (es.map (fun e => be32 e.1 ++ e.2 ++ [0])).flatten

/-- The function record read from a table entry. -/
def entryFunction (e : Nat × List Byte) : FunctionInfo :=
  { name := e.2, opIndex := e.1, endOpIndex := 0, bytecode := [] }

/-- The function list that `parseFunctionTable` makes of the entries `es` alone. -/
def functionsOf (es : List (Nat × List Byte)) : List FunctionInfo :=
  setEndIndices (sortByOpIndex (es.map entryFunction))

/-- A function with its slice of the Bytecode payload `code`: the bytes from `opIndex` to
`endOpIndex`, or to the end of the payload when `endOpIndex` is the sentinel; unchanged
when the range is reversed. -/
def payloadSlice (code : List Byte) (f : FunctionInfo) : FunctionInfo :=
  let e := if f.endOpIndex = UINT32_MAX then code.length else f.endOpIndex
  if f.opIndex ≤ e then { f with bytecode := (code.drop f.opIndex).take (e - f.opIndex) }
  else f

/-- What a FunctionTable segment with the well-formed entries `es` does to the state of the
scan: the entries are appended, the whole list is sorted and its ranges are closed. -/
def addEntries (es : List (Nat × List Byte)) (st : Decomp) : Decomp :=
  { st with functions := setEndIndices (sortByOpIndex (st.functions ++ es.map entryFunction)) }

/-- What a StringTable segment with the NUL-terminated strings `ss` does to the state of the
scan. -/
def addStrings (ss : List (List Byte)) (st : Decomp) : Decomp :=
  { st with stringTable := st.stringTable ++ ss }

/-- What a Bytecode segment at payload offset `offset` does to the state of the scan. -/
def sliceAll (data : List Byte) (offset length : Nat) (st : Decomp) : Decomp :=
  { st with functions := st.functions.map (sliceFunction data offset length) }

/-- State after the scan of a container in which the FunctionTable segment with the entries
`es` comes before the Bytecode segment with the payload `code`: every function holds its
slice of the payload. -/
def scanWithSlices (es : List (Nat × List Byte)) (ss : List (List Byte)) (code : List Byte) :
    Decomp :=
  { Decomp.empty with
      functions := (functionsOf es).map (payloadSlice code), stringTable := ss }

/-- State after the scan of a container in which the Bytecode segment comes before the
FunctionTable segment with the entries `es`: no function holds a slice. -/
def scanWithoutSlices (es : List (Nat × List Byte)) (ss : List (List Byte)) : Decomp :=
  { Decomp.empty with functions := functionsOf es, stringTable := ss }

/-- A FunctionTable segment with the entries (0, "f") and (2, "f"), which share their name,
followed by a Bytecode segment with the payload 07 07 08. -/
def bufSharedSlices : List Byte :=
  [0, 0, 0, 2, 0, 0, 0, 12, 0, 0, 0, 0, 0x66, 0, 0, 0, 0, 2, 0x66, 0,
   0, 0, 0, 4, 0, 0, 0, 3, 7, 7, 8]

/-- State of the decompiler after `bufSharedSlices` has been loaded. -/
def stSharedSlices : Decomp :=
  { Decomp.empty with
      functions := [⟨[0x66], 0, 2, [7, 7]⟩, ⟨[0x66], 2, UINT32_MAX, [8]⟩],
      functionInstructions := [([0x66], [⟨8, 0, 0, []⟩])] }

/-- Two FunctionTable segments and two StringTable segments in alternation: the entries
(1, "a"), the string "x", the entries (0, "b"), the string "y". -/
def bufRepeated : List Byte :=
  [0, 0, 0, 2, 0, 0, 0, 6, 0, 0, 0, 1, 0x61, 0,
   0, 0, 0, 3, 0, 0, 0, 2, 0x78, 0,
   0, 0, 0, 2, 0, 0, 0, 6, 0, 0, 0, 0, 0x62, 0,
   0, 0, 0, 3, 0, 0, 0, 2, 0x79, 0]

/-- State of the decompiler after `bufRepeated` has been loaded. -/
def stRepeated : Decomp :=
  { Decomp.empty with
      functions := [⟨[0x62], 0, 1, []⟩, ⟨[0x61], 1, UINT32_MAX, []⟩],
      stringTable := [[0x78], [0x79]],
      functionInstructions := [([0x62], []), ([0x61], [])] }

/-! ## Loop lemmas -/

theorem runLoop_mono {σ ρ : Type} (step : σ → LoopStep σ ρ) :
    ∀ (n m : Nat) (s : σ) (r : ρ), runLoop step n s = some r → n ≤ m →
      runLoop step m s = some r
  | 0, _, _, _, h, _ => by simp [runLoop] at h
  | n + 1, 0, _, _, _, hle => by omega
  | n + 1, m + 1, s, r, h, hle => by
    simp only [runLoop] at h ⊢
    cases hs : step s with
    | «continue» s' =>
      rw [hs] at h
      exact runLoop_mono step n m s' r h (by omega)
    | exit r' =>
      rw [hs] at h
      exact h

theorem runLoop_total {σ ρ : Type} (step : σ → LoopStep σ ρ) (μ : σ → Nat)
    (hdec : ∀ s s', step s = .continue s' → μ s' < μ s) :
    ∀ (n : Nat) (s : σ), μ s < n → ∃ r, runLoop step n s = some r
  | 0, _, h => by omega
  | n + 1, s, h => by
    simp only [runLoop]
    cases hs : step s with
    | «continue» s' =>
      have := hdec s s' hs
      exact runLoop_total step μ hdec n s' (by omega)
    | exit r' => exact ⟨r', rfl⟩

/-! ## Buffer lemmas -/

theorem byteAt_lt (buf : List Byte) (i : Nat) : byteAt buf i < 256 := (buf.getD i 0).isLt

theorem or_shift8 (a b : Nat) (hb : b < 256) : (a <<< 8) ||| b = a * 256 + b := by
  have h := Nat.mul_add_lt_is_or (i := 8) (b := b) (by simpa using hb) a
  rw [Nat.shiftLeft_eq, Nat.mul_comm a, ← h]

theorem readU16BE_eq (buf : List Byte) (pos : Nat) :
    readU16BE buf pos = byteAt buf pos * 256 + byteAt buf (pos + 1) := by
  unfold readU16BE
  exact or_shift8 _ _ (byteAt_lt _ _)

theorem or_bytes4 (a b c d : Nat) (hb : b < 256) (hc : c < 256) (hd : d < 256) :
    (a <<< 24) ||| (b <<< 16) ||| (c <<< 8) ||| d =
      a * 16777216 + b * 65536 + c * 256 + d := by
  have e1 := Nat.mul_add_lt_is_or (i := 24) (b := b * 2 ^ 16) (by omega) a
  have e2 := Nat.mul_add_lt_is_or (i := 16) (b := c * 2 ^ 8) (by omega) (a * 256 + b)
  have e3 := Nat.mul_add_lt_is_or (i := 8) (b := d) (by omega) (a * 65536 + b * 256 + c)
  have f1 : a * 2 ^ 24 ||| b * 2 ^ 16 = 2 ^ 16 * (a * 256 + b) := by
    rw [Nat.mul_comm a, ← e1]; ring
  have f2 : 2 ^ 16 * (a * 256 + b) ||| c * 2 ^ 8 = 2 ^ 8 * (a * 65536 + b * 256 + c) := by
    rw [← e2]; ring
  rw [Nat.shiftLeft_eq, Nat.shiftLeft_eq, Nat.shiftLeft_eq, f1, f2, ← e3]
  ring

theorem readU32BE_eq (buf : List Byte) (pos : Nat) :
    readU32BE buf pos = byteAt buf pos * 16777216 + byteAt buf (pos + 1) * 65536 +
      byteAt buf (pos + 2) * 256 + byteAt buf (pos + 3) := by
  unfold readU32BE
  have h0 := byteAt_lt buf pos
  have h1 := byteAt_lt buf (pos + 1)
  have h2 := byteAt_lt buf (pos + 2)
  have h3 := byteAt_lt buf (pos + 3)
  rw [or_bytes4 _ _ _ _ h1 h2 h3]
  omega

theorem readU32BE_lt (buf : List Byte) (pos : Nat) : readU32BE buf pos < 2 ^ 32 :=
  Nat.mod_lt _ (by norm_num)

theorem bytesAt_succ (buf : List Byte) (pos n : Nat) (h : pos < buf.length) :
    bytesAt buf pos (n + 1) = buf.getD pos 0 :: bytesAt buf (pos + 1) n := by
  unfold bytesAt
  rw [List.drop_eq_getElem_cons h, List.take_succ_cons, List.getD_eq_getElem _ _ h]

theorem bytesAt_zero (buf : List Byte) (pos : Nat) : bytesAt buf pos 0 = [] := by
  simp [bytesAt]

theorem bigEndian_bytesAt_one (buf : List Byte) (pos : Nat) (h : pos + 1 ≤ buf.length) :
    bigEndian (bytesAt buf pos 1) = byteAt buf pos := by
  rw [bytesAt_succ _ _ _ (by omega), bytesAt_zero]
  simp [bigEndian, byteAt]

theorem bigEndian_bytesAt_two (buf : List Byte) (pos : Nat) (h : pos + 2 ≤ buf.length) :
    bigEndian (bytesAt buf pos 2) = byteAt buf pos * 256 + byteAt buf (pos + 1) := by
  rw [bytesAt_succ _ _ _ (by omega), bytesAt_succ _ _ _ (by omega), bytesAt_zero]
  simp [bigEndian, byteAt]

theorem bigEndian_bytesAt_four (buf : List Byte) (pos : Nat) (h : pos + 4 ≤ buf.length) :
    bigEndian (bytesAt buf pos 4) = byteAt buf pos * 16777216 + byteAt buf (pos + 1) * 65536 +
      byteAt buf (pos + 2) * 256 + byteAt buf (pos + 3) := by
  rw [bytesAt_succ _ _ _ (by omega), bytesAt_succ _ _ _ (by omega),
    bytesAt_succ _ _ _ (by omega), bytesAt_succ _ _ _ (by omega), bytesAt_zero]
  simp only [bigEndian, byteAt, List.foldl_cons, List.foldl_nil]
  ring

theorem readU32BE_eq_bigEndian (buf : List Byte) (pos : Nat) (h : pos + 4 ≤ buf.length) :
    readU32BE buf pos = bigEndian (bytesAt buf pos 4) := by
  rw [readU32BE_eq, bigEndian_bytesAt_four _ _ h]

theorem bytesAt_length (buf : List Byte) (pos n : Nat) (h : pos + n ≤ buf.length) :
    (bytesAt buf pos n).length = n := by
  simp [bytesAt]; omega

/-! ## The string reader -/

theorem readCString_ge (buf : List Byte) (pos : Nat) : pos ≤ (readCString buf pos).2 := by
  unfold readCString
  dsimp only
  split_ifs <;> omega

theorem readCString_gt (buf : List Byte) (pos : Nat) (h : pos < buf.length) :
    pos < (readCString buf pos).2 := by
  unfold readCString
  dsimp only
  split_ifs <;> omega

theorem readCString_le (buf : List Byte) (pos : Nat) (h : pos ≤ buf.length) :
    (readCString buf pos).2 ≤ buf.length := by
  unfold readCString
  dsimp only
  have := (List.takeWhile_sublist (l := buf.drop pos)
    (fun b : Byte => decide (b.val ≠ 0))).length_le
  rw [List.length_drop] at this
  split_ifs <;> omega

/-! ## Termination of the segment parsers -/

theorem parseFunctionTable_loop_total (data : List Byte) (endPos : Nat)
    (s : Nat × List FunctionInfo) :
    ∃ r, runLoop (functionTableStep data endPos) (data.length + 1) s = some r := by
  apply runLoop_total (functionTableStep data endPos) (fun s => data.length - s.1)
  · intro s s' h
    unfold functionTableStep at h
    split_ifs at h with h1 h2
    simp only [LoopStep.continue.injEq] at h
    subst h
    have := readCString_ge data (s.1 + 4)
    show data.length - (readCString data (s.1 + 4)).2 < data.length - s.1
    omega
  · show data.length - s.1 < data.length + 1
    omega

theorem parseFunctionTable_total (data : List Byte) (offset length : Nat) (st : Decomp) :
    ∃ r, parseFunctionTable data offset length st = some r := by
  unfold parseFunctionTable
  obtain ⟨⟨ok, fns⟩, hr⟩ := parseFunctionTable_loop_total data (offset + length)
    (offset, st.functions)
  rw [hr]
  cases ok <;> simp

theorem parseStringTable_loop_total (data : List Byte) (offset length : Nat)
    (tab : List (List Byte)) (hb : offset + length ≤ data.length) :
    ∃ r, runLoop (stringTableStep data (offset + length)) (length + 1) (offset, tab) =
      some r := by
  apply runLoop_total (stringTableStep data (offset + length))
    (fun s => offset + length - s.1)
  · intro s s' h
    unfold stringTableStep at h
    split_ifs at h with h1
    simp only [LoopStep.continue.injEq] at h
    subst h
    have := readCString_gt data s.1 (by omega)
    show offset + length - (readCString data s.1).2 < offset + length - s.1
    omega
  · show offset + length - offset < length + 1
    omega

theorem parseStringTable_total (data : List Byte) (offset length : Nat) (st : Decomp)
    (hb : offset + length ≤ data.length) :
    ∃ st', parseStringTable data offset length st = some (true, st') := by
  unfold parseStringTable
  obtain ⟨tab, hr⟩ := parseStringTable_loop_total data offset length st.stringTable hb
  rw [hr]
  exact ⟨_, rfl⟩

theorem dispatchSegment_total (data : List Byte) (segType pos segLength : Nat) (st : Decomp)
    (hb : pos + segLength ≤ data.length) :
    ∃ r, dispatchSegment data segType pos segLength st = some r := by
  unfold dispatchSegment
  split_ifs
  · exact ⟨_, rfl⟩
  · exact parseFunctionTable_total data pos segLength st
  · obtain ⟨st', h⟩ := parseStringTable_total data pos segLength st hb
    exact ⟨_, h⟩
  · exact ⟨_, rfl⟩
  · exact ⟨_, rfl⟩

theorem segmentStep_total (data : List Byte) (pos : Nat) (st : Decomp) :
    ∃ r, segmentStep data pos st = some r := by
  unfold segmentStep
  dsimp only
  split_ifs with h1 h2 h3 h4
  · exact ⟨_, rfl⟩
  · exact ⟨_, rfl⟩
  · exact ⟨_, rfl⟩
  · obtain ⟨⟨ok, st'⟩, hr⟩ := dispatchSegment_total data (readU32BE data pos) (pos + 8)
      (readU32BE data (pos + 4)) st (by omega)
    rw [hr]
    cases ok <;> exact ⟨_, rfl⟩
  · exact ⟨_, rfl⟩

/-- A pass of the scanner loop that goes on to another header has consumed a whole segment
that lies inside the buffer. -/
theorem segmentStep_next {data : List Byte} {pos pos' : Nat} {st st' : Decomp}
    (h : segmentStep data pos st = some (.next pos' st')) :
    pos + 8 ≤ data.length ∧ pos' = pos + 8 + readU32BE data (pos + 4) ∧
      pos' ≤ data.length := by
  unfold segmentStep at h
  dsimp only at h
  split_ifs at h with h1 h2 h3 h4
  · simp at h
  · simp at h
  · simp at h
  · obtain ⟨⟨ok, st''⟩, hr⟩ := dispatchSegment_total data (readU32BE data pos) (pos + 8)
      (readU32BE data (pos + 4)) st (by omega)
    rw [hr] at h
    cases ok
    · simp at h
    · simp only [Option.some.injEq, ScanStep.next.injEq] at h
      omega
  · simp at h

theorem segmentLoop_total (data : List Byte) (n : Nat) (s : Nat × Decomp)
    (h : data.length - s.1 < n) :
    ∃ r, runLoop (segmentLoopStep data) n s = some r := by
  apply runLoop_total (segmentLoopStep data) (fun s => data.length - s.1) _ n s h
  intro s s' hs
  unfold segmentLoopStep at hs
  split at hs
  · simp at hs
  · simp at hs
  · simp at hs
  · rename_i pos st hstep
    simp only [LoopStep.continue.injEq] at hs
    subst hs
    have := segmentStep_next hstep
    show data.length - pos < data.length - s.1
    omega

/-- The scanner returns: its loop never runs out of fuel and no sub-parser diverges. -/
theorem parseSegmentsFrom_total (data : List Byte) (pos : Nat) (st : Decomp) :
    ∃ r, runLoop (segmentLoopStep data) (data.length + 1) (pos, st) = some r :=
  segmentLoop_total data _ _ (by show data.length - pos < data.length + 1; omega)

theorem runLoop_exit_of {σ ρ : Type} (step : σ → LoopStep σ ρ) (P : ρ → Prop)
    (hexit : ∀ s r, step s = .exit r → P r) :
    ∀ (n : Nat) (s : σ) (r : ρ), runLoop step n s = some r → P r
  | 0, _, _, h => by simp [runLoop] at h
  | n + 1, s, r, h => by
    simp only [runLoop] at h
    cases hs : step s with
    | «continue» s' =>
      rw [hs] at h
      exact runLoop_exit_of step P hexit n s' r h
    | exit r' =>
      rw [hs] at h
      simp only [Option.some.injEq] at h
      subst h
      exact hexit s r' hs

/-- The scanner loop entered anywhere returns a flag and a state. -/
theorem parseSegmentsFrom_some (data : List Byte) (pos : Nat) (st : Decomp) :
    ∃ r, parseSegmentsFrom data pos st = some r := by
  obtain ⟨r, hr⟩ := parseSegmentsFrom_total data pos st
  have hne : r ≠ none := by
    apply runLoop_exit_of (segmentLoopStep data) (fun r => r ≠ none) _ _ _ r hr
    intro s r' hs
    unfold segmentLoopStep at hs
    obtain ⟨q, hq⟩ := segmentStep_total data s.1 s.2
    rw [hq] at hs
    cases q <;> simp at hs <;> simp [← hs]
  cases r with
  | none => exact absurd rfl hne
  | some r => exact ⟨r, by simp [parseSegmentsFrom, hr]⟩

/-- The segment scanner returns for every buffer. -/
theorem parseSegments_total (data : List Byte) (st : Decomp) :
    ∃ r, parseSegments data st = some r :=
  parseSegmentsFrom_some data 0 st

theorem parseSegmentsFrom_done {data : List Byte} {pos : Nat} {st st' : Decomp}
    (h : segmentStep data pos st = some (.done st')) :
    parseSegmentsFrom data pos st = some (true, st') := by
  simp [parseSegmentsFrom, runLoop, segmentLoopStep, h]

theorem parseSegmentsFrom_fail {data : List Byte} {pos : Nat} {st st' : Decomp}
    (h : segmentStep data pos st = some (.fail st')) :
    parseSegmentsFrom data pos st = some (false, st') := by
  simp [parseSegmentsFrom, runLoop, segmentLoopStep, h]

theorem parseSegmentsFrom_next {data : List Byte} {pos pos' : Nat} {st st' : Decomp}
    (h : segmentStep data pos st = some (.next pos' st')) :
    parseSegmentsFrom data pos st = parseSegmentsFrom data pos' st' := by
  have hn := segmentStep_next h
  obtain ⟨r, hr⟩ := segmentLoop_total data data.length (pos', st')
    (by show data.length - pos' < data.length; omega)
  have hr' := runLoop_mono _ _ (data.length + 1) _ _ hr (by omega)
  simp only [parseSegmentsFrom, runLoop, segmentLoopStep, h]
  rw [hr]
  simp only [runLoop, segmentLoopStep] at hr'
  rw [hr']

/-- The result of the whole scan is the result of the loop resumed at any state it
reaches. -/
theorem parseSegments_of_reaches {data : List Byte} {pos : Nat} {st : Decomp}
    (h : ScanReaches data pos st) :
    parseSegments data Decomp.empty = parseSegmentsFrom data pos st := by
  induction h with
  | start => rfl
  | step _ hstep ih => rw [ih, parseSegmentsFrom_next hstep]

theorem loadBytecode_of_scan_fail (ops : Opcodes) {data : List Byte} {pos : Nat}
    {st st' : Decomp} (h : ScanReaches data pos st)
    (hstep : segmentStep data pos st = some (.fail st')) :
    loadBytecode ops data = some (false, st') := by
  unfold loadBytecode
  rw [parseSegments_of_reaches h, parseSegmentsFrom_fail hstep]

/-! ## Error text of the segment parsers -/

theorem parseFunctionTable_error {data : List Byte} {offset length : Nat} {st st' : Decomp}
    {ok : Bool} (h : parseFunctionTable data offset length st = some (ok, st')) :
    (ok = true → st'.error = st.error) ∧
      (ok = false → st'.error = "Invalid function table entry") := by
  unfold parseFunctionTable at h
  split at h
  · simp at h
  · simp only [Option.some.injEq, Prod.mk.injEq] at h
    obtain ⟨h1, h2⟩ := h
    subst h1 h2
    simp
  · simp only [Option.some.injEq, Prod.mk.injEq] at h
    obtain ⟨h1, h2⟩ := h
    subst h1 h2
    simp

theorem parseStringTable_error {data : List Byte} {offset length : Nat} {st st' : Decomp}
    {ok : Bool} (h : parseStringTable data offset length st = some (ok, st')) :
    ok = true ∧ st'.error = st.error := by
  unfold parseStringTable at h
  split at h
  · simp at h
  · simp only [Option.some.injEq, Prod.mk.injEq] at h
    obtain ⟨h1, h2⟩ := h
    subst h1 h2
    simp

theorem dispatchSegment_error {data : List Byte} {segType pos segLength : Nat}
    {st st' : Decomp} {ok : Bool}
    (h : dispatchSegment data segType pos segLength st = some (ok, st')) :
    (ok = true → st'.error = st.error) ∧
      (ok = false → st'.error = "Invalid function table entry") := by
  unfold dispatchSegment at h
  split_ifs at h
  · simp only [parseGS1Flags, Option.some.injEq, Prod.mk.injEq] at h
    obtain ⟨h1, h2⟩ := h
    subst h1 h2
    simp
  · exact parseFunctionTable_error h
  · have := parseStringTable_error h
    simp [this.1, this.2]
  · simp only [parseBytecodeSegment, Option.some.injEq, Prod.mk.injEq] at h
    obtain ⟨h1, h2⟩ := h
    subst h1 h2
    simp
  · simp only [Option.some.injEq, Prod.mk.injEq] at h
    obtain ⟨h1, h2⟩ := h
    subst h1 h2
    simp

/-- What a pass of the scanner loop does at a complete header with a known type whose
payload lies inside the buffer: it runs the sub-parser and either moves to the end of the
payload or fails with the sub-parser's error. -/
theorem segmentStep_in_bounds (data : List Byte) (pos : Nat) (st : Decomp)
    (hhdr : pos + 8 ≤ data.length)
    (htype : 1 ≤ readU32BE data pos ∧ readU32BE data pos ≤ 4)
    (hlen : pos + 8 + readU32BE data (pos + 4) ≤ data.length) :
    ∃ ok st', dispatchSegment data (readU32BE data pos) (pos + 8)
        (readU32BE data (pos + 4)) st = some (ok, st') ∧
      segmentStep data pos st =
        some (if ok then .next (pos + 8 + readU32BE data (pos + 4)) st' else .fail st') := by
  obtain ⟨⟨ok, st'⟩, hr⟩ := dispatchSegment_total data (readU32BE data pos) (pos + 8)
    (readU32BE data (pos + 4)) st hlen
  refine ⟨ok, st', hr, ?_⟩
  unfold segmentStep
  dsimp only
  rw [if_pos (by omega), if_neg (by omega), if_neg (by omega), if_neg (by omega), hr]
  cases ok <;> rfl

theorem segmentStep_next_error {data : List Byte} {pos pos' : Nat} {st st' : Decomp}
    (h : segmentStep data pos st = some (.next pos' st')) : st'.error = st.error := by
  have hn := segmentStep_next h
  have hty : 1 ≤ readU32BE data pos ∧ readU32BE data pos ≤ 4 := by
    unfold segmentStep at h
    dsimp only at h
    split_ifs at h with h1 h2 h3 h4
    · simp at h
    · simp at h
    · simp at h
    · omega
    · simp at h
  obtain ⟨ok, st'', hd, hs⟩ := segmentStep_in_bounds data pos st hn.1 hty (by omega)
  rw [hs] at h
  cases ok
  · simp at h
  · simp only [if_true, Option.some.injEq, ScanStep.next.injEq] at h
    rw [← h.2]
    exact (dispatchSegment_error hd).1 rfl

/-- While the scan goes on no error text has been set. -/
theorem ScanReaches.error_eq {data : List Byte} {pos : Nat} {st : Decomp}
    (h : ScanReaches data pos st) : st.error = "" := by
  induction h with
  | start => rfl
  | step _ hstep ih => rw [segmentStep_next_error hstep, ih]

/-! ## Segment scanner: claims -/

/-- C1: when the segment scan of a buffer reaches a complete 8-byte header whose big-endian
type code is not 1, 2, 3 or 4, the load returns false and the error text is
"Invalid segment type: " followed by the decimal type code; nothing is assumed about the
length field or about the segments scanned before. -/
theorem C1_invalid_segment_type (ops : Opcodes) (data : List Byte) (pos : Nat) (st : Decomp)
    (hreach : ScanReaches data pos st) (hhdr : pos + 8 ≤ data.length)
    (htype : bigEndian (bytesAt data pos 4) < 1 ∨ 4 < bigEndian (bytesAt data pos 4)) :
    ∃ st', loadBytecode ops data = some (false, st') ∧
      st'.error = "Invalid segment type: " ++ toString (bigEndian (bytesAt data pos 4)) := by
  rw [← readU32BE_eq_bigEndian data pos (by omega)] at htype ⊢
  refine ⟨st.setError ("Invalid segment type: " ++ toString (readU32BE data pos)), ?_, rfl⟩
  apply loadBytecode_of_scan_fail ops hreach
  unfold segmentStep
  dsimp only
  rw [if_pos (by omega), if_neg (by omega), if_pos (by omega)]

theorem C1_invalid_segment_type_witness :
    ∃ st', loadBytecode sampleOpcodes bufBadType = some (false, st') ∧
      st'.error = "Invalid segment type: 7" := by
  obtain ⟨st', h1, h2⟩ := C1_invalid_segment_type sampleOpcodes bufBadType 9 Decomp.empty
    (ScanReaches.step ScanReaches.start (by decide)) (by decide) (by decide)
  refine ⟨st', h1, ?_⟩
  rw [h2]
  decide

/-- C2: when the segment scan reaches a complete header with type code in 1..4 and
big-endian length L, then (a) if payloadStart + L exceeds the buffer length the load returns
false with the error "Segment extends beyond file bounds", and (b) if payloadStart + L is
within the buffer that error is not raised for this header: the pass over this header either
moves on to payloadStart + L with no error text set, or fails with the function-table
error. -/
theorem C2_segment_bounds (ops : Opcodes) (data : List Byte) (pos : Nat) (st : Decomp)
    (hreach : ScanReaches data pos st) (hhdr : pos + 8 ≤ data.length)
    (htype : 1 ≤ bigEndian (bytesAt data pos 4) ∧ bigEndian (bytesAt data pos 4) ≤ 4) :
    (pos + 8 + bigEndian (bytesAt data (pos + 4) 4) > data.length →
      ∃ st', loadBytecode ops data = some (false, st') ∧
        st'.error = "Segment extends beyond file bounds") ∧
    (pos + 8 + bigEndian (bytesAt data (pos + 4) 4) ≤ data.length →
      (∃ st', segmentStep data pos st =
          some (.next (pos + 8 + bigEndian (bytesAt data (pos + 4) 4)) st') ∧
        st'.error = "") ∨
      (∃ st', segmentStep data pos st = some (.fail st') ∧
        st'.error = "Invalid function table entry" ∧
        st'.error ≠ "Segment extends beyond file bounds")) := by
  rw [← readU32BE_eq_bigEndian data pos (by omega)] at htype
  rw [← readU32BE_eq_bigEndian data (pos + 4) (by omega)]
  constructor
  · intro hlen
    refine ⟨st.setError "Segment extends beyond file bounds", ?_, rfl⟩
    apply loadBytecode_of_scan_fail ops hreach
    unfold segmentStep
    dsimp only
    rw [if_pos (by omega), if_neg (by omega), if_neg (by omega), if_pos (by omega)]
  · intro hlen
    obtain ⟨ok, st', hd, hs⟩ := segmentStep_in_bounds data pos st hhdr htype hlen
    cases ok
    · right
      refine ⟨st', by simpa using hs, ?_⟩
      rw [(dispatchSegment_error hd).2 rfl]
      exact ⟨rfl, by decide⟩
    · left
      refine ⟨st', by simpa using hs, ?_⟩
      rw [(dispatchSegment_error hd).1 rfl, hreach.error_eq]

theorem C2_segment_bounds_witness :
    (∃ st', loadBytecode sampleOpcodes bufTruncated = some (false, st') ∧
      st'.error = "Segment extends beyond file bounds") ∧
    ((∃ st', segmentStep bufTwoFunctions 0 Decomp.empty = some (.next 20 st') ∧
        st'.error = "") ∨
      (∃ st', segmentStep bufTwoFunctions 0 Decomp.empty = some (.fail st') ∧
        st'.error = "Invalid function table entry" ∧
        st'.error ≠ "Segment extends beyond file bounds")) :=
  ⟨(C2_segment_bounds sampleOpcodes bufTruncated 9 Decomp.empty
      (ScanReaches.step ScanReaches.start (by decide)) (by decide) (by decide)).1 (by decide),
    (C2_segment_bounds sampleOpcodes bufTwoFunctions 0 Decomp.empty ScanReaches.start
      (by decide) (by decide)).2 (by decide)⟩

/-! ## Function table -/

theorem sortByOpIndex_sorted (fns : List FunctionInfo) :
    (sortByOpIndex fns).Pairwise (fun a b => a.opIndex ≤ b.opIndex) :=
  List.sorted_insertionSort (fun a b : FunctionInfo => a.opIndex ≤ b.opIndex) fns

theorem sortByOpIndex_perm (fns : List FunctionInfo) : (sortByOpIndex fns).Perm fns :=
  List.perm_insertionSort (fun a b : FunctionInfo => a.opIndex ≤ b.opIndex) fns

theorem setEndIndices_map_entry (l : List FunctionInfo) :
    (setEndIndices l).map FunctionInfo.entry = l.map FunctionInfo.entry := by
  induction l with
  | nil => rfl
  | cons f t ih =>
    cases t with
    | nil => rfl
    | cons g rest =>
      simp only [setEndIndices, List.map_cons] at ih ⊢
      rw [ih]
      rfl

theorem setEndIndices_map_opIndex (l : List FunctionInfo) :
    (setEndIndices l).map (fun f => f.opIndex) = l.map (fun f => f.opIndex) := by
  have h := congrArg (List.map Prod.snd) (setEndIndices_map_entry l)
  simpa [List.map_map, Function.comp_def, FunctionInfo.entry] using h

theorem setEndIndices_map_bytecode (l : List FunctionInfo) :
    (setEndIndices l).map (fun f => f.bytecode) = l.map (fun f => f.bytecode) := by
  induction l with
  | nil => rfl
  | cons f t ih =>
    cases t with
    | nil => rfl
    | cons g rest =>
      simp only [setEndIndices, List.map_cons] at ih ⊢
      rw [ih]

theorem setEndIndices_chain (l : List FunctionInfo) :
    ∀ (i : Nat) (f g : FunctionInfo), (setEndIndices l)[i]? = some f →
      (setEndIndices l)[i + 1]? = some g → f.endOpIndex = g.opIndex := by
  induction l with
  | nil => intro i f g h; simp [setEndIndices] at h
  | cons a t ih =>
    cases t with
    | nil => intro i f g _ h; simp [setEndIndices] at h
    | cons b rest =>
      intro i f g hf hg
      rw [setEndIndices] at hf hg
      cases i with
      | zero =>
        simp only [List.getElem?_cons_zero, Option.some.injEq] at hf
        simp only [zero_add, List.getElem?_cons_succ] at hg
        have hb : (setEndIndices (b :: rest))[0]?.map (fun f => f.opIndex) = some b.opIndex := by
          have := congrArg (fun l => l[0]?) (setEndIndices_map_opIndex (b :: rest))
          simpa using this
        rw [hg] at hb
        simp only [Option.map_some', Option.some.injEq] at hb
        rw [← hf, hb]
      | succ j =>
        simp only [List.getElem?_cons_succ] at hf hg
        exact ih j f g hf hg

theorem setEndIndices_last (l : List FunctionInfo) :
    ∀ f : FunctionInfo, (setEndIndices l).getLast? = some f → f.endOpIndex = UINT32_MAX := by
  induction l with
  | nil => intro f h; simp [setEndIndices] at h
  | cons a t ih =>
    cases t with
    | nil =>
      intro f h
      simp only [setEndIndices, List.getLast?_singleton, Option.some.injEq] at h
      rw [← h]
    | cons b rest =>
      intro f h
      rw [setEndIndices] at h
      cases hr : setEndIndices (b :: rest) with
      | nil =>
        have := congrArg List.length (setEndIndices_map_entry (b :: rest))
        simp [hr] at this
      | cons c u =>
        rw [hr, List.getLast?_cons_cons, ← hr] at h
        exact ih f h

/-- The reading loop only appends to the function list it starts from. -/
theorem functionTable_loop_append (data : List Byte) (endPos : Nat) :
    ∀ (n pos : Nat) (acc : List FunctionInfo),
      runLoop (functionTableStep data endPos) n (pos, acc) =
        (runLoop (functionTableStep data endPos) n (pos, [])).map
          (fun r => (r.1, acc ++ r.2)) := by
  intro n
  induction n with
  | zero => intro pos acc; rfl
  | succ n ih =>
    intro pos acc
    simp only [runLoop, functionTableStep]
    split_ifs with h1 h2
    · simp
    · simp only [List.nil_append]
      rw [ih _ (acc ++ _), ih _ [_]]
      simp [Option.map_map, Function.comp_def]
    · simp

/-- The sentinel end is resolved to the end of the Bytecode segment. -/
theorem funcEnd_sentinel (data : List Byte) (offset length : Nat) (f : FunctionInfo)
    (hf : f.endOpIndex = UINT32_MAX) (hb : offset + length ≤ data.length) :
    funcEnd data offset length f = offset + length := by
  unfold funcEnd
  dsimp only
  rw [if_pos hf, if_neg (by omega)]

/-- C3: parsing a FunctionTable segment (on top of the entries of any earlier FunctionTable
segments) always returns, and when it succeeds the function list is sorted ascending by
opIndex, every entry but the last has endOpIndex equal to the next entry's opIndex, the last
entry's endOpIndex is the sentinel UINT32_MAX, which the slicer resolves to the end of the
Bytecode segment, and the list is a permutation (as name/opIndex pairs) of the entries
read. -/
theorem C3_function_table_closed (data : List Byte) (offset length : Nat) (st : Decomp) :
    ∃ ok st', parseFunctionTable data offset length st = some (ok, st') ∧
      (ok = true →
        st'.functions.Pairwise (fun a b => a.opIndex ≤ b.opIndex) ∧
        (∀ (i : Nat) (f g : FunctionInfo), st'.functions[i]? = some f →
          st'.functions[i + 1]? = some g → f.endOpIndex = g.opIndex) ∧
        (∀ f : FunctionInfo, st'.functions.getLast? = some f →
          f.endOpIndex = UINT32_MAX ∧
          ∀ (buf : List Byte) (B L : Nat), B + L ≤ buf.length → funcEnd buf B L f = B + L) ∧
        (∃ entries, readFunctionEntries data offset length = some (true, entries) ∧
          (st'.functions.map FunctionInfo.entry).Perm
            ((st.functions ++ entries).map FunctionInfo.entry))) := by
  obtain ⟨⟨ok, st'⟩, h⟩ := parseFunctionTable_total data offset length st
  refine ⟨ok, st', h, ?_⟩
  intro hok
  subst hok
  unfold parseFunctionTable at h
  rw [functionTable_loop_append] at h
  cases hr : runLoop (functionTableStep data (offset + length)) (data.length + 1)
      (offset, []) with
  | none => rw [hr] at h; simp at h
  | some r =>
    obtain ⟨ok, entries⟩ := r
    rw [hr] at h
    cases ok
    · simp at h
    · simp only [Option.map_some', Option.some.injEq, Prod.mk.injEq, true_and] at h
      subst h
      dsimp only
      refine ⟨?_, setEndIndices_chain _, ?_, entries, hr, ?_⟩
      · have hs : ((sortByOpIndex (st.functions ++ entries)).map
            (fun f : FunctionInfo => f.opIndex)).Pairwise (fun a b => a ≤ b) :=
          List.pairwise_map.mpr (sortByOpIndex_sorted _)
        rw [← setEndIndices_map_opIndex] at hs
        exact List.pairwise_map.mp hs
      · intro f hf
        have hmax := setEndIndices_last _ f hf
        exact ⟨hmax, fun buf B L hb => funcEnd_sentinel buf B L f hmax hb⟩
      · rw [setEndIndices_map_entry]
        exact (sortByOpIndex_perm _).map _

theorem C3_function_table_closed_witness :
    parseFunctionTable bufFunctionTable 0 18 Decomp.empty = some (true, stFunctionTable) ∧
    stFunctionTable.functions.Pairwise (fun a b => a.opIndex ≤ b.opIndex) ∧
    (∀ (i : Nat) (f g : FunctionInfo), stFunctionTable.functions[i]? = some f →
      stFunctionTable.functions[i + 1]? = some g → f.endOpIndex = g.opIndex) := by
  obtain ⟨ok, st', h, hp⟩ := C3_function_table_closed bufFunctionTable 0 18 Decomp.empty
  have hc : parseFunctionTable bufFunctionTable 0 18 Decomp.empty =
      some (true, stFunctionTable) := by decide
  rw [hc] at h
  simp only [Option.some.injEq, Prod.mk.injEq] at h
  obtain ⟨h1, h2⟩ := h
  subst h1 h2
  exact ⟨hc, (hp rfl).1, (hp rfl).2.1⟩

/-! ## Bytecode slicer -/

theorem sliceFunction_fields (data : List Byte) (B L : Nat) (f : FunctionInfo) :
    (sliceFunction data B L f).name = f.name ∧ (sliceFunction data B L f).opIndex = f.opIndex ∧
      (sliceFunction data B L f).endOpIndex = f.endOpIndex := by
  unfold sliceFunction
  dsimp only
  split_ifs <;> exact ⟨rfl, rfl, rfl⟩

/-- The slice assigned by the source is the sentinel-resolved clamped slice, for a function
that holds no slice yet. -/
theorem sliceFunction_bytecode (data : List Byte) (B L : Nat) (f : FunctionInfo)
    (hfresh : f.bytecode = []) :
    (sliceFunction data B L f).bytecode = sentinelSlice data B L f := by
  unfold sliceFunction sentinelSlice sliceOf funcStart funcEnd bytesAt
  dsimp only
  by_cases hm : f.endOpIndex = UINT32_MAX
  · simp only [hm, if_true]
    split_ifs <;> (try omega) <;> (try simp only [hfresh]) <;> (try (congr 2 <;> omega))
  · simp only [hm, if_false]
    split_ifs <;> (try omega) <;> (try simp only [hfresh]) <;> (try (congr 2 <;> omega))

/-- A pass of the scanner loop over a Bytecode header whose payload lies inside the buffer
slices every function and moves to the end of the payload. -/
theorem segmentStep_bytecode (data : List Byte) (pos : Nat) (st : Decomp)
    (hhdr : pos + 8 ≤ data.length) (htype : readU32BE data pos = 4)
    (hlen : pos + 8 + readU32BE data (pos + 4) ≤ data.length) :
    segmentStep data pos st = some (.next (pos + 8 + readU32BE data (pos + 4))
      { st with functions :=
          st.functions.map (sliceFunction data (pos + 8) (readU32BE data (pos + 4))) }) := by
  unfold segmentStep
  dsimp only
  rw [if_pos (by omega), if_neg (by omega), if_neg (by omega), if_neg (by omega)]
  simp [dispatchSegment, htype, parseBytecodeSegment]

theorem parseFunctionTable_functions {data : List Byte} {offset length : Nat}
    {st st' : Decomp} (h : parseFunctionTable data offset length st = some (true, st')) :
    ∃ fns, st'.functions = setEndIndices (sortByOpIndex fns) ∧
      st'.stringTable = st.stringTable := by
  unfold parseFunctionTable at h
  split at h
  · simp at h
  · simp at h
  · rename_i fns _
    simp only [Option.some.injEq, Prod.mk.injEq, true_and] at h
    subst h
    exact ⟨fns, rfl, rfl⟩

theorem parseStringTable_functions {data : List Byte} {offset length : Nat}
    {st st' : Decomp} {ok : Bool}
    (h : parseStringTable data offset length st = some (ok, st')) :
    st'.functions = st.functions := by
  unfold parseStringTable at h
  split at h
  · simp at h
  · simp only [Option.some.injEq, Prod.mk.injEq] at h
    rw [← h.2]

theorem dispatchSegment_last {data : List Byte} {segType pos segLength : Nat}
    {st st' : Decomp} (h : dispatchSegment data segType pos segLength st = some (true, st'))
    (hl : ∀ f, st.functions.getLast? = some f → f.endOpIndex = UINT32_MAX) :
    ∀ f, st'.functions.getLast? = some f → f.endOpIndex = UINT32_MAX := by
  unfold dispatchSegment at h
  split_ifs at h
  · simp only [parseGS1Flags, Option.some.injEq, Prod.mk.injEq, true_and] at h
    subst h
    exact hl
  · obtain ⟨fns, hf, _⟩ := parseFunctionTable_functions h
    rw [hf]
    exact setEndIndices_last _
  · rw [parseStringTable_functions h]
    exact hl
  · simp only [parseBytecodeSegment, Option.some.injEq, Prod.mk.injEq, true_and] at h
    subst h
    intro f hf
    simp only [List.getLast?_map, Option.map_eq_some'] at hf
    obtain ⟨g, hg, hgf⟩ := hf
    rw [← hgf, (sliceFunction_fields data pos segLength g).2.2]
    exact hl g hg
  · simp only [Option.some.injEq, Prod.mk.injEq, true_and] at h
    subst h
    exact hl

/-- During a scan the last entry of the function list always carries the sentinel end. -/
theorem ScanReaches.last_sentinel {data : List Byte} {pos : Nat} {st : Decomp}
    (h : ScanReaches data pos st) :
    ∀ f, st.functions.getLast? = some f → f.endOpIndex = UINT32_MAX := by
  induction h with
  | start => intro f hf; simp [Decomp.empty] at hf
  | @step pos pos' st st' _ hstep ih =>
    have hn := segmentStep_next hstep
    have hty : 1 ≤ readU32BE data pos ∧ readU32BE data pos ≤ 4 := by
      unfold segmentStep at hstep
      dsimp only at hstep
      split_ifs at hstep with h1 h2 h3 h4
      · simp at hstep
      · simp at hstep
      · simp at hstep
      · omega
      · simp at hstep
    obtain ⟨ok, st'', hd, hs⟩ := segmentStep_in_bounds data pos st hn.1 hty (by omega)
    rw [hs] at hstep
    cases ok
    · simp at hstep
    · simp only [if_true, Option.some.injEq, ScanStep.next.injEq] at hstep
      rw [← hstep.2]
      exact dispatchSegment_last hd ih

/-- C4 (as stated, refuted): in `bufSentinel` the FunctionTable segment precedes the single
Bytecode segment (payload offset 28, length 2) and the load succeeds, yet the first of the
two functions, which is not the last one, holds the slice 0x11 0x22 while buffer[s, e) with
e = min(B + endOpIndex, bufferLength) is 0x11 0x22 0x33 0x44 0x55. -/
theorem C4_function_slices_counterexample :
    loadBytecode sampleOpcodes bufSentinel = some (true, stSentinelLoaded) ∧
    ∃ f, stSentinelLoaded.functions[0]? = some f ∧ stSentinelLoaded.functions.length = 2 ∧
      f.bytecode = [0x11, 0x22] ∧
      specSlice bufSentinel 28 2 false f = [0x11, 0x22, 0x33, 0x44, 0x55] ∧
      f.bytecode ≠ specSlice bufSentinel 28 2 false f :=
  ⟨by decide, ⟨[0x61], 0, UINT32_MAX, [0x11, 0x22]⟩, by decide, by decide, by decide,
    by decide, by decide⟩

/-- C4 (amended): when the scan stands at a Bytecode header with payload offset B and length
L inside the buffer, and no function holds a slice yet, the pass does not fail and gives
every function the slice buffer[s, e) (empty when s > e) with s = min(B + opIndex,
bufferLength) and with e = min(B + L, bufferLength) when endOpIndex is the sentinel
UINT32_MAX and e = min(B + endOpIndex, bufferLength) otherwise; the last function always
carries the sentinel, so its slice is the one the claim names for it, and so is the slice of
every function whose endOpIndex is not the sentinel. -/
theorem C4_function_slices (data : List Byte) (pos : Nat) (st : Decomp)
    (hreach : ScanReaches data pos st) (hhdr : pos + 8 ≤ data.length)
    (htype : bigEndian (bytesAt data pos 4) = 4)
    (hlen : pos + 8 + bigEndian (bytesAt data (pos + 4) 4) ≤ data.length)
    (hfresh : ∀ f ∈ st.functions, f.bytecode = []) :
    ∃ st', segmentStep data pos st =
        some (.next (pos + 8 + bigEndian (bytesAt data (pos + 4) 4)) st') ∧
      st'.functions = st.functions.map (fun f =>
        { f with bytecode :=
            sentinelSlice data (pos + 8) (bigEndian (bytesAt data (pos + 4) 4)) f }) ∧
      (∀ f, st.functions.getLast? = some f →
        sentinelSlice data (pos + 8) (bigEndian (bytesAt data (pos + 4) 4)) f =
          specSlice data (pos + 8) (bigEndian (bytesAt data (pos + 4) 4)) true f) ∧
      (∀ f, f.endOpIndex ≠ UINT32_MAX →
        sentinelSlice data (pos + 8) (bigEndian (bytesAt data (pos + 4) 4)) f =
          specSlice data (pos + 8) (bigEndian (bytesAt data (pos + 4) 4)) false f) := by
  rw [← readU32BE_eq_bigEndian data pos (by omega)] at htype
  rw [← readU32BE_eq_bigEndian data (pos + 4) (by omega)] at hlen ⊢
  refine ⟨_, segmentStep_bytecode data pos st hhdr htype hlen, ?_, ?_, ?_⟩
  · apply List.map_congr_left
    intro f hf
    have h1 := sliceFunction_fields data (pos + 8) (readU32BE data (pos + 4)) f
    have h2 := sliceFunction_bytecode data (pos + 8) (readU32BE data (pos + 4)) f
      (hfresh f hf)
    cases hsf : sliceFunction data (pos + 8) (readU32BE data (pos + 4)) f
    rw [hsf] at h1 h2
    simp only at h1 h2
    rw [← h1.1, ← h1.2.1, ← h1.2.2, ← h2]
  · intro f hf
    unfold sentinelSlice specSlice
    rw [if_pos (hreach.last_sentinel f hf)]
    simp
  · intro f hf
    unfold sentinelSlice specSlice
    rw [if_neg hf]
    simp

theorem C4_function_slices_witness :
    ∃ st', segmentStep bufTwoFunctions 20 stTwoFunctions = some (.next 31 st') ∧
      st'.functions = [⟨[0x61], 0, 2, [0x11, 0x22]⟩, ⟨[0x62], 2, UINT32_MAX, [0x33]⟩] := by
  obtain ⟨st', h1, h2, _⟩ := C4_function_slices bufTwoFunctions 20 stTwoFunctions
    (ScanReaches.step ScanReaches.start (by decide)) (by decide) (by decide) (by decide)
    (by decide)
  refine ⟨st', h1, ?_⟩
  rw [h2]
  decide

theorem bytesAt_append (buf : List Byte) (p n m : Nat) :
    bytesAt buf p n ++ bytesAt buf (p + n) m = bytesAt buf p (n + m) := by
  unfold bytesAt
  rw [List.take_add, List.drop_drop]

theorem rangesPartitionFrom_le (L : Nat) :
    ∀ (fns : List FunctionInfo) (start : Nat),
      RangesPartitionFrom L start fns → start ≤ L := by
  intro fns
  induction fns with
  | nil => intro start h; exact Nat.le_of_eq h
  | cons f rest ih =>
    intro start h
    obtain ⟨h1, h2, h3⟩ := h
    have := ih _ h3
    omega

/-- Slices of functions whose ranges follow one another from `start` to `L` concatenate to
the payload bytes from `start` on. -/
theorem slices_concat_from (data : List Byte) (B L : Nat) (hb : B + L ≤ data.length) :
    ∀ (fns : List FunctionInfo) (start : Nat), RangesPartitionFrom L start fns →
      ((fns.map (sliceFunction data B L)).map (fun f => f.bytecode)).flatten =
        bytesAt data (B + start) (L - start) := by
  intro fns
  induction fns with
  | nil =>
    intro start h
    have : start = L := h
    subst this
    simp [bytesAt]
  | cons f rest ih =>
    intro start h
    obtain ⟨h1, h2, h3⟩ := h
    have hle := rangesPartitionFrom_le L rest _ h3
    have hslice : (sliceFunction data B L f).bytecode =
        bytesAt data (B + start) (rangeEnd L f - start) := by
      subst h1
      unfold sliceFunction funcStart funcEnd bytesAt
      unfold rangeEnd at h2 hle ⊢
      dsimp only
      by_cases hm : f.endOpIndex = UINT32_MAX
      · simp only [hm, if_true] at h2 hle ⊢
        split_ifs <;> (try omega)
        all_goals (show List.take _ _ = List.take _ _; congr 1; omega)
      · simp only [hm, if_false] at h2 hle ⊢
        split_ifs <;> (try omega)
        all_goals (show List.take _ _ = List.take _ _; congr 1; omega)
    simp only [List.map_cons, List.flatten_cons]
    rw [ih _ h3, hslice]
    have e1 : B + rangeEnd L f = B + start + (rangeEnd L f - start) := by omega
    rw [e1, bytesAt_append]
    congr 1
    omega

/-- C5: when the scanner loop stands, in any state, at a Bytecode header whose payload lies
inside the buffer and the function ranges partition the Bytecode segment (they follow one
another from 0 to the segment length without gap or overlap), the pass gives the functions
slices that, concatenated in function-list order, are exactly the Bytecode segment
payload. -/
theorem C5_slices_concat (data : List Byte) (pos : Nat) (st : Decomp)
    (hhdr : pos + 8 ≤ data.length)
    (htype : bigEndian (bytesAt data pos 4) = 4)
    (hlen : pos + 8 + bigEndian (bytesAt data (pos + 4) 4) ≤ data.length)
    (hpart : RangesPartition (bigEndian (bytesAt data (pos + 4) 4)) st.functions) :
    ∃ st', segmentStep data pos st =
        some (.next (pos + 8 + bigEndian (bytesAt data (pos + 4) 4)) st') ∧
      (st'.functions.map (fun f => f.bytecode)).flatten =
        bytesAt data (pos + 8) (bigEndian (bytesAt data (pos + 4) 4)) := by
  rw [← readU32BE_eq_bigEndian data pos (by omega)] at htype
  rw [← readU32BE_eq_bigEndian data (pos + 4) (by omega)] at hlen hpart ⊢
  refine ⟨_, segmentStep_bytecode data pos st hhdr htype hlen, ?_⟩
  exact slices_concat_from data (pos + 8) _ hlen st.functions 0 hpart

theorem C5_slices_concat_witness :
    RangesPartition 3 stTwoFunctions.functions ∧
    ∃ st', segmentStep bufTwoFunctions 20 stTwoFunctions = some (.next 31 st') ∧
      (st'.functions.map (fun f => f.bytecode)).flatten = [0x11, 0x22, 0x33] :=
  ⟨by decide, C5_slices_concat bufTwoFunctions 20 stTwoFunctions
    (by decide) (by decide) (by decide) (by decide)⟩

/-! ## String table -/

/-- Reading a NUL-terminated string that lies in the buffer yields the string and the
position after its NUL. -/
theorem readCString_terminated (pre s post : List Byte) (hs : NulFree s) :
    readCString (pre ++ s ++ 0 :: post) pre.length = (s, pre.length + s.length + 1) := by
  unfold readCString
  have hdrop : (pre ++ s ++ 0 :: post).drop pre.length = s ++ 0 :: post := by
    rw [List.append_assoc, List.drop_left]
  have htw : (s ++ 0 :: post).takeWhile (fun b => decide (b.val ≠ 0)) = s := by
    rw [List.takeWhile_append_of_pos, List.takeWhile_cons_of_neg (by simp)]
    · simp
    · intro a ha
      have := hs a ha
      simp only [ne_eq, decide_not, Bool.not_eq_true', decide_eq_false_iff_not]
      intro h0
      exact this (Fin.ext h0)
  dsimp only
  rw [hdrop, htw, if_pos (by simp)]

theorem cstrings_cons (s : List Byte) (ss : List (List Byte)) :
    cstrings (s :: ss) = s ++ 0 :: cstrings ss := by
  simp [cstrings]

theorem cstrings_length_ge (ss : List (List Byte)) : ss.length ≤ (cstrings ss).length := by
  induction ss with
  | nil => simp
  | cons s rest ih => rw [cstrings_cons]; simp; omega

theorem cstrings_count (ss : List (List Byte)) (hs : ∀ s ∈ ss, NulFree s) :
    (cstrings ss).count 0 = ss.length := by
  induction ss with
  | nil => simp [cstrings]
  | cons s rest ih =>
    have h0 : s.count 0 = 0 := List.count_eq_zero.mpr (fun h => hs s (by simp) 0 h rfl)
    rw [cstrings_cons, List.count_append, List.count_cons_self, h0,
      ih (fun t ht => hs t (by simp [ht]))]
    simp

/-- The string-table loop over a payload of NUL-terminated strings appends the strings in
order. -/
theorem stringTable_loop_cstrings (post : List Byte) :
    ∀ (ss : List (List Byte)) (pre : List Byte) (tab : List (List Byte)) (fuel : Nat),
      (∀ s ∈ ss, NulFree s) → ss.length + 1 ≤ fuel →
      runLoop (stringTableStep (pre ++ cstrings ss ++ post)
          (pre.length + (cstrings ss).length)) fuel (pre.length, tab) = some (tab ++ ss) := by
  intro ss
  induction ss with
  | nil =>
    intro pre tab fuel _ hf
    obtain ⟨n, rfl⟩ : ∃ n, fuel = n + 1 := ⟨fuel - 1, by omega⟩
    simp [runLoop, stringTableStep, cstrings]
  | cons s rest ih =>
    intro pre tab fuel hs hf
    obtain ⟨n, rfl⟩ : ∃ n, fuel = n + 1 := ⟨fuel - 1, by omega⟩
    have hdata : pre ++ cstrings (s :: rest) ++ post =
        pre ++ s ++ 0 :: (cstrings rest ++ post) := by
      rw [cstrings_cons]; simp
    have hdata' : pre ++ s ++ 0 :: (cstrings rest ++ post) =
        (pre ++ s ++ [0]) ++ cstrings rest ++ post := by simp
    have hend : pre.length + (cstrings (s :: rest)).length =
        (pre ++ s ++ [0]).length + (cstrings rest).length := by
      rw [cstrings_cons]; simp; omega
    have hpos : pre.length + s.length + 1 = (pre ++ s ++ [0]).length := by simp; omega
    simp only [runLoop, stringTableStep]
    rw [if_pos (by rw [cstrings_cons]; simp), hdata,
      readCString_terminated pre s _ (hs s (by simp)), hdata', hend]
    dsimp only
    rw [hpos, ih (pre ++ s ++ [0]) (tab ++ [s]) n (fun t ht => hs t (by simp [ht]))
      (by simp at hf; omega)]
    simp

/-- C6: for a StringTable payload that is the concatenation of NUL-free byte strings
s_1 .. s_n, each followed by one NUL byte, placed anywhere in a buffer, parsing the segment
succeeds and appends exactly s_1 .. s_n in that order to the string table; starting from the
cleared table, the table is exactly the list of the strings, duplicates kept, its length is
the number of NUL bytes of the payload and index k holds s_(k+1). -/
theorem C6_string_table (pre post : List Byte) (ss : List (List Byte)) (st : Decomp)
    (hs : ∀ s ∈ ss, NulFree s) :
    ∃ st', parseStringTable (pre ++ cstrings ss ++ post) pre.length (cstrings ss).length st =
        some (true, st') ∧
      st'.stringTable = st.stringTable ++ ss ∧
      (st.stringTable = [] →
        st'.stringTable = ss ∧ st'.stringTable.length = (cstrings ss).count 0 ∧
        ∀ k : Nat, st'.stringTable[k]? = ss[k]?) := by
  refine ⟨{ st with stringTable := st.stringTable ++ ss }, ?_, rfl, ?_⟩
  · unfold parseStringTable
    rw [stringTable_loop_cstrings post ss pre st.stringTable _ hs
      (by have := cstrings_length_ge ss; omega)]
  · intro h0
    simp [h0, cstrings_count ss hs]

theorem C6_string_table_witness :
    ∃ st', parseStringTable ([0, 0, 0, 3, 0, 0, 0, 8] ++
          cstrings [[0x68, 0x69], [], [0x68, 0x69], [0x7A]] ++ [0xEE]) 8 8 Decomp.empty =
        some (true, st') ∧
      st'.stringTable = [[0x68, 0x69], [], [0x68, 0x69], [0x7A]] := by
  obtain ⟨st', h1, h2, _⟩ := C6_string_table [0, 0, 0, 3, 0, 0, 0, 8] [0xEE]
    [[0x68, 0x69], [], [0x68, 0x69], [0x7A]] Decomp.empty (by simp [NulFree])
  exact ⟨st', h1, h2⟩

/-! ## Instruction decoder: operands -/

theorem Opcodes.Distinct.ne {ops : Opcodes} (hd : ops.Distinct) (i j : Nat) (hi : i < 12)
    (hj : j < 12) (hij : i ≠ j) : ops.labels.getD i 0 ≠ ops.labels.getD j 0 := by
  have hl : ops.labels.length = 12 := rfl
  rw [List.getD_eq_getElem _ _ (by omega), List.getD_eq_getElem _ _ (by omega)]
  intro h
  exact hij ((List.Nodup.getElem_inj_iff hd).mp h)

/-- The labels of the number, string and variable cases are not among the jump labels. -/
theorem isJumpCarrying_of_labels (ops : Opcodes) (hd : ops.Distinct) (i : Nat) (h9 : 9 ≤ i)
    (hi : i < 12) : isJumpCarrying ops (ops.labels.getD i 0) = false := by
  simp only [isJumpCarrying, Bool.or_eq_false_iff, decide_eq_false_iff_not]
  exact ⟨⟨⟨⟨⟨⟨⟨⟨hd.ne i 0 hi (by omega) (by omega),
    hd.ne i 1 hi (by omega) (by omega)⟩,
    hd.ne i 2 hi (by omega) (by omega)⟩,
    hd.ne i 3 hi (by omega) (by omega)⟩,
    hd.ne i 4 hi (by omega) (by omega)⟩,
    hd.ne i 5 hi (by omega) (by omega)⟩,
    hd.ne i 6 hi (by omega) (by omega)⟩,
    hd.ne i 7 hi (by omega) (by omega)⟩,
    hd.ne i 8 hi (by omega) (by omega)⟩

theorem twosComplement_one (buf : List Byte) (pos : Nat) (h : pos + 1 ≤ buf.length) :
    twosComplement (bytesAt buf pos 1) = toInt8 (byteAt buf pos) := by
  unfold twosComplement toInt8
  rw [bytesAt_length _ _ _ h, bigEndian_bytesAt_one _ _ h]
  have := byteAt_lt buf pos
  simp only [Nat.reduceMul, Nat.reduceSub, Nat.reducePow]
  split_ifs <;> omega

theorem twosComplement_two (buf : List Byte) (pos : Nat) (h : pos + 2 ≤ buf.length) :
    twosComplement (bytesAt buf pos 2) = toInt16 (readU16BE buf pos) := by
  unfold twosComplement toInt16
  rw [bytesAt_length _ _ _ h, bigEndian_bytesAt_two _ _ h, readU16BE_eq]
  have h0 := byteAt_lt buf pos
  have h1 := byteAt_lt buf (pos + 1)
  simp only [Nat.reduceMul, Nat.reduceSub, Nat.reducePow]
  split_ifs <;> omega

theorem twosComplement_four (buf : List Byte) (pos : Nat) (h : pos + 4 ≤ buf.length) :
    twosComplement (bytesAt buf pos 4) = toInt32 (readU32BE buf pos) := by
  unfold twosComplement toInt32
  rw [bytesAt_length _ _ _ h, ← readU32BE_eq_bigEndian _ _ h]
  have := readU32BE_lt buf pos
  simp only [Nat.reduceMul, Nat.reduceSub, Nat.reducePow] at this ⊢
  split_ifs <;> omega

/-- The integer branch of the number case reads `2 ^ k` bytes and sign-extends them, for the
"unsigned" tags `0xF0 + k` and the "signed" tags `0xF3 + k` alike. -/
theorem decodeNumber_int (code : List Byte) (inst : Instruction) (pos : Nat) (jt : List Nat)
    (pfx k : Nat) (hk : k ≤ 2) (hp : pfx = 0xF0 + k ∨ pfx = 0xF3 + k)
    (hpfx : byteAt code pos = pfx) (hlen : pos + 1 + 2 ^ k ≤ code.length) :
    decodeNumber code inst pos jt =
      ⟨{ inst with operandInt := twosComplement (bytesAt code (pos + 1) (2 ^ k)) },
        pos + 1 + 2 ^ k, jt⟩ := by
  have hk' : k = 0 ∨ k = 1 ∨ k = 2 := by omega
  unfold decodeNumber
  have hpos : ¬ pos ≥ code.length := by
    have : 0 < 2 ^ k := Nat.two_pow_pos k
    omega
  rw [if_neg hpos]
  dsimp only
  rw [hpfx]
  rcases hk' with rfl | rfl | rfl <;> rcases hp with rfl | rfl
  all_goals simp only [Nat.reduceAdd, Nat.reduceMod, Nat.reduceShiftLeft, Nat.reducePow,
    Nat.reduceEqDiff, if_false, if_true, ge_iff_le, Nat.reduceLeDiff, and_self] at hlen ⊢
  all_goals rw [if_pos hlen]
  all_goals first
    | rw [twosComplement_one _ _ (by omega)]
    | rw [twosComplement_two _ _ (by omega)]
    | rw [twosComplement_four _ _ (by omega)]

/-- One pass of the decoding loop over a number opcode with an integer tag. -/
theorem decodeStep_number_int (ops : Opcodes) (hd : ops.Distinct)
    (stringTable : List (List Byte)) (code : List Byte) (s : DecodeState) (pfx k : Nat)
    (hk : k ≤ 2) (hp : pfx = 0xF0 + k ∨ pfx = 0xF3 + k)
    (hop : byteAt code s.pos = ops.OP_TYPE_NUMBER) (hpfx : byteAt code (s.pos + 1) = pfx)
    (hlen : s.pos + 2 + 2 ^ k ≤ code.length) :
    decodeStep ops stringTable code s = .continue
      { pos := s.pos + 2 + 2 ^ k,
        instructions := s.instructions ++
          [{ op := ops.OP_TYPE_NUMBER, bytecodeOffset := s.pos,
             operandInt := twosComplement (bytesAt code (s.pos + 2) (2 ^ k)),
             operandString := [] }],
        jumpTargets := s.jumpTargets } := by
  have h2k : 0 < 2 ^ k := Nat.two_pow_pos k
  have hj : isJumpCarrying ops ops.OP_TYPE_NUMBER = false :=
    isJumpCarrying_of_labels ops hd 9 (by omega) (by omega)
  have hoper : decodeOperand ops stringTable code
      { op := byteAt code s.pos, bytecodeOffset := s.pos, operandInt := 0,
        operandString := [] } (s.pos + 1) s.instructions.length s.jumpTargets =
      ⟨{ op := ops.OP_TYPE_NUMBER, bytecodeOffset := s.pos,
         operandInt := twosComplement (bytesAt code (s.pos + 2) (2 ^ k)),
         operandString := [] }, s.pos + 2 + 2 ^ k, s.jumpTargets⟩ := by
    unfold decodeOperand
    dsimp only
    rw [hop, hj]
    simp only [Bool.false_eq_true, if_false, if_true]
    rw [decodeNumber_int code _ (s.pos + 1) s.jumpTargets pfx k hk hp hpfx (by omega)]
  unfold decodeStep
  rw [if_pos (by omega)]
  dsimp only
  rw [hoper]

/-- Reading a NUL-terminated string at `pos` yields the string and the position after its
NUL. -/
theorem readCString_of_drop (buf : List Byte) (pos : Nat) (s post : List Byte)
    (hs : NulFree s) (hdrop : buf.drop pos = s ++ 0 :: post) :
    readCString buf pos = (s, pos + s.length + 1) := by
  unfold readCString
  have htw : (s ++ 0 :: post).takeWhile (fun b => decide (b.val ≠ 0)) = s := by
    rw [List.takeWhile_append_of_pos, List.takeWhile_cons_of_neg (by simp)]
    · simp
    · intro a ha
      have := hs a ha
      simp only [ne_eq, decide_not, Bool.not_eq_true', decide_eq_false_iff_not]
      intro h0
      exact this (Fin.ext h0)
  have hl := congrArg List.length hdrop
  simp only [List.length_drop, List.length_append, List.length_cons] at hl
  dsimp only
  rw [hdrop, htw, if_pos (by omega)]

/-- Operand bytes whose first byte has the top bit set have a negative two's-complement
value. -/
theorem twosComplement_top_bit (buf : List Byte) (pos k : Nat) (hk : k ≤ 2)
    (hlen : pos + 2 ^ k ≤ buf.length) (htop : 128 ≤ byteAt buf pos) :
    twosComplement (bytesAt buf pos (2 ^ k)) =
      (bigEndian (bytesAt buf pos (2 ^ k)) : Int) - 2 ^ (8 * 2 ^ k) ∧
    twosComplement (bytesAt buf pos (2 ^ k)) < 0 := by
  have hk' : k = 0 ∨ k = 1 ∨ k = 2 := by omega
  have h0 := byteAt_lt buf pos
  have h1 := byteAt_lt buf (pos + 1)
  have h2 := byteAt_lt buf (pos + 2)
  have h3 := byteAt_lt buf (pos + 3)
  unfold twosComplement
  rcases hk' with rfl | rfl | rfl
  · simp only [Nat.reducePow] at hlen ⊢
    rw [bytesAt_length _ _ _ hlen, bigEndian_bytesAt_one _ _ hlen]
    simp only [Nat.reduceMul, Nat.reduceSub, Nat.reducePow]
    rw [if_neg (by omega)]
    constructor <;> omega
  · simp only [Nat.reducePow] at hlen ⊢
    rw [bytesAt_length _ _ _ hlen, bigEndian_bytesAt_two _ _ hlen]
    simp only [Nat.reduceMul, Nat.reduceSub, Nat.reducePow]
    rw [if_neg (by omega)]
    constructor <;> omega
  · simp only [Nat.reducePow] at hlen ⊢
    rw [bytesAt_length _ _ _ hlen, bigEndian_bytesAt_four _ _ hlen]
    simp only [Nat.reduceMul, Nat.reduceSub, Nat.reducePow]
    rw [if_neg (by omega)]
    constructor <;> omega

/-- C7 (what the code does instead): at the number opcode followed by an unsigned tag
0xF0 + k (k = 0, 1, 2) and 2^k operand bytes whose first byte has the top bit set, one pass
of the decoding loop stores the sign-extended value, that is the unsigned big-endian value
minus 2^(8 * 2^k), which is negative; so 0xF0 0xFF gives -1 where the claim says 255. -/
theorem C7_unsigned_number_is_sign_extended (ops : Opcodes) (hd : ops.Distinct)
    (stringTable : List (List Byte)) (code : List Byte) (s : DecodeState) (k : Nat)
    (hk : k ≤ 2) (hop : byteAt code s.pos = ops.OP_TYPE_NUMBER)
    (hpfx : byteAt code (s.pos + 1) = 0xF0 + k)
    (hlen : s.pos + 2 + 2 ^ k ≤ code.length) (htop : 128 ≤ byteAt code (s.pos + 2)) :
    decodeStep ops stringTable code s = .continue
      { pos := s.pos + 2 + 2 ^ k,
        instructions := s.instructions ++
          [{ op := ops.OP_TYPE_NUMBER, bytecodeOffset := s.pos,
             operandInt :=
               (bigEndian (bytesAt code (s.pos + 2) (2 ^ k)) : Int) - 2 ^ (8 * 2 ^ k),
             operandString := [] }],
        jumpTargets := s.jumpTargets } ∧
    (bigEndian (bytesAt code (s.pos + 2) (2 ^ k)) : Int) - 2 ^ (8 * 2 ^ k) < 0 := by
  have ht := twosComplement_top_bit code (s.pos + 2) k hk (by omega) htop
  rw [← ht.1]
  exact ⟨decodeStep_number_int ops hd stringTable code s (0xF0 + k) k hk (Or.inl rfl) hop
    hpfx hlen, ht.2⟩

theorem C7_unsigned_number_is_sign_extended_witness :
    decodeStep sampleOpcodes [] [20, 0xF0, 0xFF] ⟨0, [], []⟩ =
      .continue ⟨3, [⟨20, 0, -1, []⟩], []⟩ ∧
    bigEndian (bytesAt [20, 0xF0, 0xFF] 2 1) = 255 :=
  ⟨(C7_unsigned_number_is_sign_extended sampleOpcodes (by decide) [] [20, 0xF0, 0xFF]
      ⟨0, [], []⟩ 0 (by decide) (by decide) (by decide) (by decide) (by decide)).1,
    by decide⟩

/-- C8: at the number opcode followed by a signed tag 0xF3 + k (k = 0, 1, 2) and 2^k operand
bytes, one pass of the decoding loop appends an instruction whose integer operand is the
two's-complement value of the operand bytes read big-endian (string operand empty, offset of
the opcode byte) and moves the position by exactly 2 + 2^k bytes. -/
theorem C8_signed_number (ops : Opcodes) (hd : ops.Distinct) (stringTable : List (List Byte))
    (code : List Byte) (s : DecodeState) (k : Nat) (hk : k ≤ 2)
    (hop : byteAt code s.pos = ops.OP_TYPE_NUMBER)
    (hpfx : byteAt code (s.pos + 1) = 0xF3 + k)
    (hlen : s.pos + 2 + 2 ^ k ≤ code.length) :
    decodeStep ops stringTable code s = .continue
      { pos := s.pos + 2 + 2 ^ k,
        instructions := s.instructions ++
          [{ op := ops.OP_TYPE_NUMBER, bytecodeOffset := s.pos,
             operandInt := twosComplement (bytesAt code (s.pos + 2) (2 ^ k)),
             operandString := [] }],
        jumpTargets := s.jumpTargets } :=
  decodeStep_number_int ops hd stringTable code s (0xF3 + k) k hk (Or.inr rfl) hop hpfx hlen

theorem C8_signed_number_witness :
    decodeStep sampleOpcodes [] [20, 0xF3, 0xFF] ⟨0, [], []⟩ =
      .continue ⟨3, [⟨20, 0, -1, []⟩], []⟩ ∧
    decodeStep sampleOpcodes [] [0, 20, 0xF5, 0xFF, 0xFF, 0xFF, 0xFE, 0] ⟨1, [], []⟩ =
      .continue ⟨7, [⟨20, 1, -2, []⟩], []⟩ :=
  ⟨C8_signed_number sampleOpcodes (by decide) [] [20, 0xF3, 0xFF] ⟨0, [], []⟩ 0 (by decide)
      (by decide) (by decide) (by decide),
    C8_signed_number sampleOpcodes (by decide) [] [0, 20, 0xF5, 0xFF, 0xFF, 0xFF, 0xFE, 0]
      ⟨1, [], []⟩ 2 (by decide) (by decide) (by decide) (by decide)⟩

/-- C9: at the number opcode followed by the tag 0xF6, a NUL-free byte string and a NUL
byte, one pass of the decoding loop appends an instruction with that string as string
operand and integer operand 0, and resumes at the byte after the NUL, having consumed
length + 3 bytes. -/
theorem C9_number_string (ops : Opcodes) (hd : ops.Distinct) (stringTable : List (List Byte))
    (code : List Byte) (s : DecodeState) (str post : List Byte) (hs : NulFree str)
    (hop : byteAt code s.pos = ops.OP_TYPE_NUMBER)
    (hpfx : byteAt code (s.pos + 1) = 0xF6)
    (hstr : code.drop (s.pos + 2) = str ++ 0 :: post) :
    decodeStep ops stringTable code s = .continue
      { pos := s.pos + str.length + 3,
        instructions := s.instructions ++
          [{ op := ops.OP_TYPE_NUMBER, bytecodeOffset := s.pos, operandInt := 0,
             operandString := str }],
        jumpTargets := s.jumpTargets } := by
  have hl := congrArg List.length hstr
  simp only [List.length_drop, List.length_append, List.length_cons] at hl
  have hj : isJumpCarrying ops ops.OP_TYPE_NUMBER = false :=
    isJumpCarrying_of_labels ops hd 9 (by omega) (by omega)
  have hoper : decodeOperand ops stringTable code
      { op := byteAt code s.pos, bytecodeOffset := s.pos, operandInt := 0,
        operandString := [] } (s.pos + 1) s.instructions.length s.jumpTargets =
      ⟨{ op := ops.OP_TYPE_NUMBER, bytecodeOffset := s.pos, operandInt := 0,
         operandString := str }, s.pos + str.length + 3, s.jumpTargets⟩ := by
    unfold decodeOperand
    dsimp only
    rw [hop, hj]
    simp only [Bool.false_eq_true, if_false, if_true]
    unfold decodeNumber
    rw [if_neg (by omega)]
    dsimp only
    rw [hpfx, if_pos rfl, readCString_of_drop code (s.pos + 1 + 1) str post hs hstr]
    simp only [Operand.mk.injEq, true_and, and_true]
    omega
  unfold decodeStep
  rw [if_pos (by omega)]
  dsimp only
  rw [hoper]

theorem C9_number_string_witness :
    decodeStep sampleOpcodes [] [20, 0xF6, 0x33, 0x2E, 0x31, 0x34, 0, 7] ⟨0, [], []⟩ =
      .continue ⟨0 + [(0x33 : Byte), 0x2E, 0x31, 0x34].length + 3,
        [⟨20, 0, 0, [0x33, 0x2E, 0x31, 0x34]⟩], []⟩ :=
  C9_number_string sampleOpcodes (by decide) [] [20, 0xF6, 0x33, 0x2E, 0x31, 0x34, 0, 7]
    ⟨0, [], []⟩ [0x33, 0x2E, 0x31, 0x34] [7] (by simp [NulFree]) (by decide) (by decide)
    (by decide)

theorem getD_in_range (tab : List (List Byte)) (i : Nat) :
    (if i < tab.length then tab.getD i [] else []) = (tab[i]?).getD [] := by
  rw [List.getD_eq_getElem?_getD]
  split_ifs with h
  · rfl
  · rw [List.getElem?_eq_none (by omega)]; rfl

/-- The string-reference case with a tag `0xF0 + k` reads `2 ^ k` bytes as an unsigned
index, stores it converted to `int32_t` and resolves it when it is in range. -/
theorem decodeStringRef_index (stringTable : List (List Byte)) (code : List Byte)
    (inst : Instruction) (pos : Nat) (jt : List Nat) (k : Nat) (hk : k ≤ 2)
    (hpfx : byteAt code pos = 0xF0 + k) (hlen : pos + 1 + 2 ^ k ≤ code.length) :
    decodeStringRef stringTable code inst pos jt =
      ⟨{ inst with
          operandInt := toInt32 (bigEndian (bytesAt code (pos + 1) (2 ^ k))),
          operandString :=
            if bigEndian (bytesAt code (pos + 1) (2 ^ k)) < stringTable.length then
              stringTable.getD (bigEndian (bytesAt code (pos + 1) (2 ^ k))) []
            else inst.operandString },
        pos + 1 + 2 ^ k, jt⟩ := by
  have hk' : k = 0 ∨ k = 1 ∨ k = 2 := by omega
  unfold decodeStringRef
  have hpos : ¬ pos ≥ code.length := by
    have : 0 < 2 ^ k := Nat.two_pow_pos k
    omega
  rw [if_neg hpos]
  dsimp only
  rw [hpfx]
  have h16 : readU16BE code (pos + 1) % 4294967296 = readU16BE code (pos + 1) := by
    rw [readU16BE_eq]
    have h0 := byteAt_lt code (pos + 1)
    have h1 := byteAt_lt code (pos + 1 + 1)
    omega
  rcases hk' with rfl | rfl | rfl
  all_goals simp only [Nat.reduceAdd, Nat.reduceSub, Nat.reduceShiftLeft, Nat.reducePow,
    Nat.reduceEqDiff, if_false, if_true, ge_iff_le, Nat.reduceLeDiff, and_self,
    Nat.add_sub_cancel_left, Nat.shiftLeft_zero, le_refl, Nat.le_add_right] at hlen ⊢
  · rw [if_pos hlen, bigEndian_bytesAt_one _ _ (by omega)]
    split_ifs <;> rfl
  · rw [if_pos hlen, h16, bigEndian_bytesAt_two _ _ (by omega), ← readU16BE_eq]
    split_ifs <;> rfl
  · rw [if_pos hlen, ← readU32BE_eq_bigEndian _ _ (by omega)]
    split_ifs <;> rfl

/-- C10 (as stated, refuted): a string-reference opcode with the 4-byte tag 0xF2 and operand
bytes 0xFF 0xFF 0xFF 0xFF decodes to the integer operand -1, which is not the unsigned
big-endian value 4294967295 of those bytes. -/
theorem C10_string_reference_counterexample :
    decodeFunction sampleOpcodes [] [21, 0xF2, 0xFF, 0xFF, 0xFF, 0xFF] [] =
      some ([⟨21, 0, -1, []⟩], []) ∧
    bigEndian [0xFF, 0xFF, 0xFF, 0xFF] = 4294967295 ∧
    (-1 : Int) ≠ ((bigEndian [0xFF, 0xFF, 0xFF, 0xFF] : Nat) : Int) := by
  decide

/-- C10 (amended): at a string-reference or variable-reference opcode followed by the tag
0xF0 + k (k = 0, 1, 2) and 2^k operand bytes with unsigned big-endian value idx, one pass of
the decoding loop never fails: it appends an instruction whose integer operand is idx
converted to a signed 32-bit integer (idx itself when idx < 2^31, which always holds for the
1- and 2-byte widths) and whose string operand is stringTable[idx] when idx is below the
table size and empty otherwise, and it moves the position by exactly 2 + 2^k bytes. -/
theorem C10_string_reference (ops : Opcodes) (hd : ops.Distinct)
    (stringTable : List (List Byte)) (code : List Byte) (s : DecodeState) (k : Nat)
    (hk : k ≤ 2)
    (hop : byteAt code s.pos = ops.OP_TYPE_STRING ∨ byteAt code s.pos = ops.OP_TYPE_VAR)
    (hpfx : byteAt code (s.pos + 1) = 0xF0 + k)
    (hlen : s.pos + 2 + 2 ^ k ≤ code.length) :
    decodeStep ops stringTable code s = .continue
      { pos := s.pos + 2 + 2 ^ k,
        instructions := s.instructions ++
          [{ op := byteAt code s.pos, bytecodeOffset := s.pos,
             operandInt := toInt32 (bigEndian (bytesAt code (s.pos + 2) (2 ^ k))),
             operandString :=
               (stringTable[bigEndian (bytesAt code (s.pos + 2) (2 ^ k))]?).getD [] }],
        jumpTargets := s.jumpTargets } ∧
    (bigEndian (bytesAt code (s.pos + 2) (2 ^ k)) < 2 ^ 31 →
      toInt32 (bigEndian (bytesAt code (s.pos + 2) (2 ^ k))) =
        (bigEndian (bytesAt code (s.pos + 2) (2 ^ k)) : Int)) ∧
    (k ≤ 1 → bigEndian (bytesAt code (s.pos + 2) (2 ^ k)) < 2 ^ 31) := by
  have h2k : 0 < 2 ^ k := Nat.two_pow_pos k
  have hj : isJumpCarrying ops (byteAt code s.pos) = false := by
    rcases hop with h | h <;> rw [h]
    · exact isJumpCarrying_of_labels ops hd 10 (by omega) (by omega)
    · exact isJumpCarrying_of_labels ops hd 11 (by omega) (by omega)
  have hn : byteAt code s.pos ≠ ops.OP_TYPE_NUMBER := by
    rcases hop with h | h <;> rw [h]
    · exact hd.ne 10 9 (by omega) (by omega) (by omega)
    · exact hd.ne 11 9 (by omega) (by omega) (by omega)
  refine ⟨?_, ?_, ?_⟩
  · unfold decodeStep
    rw [if_pos (by omega)]
    dsimp only
    unfold decodeOperand
    dsimp only
    rw [hj]
    simp only [Bool.false_eq_true, if_false, if_neg hn, if_pos hop]
    rw [decodeStringRef_index stringTable code _ (s.pos + 1) s.jumpTargets k hk hpfx
      (by omega)]
    dsimp only
    have e : s.pos + 1 + 1 = s.pos + 2 := rfl
    rw [e, getD_in_range]
  · intro hlt
    unfold toInt32
    rw [Nat.mod_eq_of_lt (by omega), if_pos hlt]
  · intro hk1
    have hk' : k = 0 ∨ k = 1 := by omega
    rcases hk' with rfl | rfl
    · simp only [Nat.reducePow] at hlen ⊢
      rw [bigEndian_bytesAt_one _ _ (by omega)]
      have := byteAt_lt code (s.pos + 2)
      omega
    · simp only [Nat.reducePow] at hlen ⊢
      rw [bigEndian_bytesAt_two _ _ (by omega)]
      have h0 := byteAt_lt code (s.pos + 2)
      have h1 := byteAt_lt code (s.pos + 2 + 1)
      omega

theorem C10_string_reference_witness :
    decodeStep sampleOpcodes [[0x61], [0x62]] [21, 0xF1, 0x00, 0x02] ⟨0, [], []⟩ =
      .continue ⟨4, [⟨21, 0, 2, []⟩], []⟩ ∧
    decodeStep sampleOpcodes [[0x61], [0x62], [0x63]] [22, 0xF1, 0x00, 0x02] ⟨0, [], []⟩ =
      .continue ⟨4, [⟨22, 0, 2, [0x63]⟩], []⟩ :=
  ⟨(C10_string_reference sampleOpcodes (by decide) [[0x61], [0x62]] [21, 0xF1, 0x00, 0x02]
      ⟨0, [], []⟩ 1 (by decide) (by decide) (by decide) (by decide)).1,
    (C10_string_reference sampleOpcodes (by decide) [[0x61], [0x62], [0x63]]
      [22, 0xF1, 0x00, 0x02] ⟨0, [], []⟩ 1 (by decide) (by decide) (by decide)
      (by decide)).1⟩

/-! ## Termination of the decoder -/

theorem decodeJump_pos_ge (ops : Opcodes) (code : List Byte) (inst : Instruction)
    (pos count : Nat) (jt : List Nat) : pos ≤ (decodeJump ops code inst pos count jt).pos := by
  unfold decodeJump
  dsimp only
  split_ifs <;> dsimp only <;> omega

theorem decodeNumber_pos_ge (code : List Byte) (inst : Instruction) (pos : Nat)
    (jt : List Nat) : pos ≤ (decodeNumber code inst pos jt).pos := by
  unfold decodeNumber
  dsimp only
  have := readCString_ge code (pos + 1)
  generalize 1 <<< (byteAt code pos % 3) = byteCount
  split_ifs <;> dsimp only <;> omega

theorem decodeStringRef_pos_ge (stringTable : List (List Byte)) (code : List Byte)
    (inst : Instruction) (pos : Nat) (jt : List Nat) :
    pos ≤ (decodeStringRef stringTable code inst pos jt).pos := by
  unfold decodeStringRef
  dsimp only
  generalize 1 <<< (byteAt code pos - 0xF0) = byteCount
  split_ifs <;> dsimp only <;> omega

theorem decodeOperand_pos_ge (ops : Opcodes) (stringTable : List (List Byte))
    (code : List Byte) (inst : Instruction) (pos count : Nat) (jt : List Nat) :
    pos ≤ (decodeOperand ops stringTable code inst pos count jt).pos := by
  unfold decodeOperand
  split_ifs
  · exact decodeJump_pos_ge ops code inst pos count jt
  · exact decodeNumber_pos_ge code inst pos jt
  · exact decodeStringRef_pos_ge stringTable code inst pos jt
  · exact Nat.le_refl pos

/-- The decoding loop of a function returns: every pass consumes the opcode byte. -/
theorem decodeFunction_total (ops : Opcodes) (stringTable : List (List Byte))
    (code : List Byte) (jt : List Nat) :
    ∃ r, decodeFunction ops stringTable code jt = some r := by
  unfold decodeFunction
  apply runLoop_total (decodeStep ops stringTable code) (fun s => code.length - s.pos)
  · intro s s' h
    unfold decodeStep at h
    split_ifs at h with h1
    simp only [LoopStep.continue.injEq] at h
    subst h
    have := decodeOperand_pos_ge ops stringTable code
      { op := byteAt code s.pos, bytecodeOffset := s.pos, operandInt := 0,
        operandString := [] } (s.pos + 1) s.instructions.length s.jumpTargets
    dsimp only
    omega
  · dsimp only
    omega

theorem decodeAll_total (ops : Opcodes) :
    ∀ (fns : List FunctionInfo) (st : Decomp), ∃ st', decodeAll ops fns st = some st' := by
  intro fns
  induction fns with
  | nil => intro st; exact ⟨st, rfl⟩
  | cons f rest ih =>
    intro st
    obtain ⟨⟨instructions, jt⟩, hr⟩ :=
      decodeFunction_total ops st.stringTable f.bytecode st.jumpTargets
    simp only [decodeAll, hr]
    exact ih _

/-- The instruction decoder always returns true. -/
theorem decodeInstructions_total (ops : Opcodes) (st : Decomp) :
    ∃ st', decodeInstructions ops st = some (true, st') := by
  obtain ⟨st', h⟩ := decodeAll_total ops st.functions st
  exact ⟨st', by simp [decodeInstructions, h]⟩

/-- The load returns for every buffer. -/
theorem loadBytecode_total (ops : Opcodes) (data : List Byte) :
    ∃ r, loadBytecode ops data = some r := by
  unfold loadBytecode
  obtain ⟨⟨ok, st⟩, hr⟩ := parseSegments_total data Decomp.empty
  rw [hr]
  cases ok
  · exact ⟨_, rfl⟩
  · obtain ⟨st', h⟩ := decodeInstructions_total ops st
    exact ⟨_, h⟩

/-! ## Instruction decoder: one pass -/

theorem runLoop_invariant {σ ρ : Type} (step : σ → LoopStep σ ρ) (Inv : σ → Prop)
    (hcont : ∀ s s', Inv s → step s = .continue s' → Inv s') :
    ∀ (n : Nat) (s : σ) (r : ρ), Inv s → runLoop step n s = some r →
      ∃ s', Inv s' ∧ step s' = .exit r
  | 0, _, _, _, h => by simp [runLoop] at h
  | n + 1, s, r, hinv, h => by
    simp only [runLoop] at h
    cases hs : step s with
    | «continue» s' =>
      rw [hs] at h
      exact runLoop_invariant step Inv hcont n s' r (hcont s s' hinv hs) h
    | exit r' =>
      rw [hs] at h
      simp only [Option.some.injEq] at h
      subst h
      exact ⟨s, hinv, hs⟩

theorem decodeJump_fields (ops : Opcodes) (code : List Byte) (inst : Instruction)
    (pos count : Nat) (jt : List Nat) :
    (decodeJump ops code inst pos count jt).inst.op = inst.op ∧
      (decodeJump ops code inst pos count jt).inst.bytecodeOffset = inst.bytecodeOffset := by
  unfold decodeJump
  dsimp only
  split_ifs <;> exact ⟨rfl, rfl⟩

theorem decodeNumber_fields (code : List Byte) (inst : Instruction) (pos : Nat)
    (jt : List Nat) :
    (decodeNumber code inst pos jt).inst.op = inst.op ∧
      (decodeNumber code inst pos jt).inst.bytecodeOffset = inst.bytecodeOffset ∧
      (decodeNumber code inst pos jt).jumpTargets = jt := by
  unfold decodeNumber
  dsimp only
  split_ifs <;> exact ⟨rfl, rfl, rfl⟩

theorem decodeStringRef_fields (stringTable : List (List Byte)) (code : List Byte)
    (inst : Instruction) (pos : Nat) (jt : List Nat) :
    (decodeStringRef stringTable code inst pos jt).inst.op = inst.op ∧
      (decodeStringRef stringTable code inst pos jt).inst.bytecodeOffset =
        inst.bytecodeOffset ∧
      (decodeStringRef stringTable code inst pos jt).jumpTargets = jt := by
  unfold decodeStringRef
  dsimp only
  split_ifs <;> exact ⟨rfl, rfl, rfl⟩

theorem decodeOperand_fields (ops : Opcodes) (stringTable : List (List Byte))
    (code : List Byte) (inst : Instruction) (pos count : Nat) (jt : List Nat) :
    (decodeOperand ops stringTable code inst pos count jt).inst.op = inst.op ∧
      (decodeOperand ops stringTable code inst pos count jt).inst.bytecodeOffset =
        inst.bytecodeOffset := by
  unfold decodeOperand
  split_ifs
  · exact decodeJump_fields ops code inst pos count jt
  · exact ⟨(decodeNumber_fields code inst pos jt).1, (decodeNumber_fields code inst pos jt).2.1⟩
  · exact ⟨(decodeStringRef_fields stringTable code inst pos jt).1,
      (decodeStringRef_fields stringTable code inst pos jt).2.1⟩
  · exact ⟨rfl, rfl⟩

/-- A pass of the decoding loop inside the slice always appends one instruction, whose
opcode is the byte at the position and whose offset is the position, and moves forward. -/
theorem decodeStep_continue (ops : Opcodes) (stringTable : List (List Byte))
    (code : List Byte) (s : DecodeState) (hpos : s.pos < code.length) :
    ∃ (inst : Instruction) (pos' : Nat) (jt' : List Nat),
      decodeStep ops stringTable code s =
        .continue { pos := pos', instructions := s.instructions ++ [inst],
                    jumpTargets := jt' } ∧
      inst.op = byteAt code s.pos ∧ inst.bytecodeOffset = s.pos ∧ s.pos < pos' := by
  have hf := decodeOperand_fields ops stringTable code (plainInstruction code s.pos)
    (s.pos + 1) s.instructions.length s.jumpTargets
  have hp := decodeOperand_pos_ge ops stringTable code (plainInstruction code s.pos)
    (s.pos + 1) s.instructions.length s.jumpTargets
  refine ⟨(decodeOperand ops stringTable code (plainInstruction code s.pos)
      (s.pos + 1) s.instructions.length s.jumpTargets).inst,
    (decodeOperand ops stringTable code (plainInstruction code s.pos)
      (s.pos + 1) s.instructions.length s.jumpTargets).pos,
    (decodeOperand ops stringTable code (plainInstruction code s.pos)
      (s.pos + 1) s.instructions.length s.jumpTargets).jumpTargets, ?_, hf.1, hf.2, hp⟩
  unfold decodeStep
  rw [if_pos hpos]
  rfl

/-- A byte that is none of the `case` labels takes the `default` branch. -/
theorem decodeOperand_plain (ops : Opcodes) (stringTable : List (List Byte))
    (code : List Byte) (inst : Instruction) (pos count : Nat) (jt : List Nat)
    (h : inst.op ∉ ops.labels) :
    decodeOperand ops stringTable code inst pos count jt = ⟨inst, pos, jt⟩ := by
  simp only [Opcodes.labels, List.mem_cons, List.mem_singleton, List.not_mem_nil, or_false,
    not_or] at h
  obtain ⟨h1, h2, h3, h4, h5, h6, h7, h8, h9, h10, h11, h12⟩ := h
  unfold decodeOperand
  have hj : isJumpCarrying ops inst.op = false := by
    simp [isJumpCarrying, h1, h2, h3, h4, h5, h6, h7, h8, h9]
  rw [hj]
  simp [h10, h11, h12]

/-- The decoding loop over bytes that are none of the `case` labels. -/
theorem decodeLoop_plain (ops : Opcodes) (stringTable : List (List Byte)) (code : List Byte)
    (jt : List Nat) (h : ∀ b ∈ code, b.val ∉ ops.labels) :
    ∀ (n pos fuel : Nat) (acc : List Instruction), pos + n = code.length → n + 1 ≤ fuel →
      runLoop (decodeStep ops stringTable code) fuel
          { pos := pos, instructions := acc, jumpTargets := jt } =
        some (acc ++ (List.range' pos n).map (plainInstruction code), jt) := by
  intro n
  induction n with
  | zero =>
    intro pos fuel acc hp hf
    obtain ⟨m, rfl⟩ : ∃ m, fuel = m + 1 := ⟨fuel - 1, by omega⟩
    simp only [runLoop, decodeStep]
    rw [if_neg (by omega)]
    simp
  | succ n ih =>
    intro pos fuel acc hp hf
    obtain ⟨m, rfl⟩ : ∃ m, fuel = m + 1 := ⟨fuel - 1, by omega⟩
    have hlt : pos < code.length := by omega
    have hb : byteAt code pos ∉ ops.labels := by
      unfold byteAt
      rw [List.getD_eq_getElem _ _ hlt]
      exact h _ (List.getElem_mem hlt)
    simp only [runLoop, decodeStep]
    rw [if_pos (by omega)]
    dsimp only
    rw [decodeOperand_plain ops stringTable code _ _ _ _ hb]
    dsimp only
    have hih := ih (pos + 1) m (acc ++ [plainInstruction code pos]) (by omega) (by omega)
    simp only [plainInstruction] at hih
    rw [hih]
    simp [List.range'_succ, plainInstruction]

/-- C12: for a function slice made only of bytes that are none of the nine jump-carrying
opcodes, the number opcode, the string-reference opcode or the variable-reference opcode,
decoding returns exactly one instruction per byte: the sequence is as long as the slice and
instruction k has the byte at k as opcode, offset k, integer operand 0 and empty string
operand; the jump targets are left as they were. -/
theorem C12_plain_opcodes (ops : Opcodes) (stringTable : List (List Byte)) (code : List Byte)
    (jt : List Nat) (h : ∀ b ∈ code, b.val ∉ ops.labels) :
    ∃ insts, decodeFunction ops stringTable code jt = some (insts, jt) ∧
      insts.length = code.length ∧
      ∀ k, k < code.length →
        insts[k]? = some { op := byteAt code k, bytecodeOffset := k, operandInt := 0,
                           operandString := [] } := by
  refine ⟨(List.range' 0 code.length).map (plainInstruction code), ?_, by simp, ?_⟩
  · unfold decodeFunction
    rw [decodeLoop_plain ops stringTable code jt h code.length 0 _ [] (by omega) (by omega)]
    simp
  · intro k hk
    simp [List.getElem?_map, List.getElem?_range', hk, plainInstruction]

theorem C12_plain_opcodes_witness :
    ∃ insts, decodeFunction sampleOpcodes [] [7, 8, 7] [] = some (insts, []) ∧
      insts.length = 3 ∧ insts[1]? = some ⟨8, 1, 0, []⟩ := by
  obtain ⟨insts, h1, h2, h3⟩ := C12_plain_opcodes sampleOpcodes [] [7, 8, 7] []
    (by simp [sampleOpcodes, Opcodes.labels]; decide)
  exact ⟨insts, h1, h2, h3 1 (by decide)⟩

/-- A pass of the decoding loop is determined by the outcome of the operand `switch`. -/
theorem decodeStep_of_operand (ops : Opcodes) (stringTable : List (List Byte))
    (code : List Byte) (s : DecodeState) (r : Operand) (hpos : s.pos < code.length)
    (hr : decodeOperand ops stringTable code (plainInstruction code s.pos) (s.pos + 1)
      s.instructions.length s.jumpTargets = r) :
    decodeStep ops stringTable code s = .continue
      { pos := r.pos, instructions := s.instructions ++ [r.inst],
        jumpTargets := r.jumpTargets } := by
  unfold decodeStep
  rw [if_pos hpos]
  dsimp only
  rw [← hr]
  rfl

theorem decodeOperand_number (ops : Opcodes) (hd : ops.Distinct)
    (stringTable : List (List Byte)) (code : List Byte) (inst : Instruction)
    (pos count : Nat) (jt : List Nat) (hop : inst.op = ops.OP_TYPE_NUMBER) :
    decodeOperand ops stringTable code inst pos count jt = decodeNumber code inst pos jt := by
  have hj : isJumpCarrying ops inst.op = false := by
    rw [hop]
    exact isJumpCarrying_of_labels ops hd 9 (by omega) (by omega)
  unfold decodeOperand
  rw [hj]
  simp [hop]

theorem decodeOperand_stringRef (ops : Opcodes) (hd : ops.Distinct)
    (stringTable : List (List Byte)) (code : List Byte) (inst : Instruction)
    (pos count : Nat) (jt : List Nat)
    (hop : inst.op = ops.OP_TYPE_STRING ∨ inst.op = ops.OP_TYPE_VAR) :
    decodeOperand ops stringTable code inst pos count jt =
      decodeStringRef stringTable code inst pos jt := by
  have hj : isJumpCarrying ops inst.op = false := by
    rcases hop with h | h <;> rw [h]
    · exact isJumpCarrying_of_labels ops hd 10 (by omega) (by omega)
    · exact isJumpCarrying_of_labels ops hd 11 (by omega) (by omega)
  have hn : inst.op ≠ ops.OP_TYPE_NUMBER := by
    rcases hop with h | h <;> rw [h]
    · exact hd.ne 10 9 (by omega) (by omega) (by omega)
    · exact hd.ne 11 9 (by omega) (by omega) (by omega)
  unfold decodeOperand
  rw [hj]
  simp only [Bool.false_eq_true, if_false, if_neg hn, if_pos hop]

/-- C13 (as stated, refuted): the slice 10 7 ends one byte into the two-byte operand of a
jump opcode, and the slice 20 0xF1 7 ends one byte into the two-byte operand of a number
opcode; in both the instruction with the incomplete operand is part of the result and the
operand byte 7 is decoded as the opcode of a further instruction. In the slice
20 0xF2 10 0 5 the number opcode has three of its four operand bytes; the first of them,
10, is decoded as a jump opcode that takes the other two, 0 5, as its own operand. -/
theorem C13_incomplete_operand_counterexample :
    decodeFunction sampleOpcodes [] [10, 7] [] =
      some ([⟨10, 0, 0, []⟩, ⟨7, 1, 0, []⟩], []) ∧
    decodeFunction sampleOpcodes [] [20, 0xF1, 7] [] =
      some ([⟨20, 0, 0, []⟩, ⟨7, 2, 0, []⟩], []) ∧
    decodeFunction sampleOpcodes [] [20, 0xF2, 10, 0, 5] [] =
      some ([⟨20, 0, 0, []⟩, ⟨10, 2, 5, []⟩], [6]) := by
  decide

/-- C13 (amended): when a function slice ends in the middle of an operand, the pass of the
decoding loop over that instruction still appends it, with integer operand 0 and empty
string operand, to the instructions decoded before, leaves the jump targets alone and
consumes the opcode byte only (jump-carrying opcode with fewer than 2 bytes after it; number
or string-reference opcode without tag byte) or the opcode and tag bytes only (number or
string-reference opcode with fewer bytes after the tag than its width). Decoding then goes
on from the state so reached: when no byte is left the loop ends and the result holds the
incomplete instruction; when a byte of the incomplete operand is left, the next pass
decodes the first such byte as the opcode of a further instruction, appended after the
incomplete one, and advances by at least that byte (the bytes after it are read as that
instruction's operand or as further opcodes, as its own opcode determines). -/
theorem C13_incomplete_operand (ops : Opcodes) (hd : ops.Distinct)
    (stringTable : List (List Byte)) (code : List Byte) (s : DecodeState)
    (hpos : s.pos < code.length) :
    (isJumpCarrying ops (byteAt code s.pos) = true → code.length < s.pos + 3 →
      decodeStep ops stringTable code s = .continue
        { pos := s.pos + 1, instructions := s.instructions ++ [plainInstruction code s.pos],
          jumpTargets := s.jumpTargets }) ∧
    ((byteAt code s.pos = ops.OP_TYPE_NUMBER ∨ byteAt code s.pos = ops.OP_TYPE_STRING ∨
        byteAt code s.pos = ops.OP_TYPE_VAR) → code.length = s.pos + 1 →
      decodeStep ops stringTable code s = .continue
        { pos := s.pos + 1, instructions := s.instructions ++ [plainInstruction code s.pos],
          jumpTargets := s.jumpTargets }) ∧
    (byteAt code s.pos = ops.OP_TYPE_NUMBER → s.pos + 2 ≤ code.length →
      0xF0 ≤ byteAt code (s.pos + 1) → byteAt code (s.pos + 1) ≤ 0xF5 →
      code.length < s.pos + 2 + 2 ^ (byteAt code (s.pos + 1) % 3) →
      decodeStep ops stringTable code s = .continue
        { pos := s.pos + 2, instructions := s.instructions ++ [plainInstruction code s.pos],
          jumpTargets := s.jumpTargets }) ∧
    ((byteAt code s.pos = ops.OP_TYPE_STRING ∨ byteAt code s.pos = ops.OP_TYPE_VAR) →
      s.pos + 2 ≤ code.length →
      0xF0 ≤ byteAt code (s.pos + 1) → byteAt code (s.pos + 1) ≤ 0xF2 →
      code.length < s.pos + 2 + 2 ^ (byteAt code (s.pos + 1) - 0xF0) →
      decodeStep ops stringTable code s = .continue
        { pos := s.pos + 2, instructions := s.instructions ++ [plainInstruction code s.pos],
          jumpTargets := s.jumpTargets }) ∧
    (∀ k : Nat, code.length ≤ s.pos + k →
      decodeStep ops stringTable code
          { pos := s.pos + k, instructions := s.instructions ++ [plainInstruction code s.pos],
            jumpTargets := s.jumpTargets } =
        .exit (s.instructions ++ [plainInstruction code s.pos], s.jumpTargets)) ∧
    (∀ k : Nat, s.pos + k < code.length →
      ∃ (inst : Instruction) (pos' : Nat) (jt' : List Nat),
        decodeStep ops stringTable code
            { pos := s.pos + k,
              instructions := s.instructions ++ [plainInstruction code s.pos],
              jumpTargets := s.jumpTargets } =
          .continue { pos := pos',
                      instructions := s.instructions ++ [plainInstruction code s.pos] ++ [inst],
                      jumpTargets := jt' } ∧
        inst.op = byteAt code (s.pos + k) ∧ inst.bytecodeOffset = s.pos + k ∧
        s.pos + k < pos') := by
  refine ⟨?_, ?_, ?_, ?_, ?_, fun k hk => decodeStep_continue ops stringTable code
    { pos := s.pos + k, instructions := s.instructions ++ [plainInstruction code s.pos],
      jumpTargets := s.jumpTargets } hk⟩
  · intro hj hlen
    apply decodeStep_of_operand ops stringTable code s ⟨_, _, _⟩ hpos
    unfold decodeOperand
    rw [show (plainInstruction code s.pos).op = byteAt code s.pos from rfl, hj, if_pos rfl]
    unfold decodeJump
    rw [if_neg (by omega)]
    rfl
  · intro hop hlen
    apply decodeStep_of_operand ops stringTable code s ⟨_, _, _⟩ hpos
    rcases hop with h | h
    · rw [decodeOperand_number ops hd _ _ _ _ _ _ h]
      unfold decodeNumber
      rw [if_pos (by omega)]
      rfl
    · rw [decodeOperand_stringRef ops hd _ _ _ _ _ _ h]
      unfold decodeStringRef
      rw [if_pos (by omega)]
      rfl
  · intro hop h2 hlo hhi hlen
    apply decodeStep_of_operand ops stringTable code s ⟨_, _, _⟩ hpos
    rw [decodeOperand_number ops hd _ _ _ _ _ _ hop]
    unfold decodeNumber
    rw [if_neg (by omega)]
    dsimp only
    rw [if_neg (by omega), if_pos ⟨hlo, hhi⟩, Nat.shiftLeft_eq, Nat.one_mul,
      if_neg (by omega)]
    rfl
  · intro hop h2 hlo hhi hlen
    apply decodeStep_of_operand ops stringTable code s ⟨_, _, _⟩ hpos
    rw [decodeOperand_stringRef ops hd _ _ _ _ _ _ hop]
    unfold decodeStringRef
    rw [if_neg (by omega)]
    dsimp only
    rw [if_pos ⟨hlo, hhi⟩, Nat.shiftLeft_eq, Nat.one_mul, if_neg (by omega)]
    rfl
  · intro k hk
    unfold decodeStep
    rw [if_neg (by dsimp only; omega)]

theorem C13_incomplete_operand_witness :
    decodeStep sampleOpcodes [] [10, 7] ⟨0, [], []⟩ =
      .continue ⟨1, [⟨10, 0, 0, []⟩], []⟩ ∧
    decodeStep sampleOpcodes [] [20, 0xF1, 7] ⟨0, [], []⟩ =
      .continue ⟨2, [⟨20, 0, 0, []⟩], []⟩ ∧
    decodeStep sampleOpcodes [] [20, 0xF2, 10, 0, 5] ⟨0, [], []⟩ =
      .continue ⟨2, [⟨20, 0, 0, []⟩], []⟩ ∧
    (∃ (inst : Instruction) (pos' : Nat) (jt' : List Nat),
      decodeStep sampleOpcodes [] [20, 0xF2, 10, 0, 5] ⟨2, [⟨20, 0, 0, []⟩], []⟩ =
        .continue ⟨pos', [⟨20, 0, 0, []⟩] ++ [inst], jt'⟩ ∧
      inst.op = 10 ∧ inst.bytecodeOffset = 2 ∧ 2 < pos') :=
  ⟨(C13_incomplete_operand sampleOpcodes (by decide) [] [10, 7] ⟨0, [], []⟩
      (by decide)).1 (by decide) (by decide),
    (C13_incomplete_operand sampleOpcodes (by decide) [] [20, 0xF1, 7] ⟨0, [], []⟩
      (by decide)).2.2.1 (by decide) (by decide) (by decide) (by decide) (by decide),
    (C13_incomplete_operand sampleOpcodes (by decide) [] [20, 0xF2, 10, 0, 5] ⟨0, [], []⟩
      (by decide)).2.2.1 (by decide) (by decide) (by decide) (by decide) (by decide),
    (C13_incomplete_operand sampleOpcodes (by decide) [] [20, 0xF2, 10, 0, 5] ⟨0, [], []⟩
      (by decide)).2.2.2.2.2 2 (by decide)⟩

/-- C14 (as stated, refuted): after the number opcode 20 and the tag byte 0x00, which is
neither 0xF6 nor in 0xF0..0xF5, the byte 7 that follows the tag is decoded as a further
instruction. -/
theorem C14_unknown_tag_counterexample :
    decodeFunction sampleOpcodes [] [20, 0x00, 7] [] =
      some ([⟨20, 0, 0, []⟩, ⟨7, 2, 0, []⟩], []) := by
  decide

/-- C14 (amended): at the number opcode followed by a tag byte that is neither 0xF6 nor in
0xF0..0xF5, the pass of the decoding loop appends the instruction with integer operand 0
and empty string operand, consumes exactly the opcode and the tag byte, and decoding is not
cut short: when a byte follows the tag, the next pass decodes it as an opcode. -/
theorem C14_unknown_tag (ops : Opcodes) (hd : ops.Distinct) (stringTable : List (List Byte))
    (code : List Byte) (s : DecodeState)
    (hop : byteAt code s.pos = ops.OP_TYPE_NUMBER) (hlen : s.pos + 2 ≤ code.length)
    (h6 : byteAt code (s.pos + 1) ≠ 0xF6)
    (hr : ¬ (0xF0 ≤ byteAt code (s.pos + 1) ∧ byteAt code (s.pos + 1) ≤ 0xF5)) :
    decodeStep ops stringTable code s = .continue
      { pos := s.pos + 2, instructions := s.instructions ++ [plainInstruction code s.pos],
        jumpTargets := s.jumpTargets } ∧
    (s.pos + 2 < code.length →
      ∃ (inst : Instruction) (pos' : Nat) (jt' : List Nat),
        decodeStep ops stringTable code
            { pos := s.pos + 2,
              instructions := s.instructions ++ [plainInstruction code s.pos],
              jumpTargets := s.jumpTargets } =
          .continue { pos := pos',
                      instructions :=
                        (s.instructions ++ [plainInstruction code s.pos]) ++ [inst],
                      jumpTargets := jt' } ∧
        inst.op = byteAt code (s.pos + 2) ∧ inst.bytecodeOffset = s.pos + 2) := by
  constructor
  · apply decodeStep_of_operand ops stringTable code s ⟨_, _, _⟩ (by omega)
    rw [decodeOperand_number ops hd _ _ _ _ _ _ hop]
    unfold decodeNumber
    rw [if_neg (by omega)]
    dsimp only
    rw [if_neg h6, if_neg (by omega)]
    rfl
  · intro hlt
    obtain ⟨inst, pos', jt', h1, h2, h3, _⟩ := decodeStep_continue ops stringTable code
      { pos := s.pos + 2, instructions := s.instructions ++ [plainInstruction code s.pos],
        jumpTargets := s.jumpTargets } hlt
    exact ⟨inst, pos', jt', h1, h2, h3⟩

theorem C14_unknown_tag_witness :
    decodeStep sampleOpcodes [] [20, 0x00, 7] ⟨0, [], []⟩ =
      .continue ⟨2, [⟨20, 0, 0, []⟩], []⟩ :=
  (C14_unknown_tag sampleOpcodes (by decide) [] [20, 0x00, 7] ⟨0, [], []⟩ (by decide)
    (by decide) (by decide) (by decide)).1

/-! ## Jump targets -/

theorem isJumpTracked_iff (ops : Opcodes) (op : Nat) :
    isJumpTracked ops op = true ↔ op ∈ trackedOpcodes ops := by
  simp only [isJumpTracked, trackedOpcodes, Bool.or_eq_true, decide_eq_true_eq,
    List.mem_cons, List.mem_singleton, List.not_mem_nil, or_false]
  tauto

theorem isJumpCarrying_of_tracked (ops : Opcodes) (op : Nat)
    (h : isJumpTracked ops op = true) : isJumpCarrying ops op = true := by
  simp only [isJumpTracked, Bool.or_eq_true, decide_eq_true_eq] at h
  simp only [isJumpCarrying, Bool.or_eq_true, decide_eq_true_eq]
  tauto

theorem toInt16_mod (n : Nat) : toInt16 (n % 2 ^ 16) = toInt16 n := by
  unfold toInt16
  rw [Nat.mod_mod]

/-- What the operand `switch` does to the jump targets: a tracked opcode with both operand
bytes present records `(count + r) mod 2^32`, `r` being the operand it stores; anything else
leaves the jump targets alone. -/
theorem decodeOperand_targets (ops : Opcodes) (stringTable : List (List Byte))
    (code : List Byte) (p count : Nat) (jt : List Nat) :
    (byteAt code p ∈ trackedOpcodes ops ∧ p + 3 ≤ code.length →
      (decodeOperand ops stringTable code (plainInstruction code p) (p + 1) count
          jt).inst.operandInt =
        twosComplement (bytesAt code (p + 1) 2) ∧
      (decodeOperand ops stringTable code (plainInstruction code p) (p + 1) count
          jt).jumpTargets =
        (((count : Int) + twosComplement (bytesAt code (p + 1) 2)) % 2 ^ 32).toNat :: jt) ∧
    (¬ (byteAt code p ∈ trackedOpcodes ops ∧ p + 3 ≤ code.length) →
      (decodeOperand ops stringTable code (plainInstruction code p) (p + 1) count
          jt).jumpTargets = jt) := by
  constructor
  · rintro ⟨ht, hlen⟩
    have htr := (isJumpTracked_iff ops _).mpr ht
    have hj := isJumpCarrying_of_tracked ops _ htr
    unfold decodeOperand
    rw [show (plainInstruction code p).op = byteAt code p from rfl, hj, if_pos rfl]
    unfold decodeJump
    rw [if_pos (by omega)]
    dsimp only
    rw [show (plainInstruction code p).op = byteAt code p from rfl, htr, if_pos rfl]
    dsimp only
    rw [toInt16_mod, ← twosComplement_two code (p + 1) (by omega)]
    refine ⟨rfl, ?_⟩
    congr 2
    rw [Int.natCast_mod]
    push_cast
    omega
  · intro hn
    unfold decodeOperand
    split_ifs with h1 h2 h3
    · unfold decodeJump
      dsimp only
      split_ifs with h4 h5
      · exfalso
        exact hn ⟨(isJumpTracked_iff ops _).mp h5, by omega⟩
      · rfl
      · rfl
    · exact (decodeNumber_fields code _ _ jt).2.2
    · exact (decodeStringRef_fields stringTable code _ _ jt).2.2
    · rfl

theorem decodeNumber_any (code : List Byte) (inst : Instruction) (pos : Nat)
    (jt : List Nat) :
    decodeNumber code inst pos jt =
      ⟨(decodeNumber code inst pos []).inst, (decodeNumber code inst pos []).pos, jt⟩ := by
  have h1 : (decodeNumber code inst pos jt).inst = (decodeNumber code inst pos []).inst ∧
      (decodeNumber code inst pos jt).pos = (decodeNumber code inst pos []).pos := by
    unfold decodeNumber
    dsimp only
    split_ifs <;> exact ⟨rfl, rfl⟩
  have h2 := (decodeNumber_fields code inst pos jt).2.2
  cases h : decodeNumber code inst pos jt
  rw [h] at h1 h2
  dsimp only at h1 h2
  rw [← h1.1, ← h1.2, h2]

theorem decodeStringRef_any (stringTable : List (List Byte)) (code : List Byte)
    (inst : Instruction) (pos : Nat) (jt : List Nat) :
    decodeStringRef stringTable code inst pos jt =
      ⟨(decodeStringRef stringTable code inst pos []).inst,
        (decodeStringRef stringTable code inst pos []).pos, jt⟩ := by
  have h1 : (decodeStringRef stringTable code inst pos jt).inst =
        (decodeStringRef stringTable code inst pos []).inst ∧
      (decodeStringRef stringTable code inst pos jt).pos =
        (decodeStringRef stringTable code inst pos []).pos := by
    unfold decodeStringRef
    dsimp only
    split_ifs <;> exact ⟨rfl, rfl⟩
  have h2 := (decodeStringRef_fields stringTable code inst pos jt).2.2
  cases h : decodeStringRef stringTable code inst pos jt
  rw [h] at h1 h2
  dsimp only at h1 h2
  rw [← h1.1, ← h1.2, h2]

/-- The operand `switch` computes the instruction and the position without looking at the
jump targets, and only puts new targets in front of them. -/
theorem decodeOperand_shape (ops : Opcodes) (stringTable : List (List Byte))
    (code : List Byte) (inst : Instruction) (pos count : Nat) :
    ∃ (i : Instruction) (p : Nat) (new : List Nat), ∀ jt : List Nat,
      decodeOperand ops stringTable code inst pos count jt = ⟨i, p, new ++ jt⟩ := by
  unfold decodeOperand
  split_ifs
  · unfold decodeJump
    dsimp only
    split_ifs
    · exact ⟨_, _, [_], fun jt => rfl⟩
    · exact ⟨_, _, [], fun jt => rfl⟩
    · exact ⟨_, _, [], fun jt => rfl⟩
  · exact ⟨_, _, [], fun jt => decodeNumber_any code inst pos jt⟩
  · exact ⟨_, _, [], fun jt => decodeStringRef_any stringTable code inst pos jt⟩
  · exact ⟨_, _, [], fun jt => rfl⟩

/-- The decoding loop only puts new targets in front of the jump targets it starts from;
the instructions do not depend on them. -/
theorem decodeLoop_append_targets (ops : Opcodes) (stringTable : List (List Byte))
    (code : List Byte) (b : List Nat) :
    ∀ (n : Nat) (s : DecodeState),
      runLoop (decodeStep ops stringTable code) n
          { pos := s.pos, instructions := s.instructions,
            jumpTargets := s.jumpTargets ++ b } =
        (runLoop (decodeStep ops stringTable code) n s).map (fun r => (r.1, r.2 ++ b)) := by
  intro n
  induction n with
  | zero => intro s; rfl
  | succ n ih =>
    intro s
    simp only [runLoop, decodeStep]
    split_ifs with h
    · obtain ⟨i, p, new, hsh⟩ := decodeOperand_shape ops stringTable code
        { op := byteAt code s.pos, bytecodeOffset := s.pos, operandInt := 0,
          operandString := [] } (s.pos + 1) s.instructions.length
      dsimp only
      rw [hsh (s.jumpTargets ++ b), hsh s.jumpTargets]
      dsimp only
      rw [← List.append_assoc]
      exact ih { pos := p, instructions := s.instructions ++ [i],
                 jumpTargets := new ++ s.jumpTargets }
    · rfl

theorem decodeFunction_eq (ops : Opcodes) (stringTable : List (List Byte))
    (code : List Byte) (jt : List Nat) :
    decodeFunction ops stringTable code jt =
      some (decodedInstructions ops stringTable code,
        decodedTargets ops stringTable code ++ jt) := by
  obtain ⟨r, hr⟩ := decodeFunction_total ops stringTable code []
  have h := decodeLoop_append_targets ops stringTable code jt (code.length + 1)
    { pos := 0, instructions := [], jumpTargets := [] }
  unfold decodedInstructions decodedTargets
  rw [hr]
  unfold decodeFunction at hr ⊢
  rw [hr] at h
  simpa using h

theorem isJumpTargetOf_append (ops : Opcodes) (code : List Byte) (l : List Instruction)
    (x : Instruction) (t : Nat) :
    IsJumpTargetOf ops code (l ++ [x]) t ↔
      IsJumpTargetOf ops code l t ∨
        (x.op ∈ trackedOpcodes ops ∧ x.bytecodeOffset + 3 ≤ code.length ∧
          (t : Int) = ((l.length : Int) + jumpOperand code x) % 2 ^ 32) := by
  unfold IsJumpTargetOf
  constructor
  · rintro ⟨i, inst, hi, h1, h2, h3⟩
    by_cases hlt : i < l.length
    · rw [List.getElem?_append_left hlt] at hi
      exact Or.inl ⟨i, inst, hi, h1, h2, h3⟩
    · rw [List.getElem?_append_right (by omega)] at hi
      have h0 : i - l.length = 0 := by
        by_contra hne
        rw [List.getElem?_eq_none (by simp; omega)] at hi
        simp at hi
      rw [h0] at hi
      simp only [List.getElem?_cons_zero, Option.some.injEq] at hi
      subst hi
      have : i = l.length := by omega
      subst this
      exact Or.inr ⟨h1, h2, h3⟩
  · rintro (⟨i, inst, hi, h1, h2, h3⟩ | ⟨h1, h2, h3⟩)
    · have hlt : i < l.length := by
        by_contra hge
        rw [List.getElem?_eq_none (by omega)] at hi
        simp at hi
      exact ⟨i, inst, by rw [List.getElem?_append_left hlt]; exact hi, h1, h2, h3⟩
    · exact ⟨l.length, x, by simp, h1, h2, h3⟩

theorem targetsInv_step (ops : Opcodes) (stringTable : List (List Byte)) (code : List Byte)
    (s s' : DecodeState) (hinv : TargetsInv ops code s)
    (hs : decodeStep ops stringTable code s = .continue s') : TargetsInv ops code s' := by
  have hpos : s.pos < code.length := by
    by_contra hge
    unfold decodeStep at hs
    rw [if_neg hge] at hs
    cases hs
  rw [decodeStep_of_operand ops stringTable code s _ hpos rfl] at hs
  simp only [LoopStep.continue.injEq] at hs
  have hf := decodeOperand_fields ops stringTable code (plainInstruction code s.pos)
    (s.pos + 1) s.instructions.length s.jumpTargets
  have ht := decodeOperand_targets ops stringTable code s.pos s.instructions.length
    s.jumpTargets
  change (decodeOperand ops stringTable code (plainInstruction code s.pos) (s.pos + 1)
      s.instructions.length s.jumpTargets).inst.op = byteAt code s.pos ∧
    (decodeOperand ops stringTable code (plainInstruction code s.pos) (s.pos + 1)
      s.instructions.length s.jumpTargets).inst.bytecodeOffset = s.pos at hf
  generalize decodeOperand ops stringTable code (plainInstruction code s.pos) (s.pos + 1)
    s.instructions.length s.jumpTargets = r at hf ht hs
  subst hs
  obtain ⟨hop, hoff⟩ := hf
  obtain ⟨hinv1, hinv2⟩ := hinv
  have hjo : jumpOperand code r.inst = twosComplement (bytesAt code (s.pos + 1) 2) := by
    unfold jumpOperand
    rw [hoff]
  constructor
  · intro t
    show t ∈ r.jumpTargets ↔ IsJumpTargetOf ops code (s.instructions ++ [r.inst]) t
    rw [isJumpTargetOf_append, hop, hoff, hjo]
    by_cases hc : byteAt code s.pos ∈ trackedOpcodes ops ∧ s.pos + 3 ≤ code.length
    · rw [(ht.1 hc).2, List.mem_cons, hinv1 t]
      constructor
      · rintro (h | h)
        · right
          refine ⟨hc.1, hc.2, ?_⟩
          rw [h]
          omega
        · exact Or.inl h
      · rintro (h | ⟨_, _, h⟩)
        · exact Or.inr h
        · left
          omega
    · rw [ht.2 hc, hinv1 t]
      constructor
      · exact Or.inl
      · rintro (h | ⟨h1, h2, _⟩)
        · exact h
        · exact absurd ⟨h1, h2⟩ hc
  · intro i inst hi h1 h2
    change (s.instructions ++ [r.inst])[i]? = some inst at hi
    by_cases hlt : i < s.instructions.length
    · rw [List.getElem?_append_left hlt] at hi
      exact hinv2 i inst hi h1 h2
    · rw [List.getElem?_append_right (by omega)] at hi
      have h0 : i - s.instructions.length = 0 := by
        by_contra hne
        rw [List.getElem?_eq_none (by simp; omega)] at hi
        simp at hi
      rw [h0] at hi
      simp only [List.getElem?_cons_zero, Option.some.injEq] at hi
      subst hi
      rw [hop] at h1
      rw [hoff] at h2
      rw [hjo]
      exact (ht.1 ⟨h1, h2⟩).1

/-- The targets recorded for a function slice are exactly the targets of its decoded
instructions, and the stored operand of a tracked instruction is its jump operand. -/
theorem decodedTargets_spec (ops : Opcodes) (stringTable : List (List Byte))
    (code : List Byte) :
    TargetsInv ops code
      { pos := code.length, instructions := decodedInstructions ops stringTable code,
        jumpTargets := decodedTargets ops stringTable code } := by
  have hd := decodeFunction_eq ops stringTable code []
  unfold decodeFunction at hd
  obtain ⟨s', hinv, hexit⟩ := runLoop_invariant (decodeStep ops stringTable code)
    (TargetsInv ops code) (fun s s' h1 h2 => targetsInv_step ops stringTable code s s' h1 h2)
    _ _ _ (by
      constructor
      · intro t
        simp [IsJumpTargetOf]
      · intro i inst hi
        simp at hi) hd
  unfold decodeStep at hexit
  split_ifs at hexit
  simp only [LoopStep.exit.injEq, Prod.mk.injEq, List.append_nil] at hexit
  obtain ⟨h1, h2⟩ := hexit
  unfold TargetsInv at hinv ⊢
  rw [h1, h2] at hinv
  exact hinv

/-! ## Decoding all functions -/

/-- What `decodeInstructions` changes: only the instruction map and the jump targets, the
latter gaining the targets recorded for each function slice. -/
theorem decodeAll_spec (ops : Opcodes) :
    ∀ (fns : List FunctionInfo) (st st' : Decomp), decodeAll ops fns st = some st' →
      st'.functions = st.functions ∧ st'.stringTable = st.stringTable ∧
      st'.error = st.error ∧
      ∀ t, t ∈ st'.jumpTargets ↔
        t ∈ st.jumpTargets ∨ ∃ f ∈ fns, t ∈ decodedTargets ops st.stringTable f.bytecode := by
  intro fns
  induction fns with
  | nil =>
    intro st st' h
    simp only [decodeAll, Option.some.injEq] at h
    subst h
    simp
  | cons f rest ih =>
    intro st st' h
    simp only [decodeAll, decodeFunction_eq] at h
    obtain ⟨h1, h2, h3, h4⟩ := ih _ _ h
    refine ⟨h1, h2, h3, ?_⟩
    intro t
    rw [h4 t]
    simp only [List.mem_append, List.mem_cons, exists_eq_or_imp]
    tauto

theorem parseFunctionTable_decoderFields {data : List Byte} {offset length : Nat}
    {st st' : Decomp} {ok : Bool}
    (h : parseFunctionTable data offset length st = some (ok, st')) :
    st'.jumpTargets = st.jumpTargets ∧
      st'.functionInstructions = st.functionInstructions := by
  unfold parseFunctionTable at h
  split at h
  · simp at h
  · simp only [Option.some.injEq, Prod.mk.injEq] at h
    rw [← h.2]
    exact ⟨rfl, rfl⟩
  · simp only [Option.some.injEq, Prod.mk.injEq] at h
    rw [← h.2]
    exact ⟨rfl, rfl⟩

theorem parseStringTable_decoderFields {data : List Byte} {offset length : Nat}
    {st st' : Decomp} {ok : Bool}
    (h : parseStringTable data offset length st = some (ok, st')) :
    st'.jumpTargets = st.jumpTargets ∧
      st'.functionInstructions = st.functionInstructions := by
  unfold parseStringTable at h
  split at h
  · simp at h
  · simp only [Option.some.injEq, Prod.mk.injEq] at h
    rw [← h.2]
    exact ⟨rfl, rfl⟩

theorem dispatchSegment_decoderFields {data : List Byte} {segType pos segLength : Nat}
    {st st' : Decomp} {ok : Bool}
    (h : dispatchSegment data segType pos segLength st = some (ok, st')) :
    st'.jumpTargets = st.jumpTargets ∧
      st'.functionInstructions = st.functionInstructions := by
  unfold dispatchSegment at h
  split_ifs at h
  · simp only [parseGS1Flags, Option.some.injEq, Prod.mk.injEq] at h
    rw [← h.2]
    exact ⟨rfl, rfl⟩
  · exact parseFunctionTable_decoderFields h
  · exact parseStringTable_decoderFields h
  · simp only [parseBytecodeSegment, Option.some.injEq, Prod.mk.injEq] at h
    rw [← h.2]
    exact ⟨rfl, rfl⟩
  · simp only [Option.some.injEq, Prod.mk.injEq] at h
    rw [← h.2]
    exact ⟨rfl, rfl⟩

/-- The segment scanner never touches the instruction map or the jump targets. -/
theorem segmentStep_decoderFields {data : List Byte} {pos : Nat} {st : Decomp}
    {r : ScanStep} (h : segmentStep data pos st = some r) :
    r.state.jumpTargets = st.jumpTargets ∧
      r.state.functionInstructions = st.functionInstructions := by
  unfold segmentStep at h
  dsimp only at h
  split_ifs at h with h1 h2 h3 h4
  · simp only [Option.some.injEq] at h
    rw [← h]
    exact ⟨rfl, rfl⟩
  · simp only [Option.some.injEq] at h
    rw [← h]
    exact ⟨rfl, rfl⟩
  · simp only [Option.some.injEq] at h
    rw [← h]
    exact ⟨rfl, rfl⟩
  · cases hd : dispatchSegment data (readU32BE data pos) (pos + 8)
        (readU32BE data (pos + 4)) st with
    | none => rw [hd] at h; simp at h
    | some q =>
      obtain ⟨ok, st'⟩ := q
      rw [hd] at h
      have hf := dispatchSegment_decoderFields hd
      cases ok
      · simp only [Option.some.injEq] at h
        rw [← h]
        exact hf
      · simp only [Option.some.injEq] at h
        rw [← h]
        exact hf
  · simp only [Option.some.injEq] at h
    rw [← h]
    exact ⟨rfl, rfl⟩

theorem ScanReaches.decoderFields {data : List Byte} {pos : Nat} {st : Decomp}
    (h : ScanReaches data pos st) : st.jumpTargets = [] ∧ st.functionInstructions = [] := by
  induction h with
  | start => exact ⟨rfl, rfl⟩
  | step _ hstep ih =>
    have := segmentStep_decoderFields hstep
    exact ⟨this.1.trans ih.1, this.2.trans ih.2⟩

/-- The scan ends with a pass that leaves the loop, made from a state the scan reaches. -/
theorem parseSegments_final {data : List Byte} {ok : Bool} {st' : Decomp}
    (h : parseSegments data Decomp.empty = some (ok, st')) :
    ∃ pos st, ScanReaches data pos st ∧
      segmentStep data pos st = some (if ok then .done st' else .fail st') := by
  unfold parseSegments parseSegmentsFrom at h
  cases hr : runLoop (segmentLoopStep data) (data.length + 1) (0, Decomp.empty) with
  | none => rw [hr] at h; simp at h
  | some r =>
    rw [hr] at h
    simp only [Option.join] at h
    subst h
    obtain ⟨⟨pos, st⟩, hinv, hexit⟩ := runLoop_invariant (segmentLoopStep data)
      (fun s => ScanReaches data s.1 s.2)
      (fun s s' h1 h2 => by
        unfold segmentLoopStep at h2
        split at h2
        · simp at h2
        · simp at h2
        · simp at h2
        · rename_i p q hq
          simp only [LoopStep.continue.injEq] at h2
          subst h2
          exact ScanReaches.step h1 hq)
      _ _ _ ScanReaches.start hr
    refine ⟨pos, st, hinv, ?_⟩
    unfold segmentLoopStep at hexit
    dsimp only at hexit
    split at hexit
    · simp at hexit
    · rename_i q hq
      simp only [LoopStep.exit.injEq, Option.some.injEq, Prod.mk.injEq] at hexit
      obtain ⟨h1, h2⟩ := hexit
      subst h1 h2
      simpa using hq
    · rename_i q hq
      simp only [LoopStep.exit.injEq, Option.some.injEq, Prod.mk.injEq] at hexit
      obtain ⟨h1, h2⟩ := hexit
      subst h1 h2
      simpa using hq
    · simp at hexit

/-- A successful load is a successful scan followed by the decoding of all functions. -/
theorem loadBytecode_success {ops : Opcodes} {data : List Byte} {st : Decomp}
    (h : loadBytecode ops data = some (true, st)) :
    ∃ st0, parseSegments data Decomp.empty = some (true, st0) ∧
      decodeAll ops st0.functions st0 = some st ∧
      st0.jumpTargets = [] ∧ st0.functionInstructions = [] ∧ st0.error = "" := by
  unfold loadBytecode at h
  split at h
  · simp at h
  · simp at h
  · rename_i st0 hp
    refine ⟨st0, hp, ?_, ?_⟩
    · unfold decodeInstructions at h
      cases hd : decodeAll ops st0.functions st0 with
      | none => rw [hd] at h; simp at h
      | some st1 =>
        rw [hd] at h
        simp only [Option.map_some', Option.some.injEq, Prod.mk.injEq, true_and] at h
        rw [h]
    · obtain ⟨pos, st1, hreach, hstep⟩ := parseSegments_final hp
      simp only [if_true] at hstep
      have hf := segmentStep_decoderFields hstep
      have he := hreach.error_eq
      have hdf := hreach.decoderFields
      have hst : st0 = st1 := by
        unfold segmentStep at hstep
        dsimp only at hstep
        split_ifs at hstep with h1 h2 h3 h4
        · simp only [Option.some.injEq, ScanStep.done.injEq] at hstep
          exact hstep.symm
        · simp at hstep
        · simp at hstep
        · cases hd : dispatchSegment data (readU32BE data pos) (pos + 8)
              (readU32BE data (pos + 4)) st1 with
          | none => rw [hd] at hstep; simp at hstep
          | some q =>
            obtain ⟨ok, st'⟩ := q
            rw [hd] at hstep
            cases ok <;> simp at hstep
        · simp only [Option.some.injEq, ScanStep.done.injEq] at hstep
          exact hstep.symm
      rw [hst]
      exact ⟨hdf.1, hdf.2, he⟩

/-- C11: after a successful load the jump-target set holds exactly the values
(i + r) mod 2^32 for which some function's decoded sequence has at index i an instruction
with opcode jump, if, and, or, set-index or set-index-true whose two operand bytes lie inside
the slice, r being the signed 16-bit big-endian value of those bytes; that r is also the
instruction's integer operand; with, foreach and with-end are not among the recording
opcodes; every target is stored as a value below 2^32. -/
theorem C11_jump_targets (ops : Opcodes) (hd : ops.Distinct) (data : List Byte)
    (st : Decomp) (h : loadBytecode ops data = some (true, st)) :
    (∀ t, isJumpTarget st t = true ↔
      ∃ f ∈ st.functions,
        IsJumpTargetOf ops f.bytecode (decodedInstructions ops st.stringTable f.bytecode) t) ∧
    (∀ f ∈ st.functions, ∀ (i : Nat) (inst : Instruction),
      (decodedInstructions ops st.stringTable f.bytecode)[i]? = some inst →
      inst.op ∈ trackedOpcodes ops → inst.bytecodeOffset + 3 ≤ f.bytecode.length →
      inst.operandInt = jumpOperand f.bytecode inst) ∧
    (ops.OP_WITH ∉ trackedOpcodes ops ∧ ops.OP_FOREACH ∉ trackedOpcodes ops ∧
      ops.OP_WITHEND ∉ trackedOpcodes ops) ∧
    (∀ t, isJumpTarget st t = true → t < 2 ^ 32) := by
  obtain ⟨st0, _, hdec, hjt, _, _⟩ := loadBytecode_success h
  obtain ⟨hfn, htab, _, hmem⟩ := decodeAll_spec ops _ _ _ hdec
  have hiff : ∀ t, isJumpTarget st t = true ↔
      ∃ f ∈ st.functions,
        IsJumpTargetOf ops f.bytecode
          (decodedInstructions ops st.stringTable f.bytecode) t := by
    intro t
    unfold isJumpTarget
    rw [decide_eq_true_eq, hmem t, hjt, hfn, htab]
    simp only [List.not_mem_nil, false_or]
    constructor
    · rintro ⟨f, hf, ht⟩
      exact ⟨f, hf, ((decodedTargets_spec ops st0.stringTable f.bytecode).1 t).mp ht⟩
    · rintro ⟨f, hf, ht⟩
      exact ⟨f, hf, ((decodedTargets_spec ops st0.stringTable f.bytecode).1 t).mpr ht⟩
  refine ⟨hiff, ?_, ?_, ?_⟩
  · intro f _ i inst hi h1 h2
    exact (decodedTargets_spec ops st.stringTable f.bytecode).2 i inst hi h1 h2
  · have n6 := fun j hj hne => hd.ne 6 j (by omega) hj hne
    have n7 := fun j hj hne => hd.ne 7 j (by omega) hj hne
    have n8 := fun j hj hne => hd.ne 8 j (by omega) hj hne
    simp only [trackedOpcodes, List.mem_cons, List.mem_singleton, List.not_mem_nil, or_false,
      not_or]
    exact ⟨⟨n6 2 (by omega) (by omega), n6 3 (by omega) (by omega),
        n6 4 (by omega) (by omega), n6 5 (by omega) (by omega), n6 0 (by omega) (by omega),
        n6 1 (by omega) (by omega)⟩,
      ⟨n7 2 (by omega) (by omega), n7 3 (by omega) (by omega),
        n7 4 (by omega) (by omega), n7 5 (by omega) (by omega), n7 0 (by omega) (by omega),
        n7 1 (by omega) (by omega)⟩,
      ⟨n8 2 (by omega) (by omega), n8 3 (by omega) (by omega),
        n8 4 (by omega) (by omega), n8 5 (by omega) (by omega), n8 0 (by omega) (by omega),
        n8 1 (by omega) (by omega)⟩⟩
  · intro t ht
    obtain ⟨f, _, i, inst, _, _, _, heq⟩ := (hiff t).mp ht
    omega

theorem C11_jump_targets_witness :
    loadBytecode sampleOpcodes bufJumps = some (true, stJumpsLoaded) ∧
    stJumpsLoaded.jumpTargets = [4294967295] ∧
    (∀ t, isJumpTarget stJumpsLoaded t = true ↔
      ∃ f ∈ stJumpsLoaded.functions,
        IsJumpTargetOf sampleOpcodes f.bytecode
          (decodedInstructions sampleOpcodes stJumpsLoaded.stringTable f.bytecode) t) :=
  ⟨by decide, rfl,
    (C11_jump_targets sampleOpcodes (by decide) bufJumps stJumpsLoaded (by decide)).1⟩

/-! ## Source emitter: declaration line -/

theorem findByteAux_none (c : Byte) :
    ∀ (s : List Byte) (i : Nat), c ∉ s → findByteAux c s i = none := by
  intro s
  induction s with
  | nil => intro i _; rfl
  | cons b rest ih =>
    intro i h
    simp only [List.mem_cons, not_or] at h
    simp only [findByteAux]
    rw [if_neg (fun hb => h.1 hb.symm)]
    exact ih (i + 1) h.2

theorem findByteAux_split (c : Byte) (rest : List Byte) :
    ∀ (first : List Byte) (i : Nat), c ∉ first →
      findByteAux c (first ++ c :: rest) i = some (i + first.length) := by
  intro first
  induction first with
  | nil => intro i _; simp [findByteAux]
  | cons b tl ih =>
    intro i h
    simp only [List.mem_cons, not_or] at h
    change (if b = c then some i else findByteAux c (tl ++ c :: rest) (i + 1)) = _
    rw [if_neg (fun hb => h.1 hb.symm), ih (i + 1) h.2]
    simp only [List.length_cons]
    congr 1
    omega

theorem findByte_none (s : List Byte) (c : Byte) (start : Nat) (h : c ∉ s.drop start) :
    findByte s c start = none :=
  findByteAux_none c _ _ h

theorem findByte_split (s : List Byte) (c : Byte) (start : Nat) (first rest : List Byte)
    (hs : s.drop start = first ++ c :: rest) (h : c ∉ first) :
    findByte s c start = some (start + first.length) := by
  unfold findByte
  rw [hs]
  exact findByteAux_split c rest first start h

theorem parseFunctionName_noDot (name : List Byte) (h : dotByte ∉ name) :
    parseFunctionName name =
      { isPublic := false, hasObject := false, objectName := [], funcName := name } := by
  unfold parseFunctionName
  rw [findByte_none name dotByte 0 (by simpa using h)]

theorem parseFunctionName_object (first rest : List Byte) (h : dotByte ∉ first)
    (hp : first ≠ publicBytes) :
    parseFunctionName (first ++ dotByte :: rest) =
      { isPublic := false, hasObject := !first.isEmpty, objectName := first,
        funcName := rest } := by
  unfold parseFunctionName
  rw [findByte_split _ dotByte 0 first rest (by simp) h]
  simp [hp]

theorem publicBytes_noDot : dotByte ∉ publicBytes := by decide

theorem parseFunctionName_public (rest : List Byte) (h : dotByte ∉ rest) :
    parseFunctionName (publicBytes ++ dotByte :: rest) =
      { isPublic := true, hasObject := false, objectName := [], funcName := rest } := by
  have h1 : findByte (publicBytes ++ dotByte :: rest) dotByte 0 = some 6 :=
    findByte_split _ dotByte 0 publicBytes rest (by simp) publicBytes_noDot
  have ht : (publicBytes ++ dotByte :: rest).take 6 = publicBytes := by simp [publicBytes]
  have hd : (publicBytes ++ dotByte :: rest).drop (6 + 1) = rest := by simp [publicBytes]
  have h2 : findByte (publicBytes ++ dotByte :: rest) dotByte (6 + 1) = none :=
    findByte_none _ dotByte _ (by rw [hd]; exact h)
  unfold parseFunctionName
  rw [h1]
  dsimp only
  rw [if_pos ht, h2, hd]

theorem parseFunctionName_publicObject (obj rest : List Byte) (h : dotByte ∉ obj) :
    parseFunctionName (publicBytes ++ dotByte :: (obj ++ dotByte :: rest)) =
      { isPublic := true, hasObject := !obj.isEmpty, objectName := obj,
        funcName := rest } := by
  have h1 : findByte (publicBytes ++ dotByte :: (obj ++ dotByte :: rest)) dotByte 0 =
      some 6 :=
    findByte_split _ dotByte 0 publicBytes (obj ++ dotByte :: rest) (by simp)
      publicBytes_noDot
  have ht : (publicBytes ++ dotByte :: (obj ++ dotByte :: rest)).take 6 = publicBytes := by
    simp [publicBytes]
  have hd : (publicBytes ++ dotByte :: (obj ++ dotByte :: rest)).drop (6 + 1) =
      obj ++ dotByte :: rest := by simp [publicBytes]
  have h2 : findByte (publicBytes ++ dotByte :: (obj ++ dotByte :: rest)) dotByte (6 + 1) =
      some (6 + 1 + obj.length) := findByte_split _ dotByte _ obj rest hd h
  have hobj : ((publicBytes ++ dotByte :: (obj ++ dotByte :: rest)).drop (6 + 1)).take
      (6 + 1 + obj.length - 6 - 1) = obj := by
    rw [hd, show 6 + 1 + obj.length - 6 - 1 = obj.length by omega]
    simp
  have hrest : (publicBytes ++ dotByte :: (obj ++ dotByte :: rest)).drop
      (6 + 1 + obj.length + 1) = rest := by
    rw [Nat.add_assoc (6 + 1), ← List.drop_drop, hd]
    simp
  unfold parseFunctionName
  rw [h1]
  dsimp only
  rw [if_pos ht, h2]
  dsimp only
  rw [hobj, hrest]

/-! ## Source emitter: text of a function -/

theorem emitInstruction_eq (mnemonic : Nat → String) (out : String) (inst : Instruction) :
    emitInstruction mnemonic out inst = out ++ instructionLine mnemonic inst := by
  unfold emitInstruction instructionLine
  dsimp only
  split_ifs <;> simp only [String.append_assoc, String.empty_append]

theorem foldl_emitInstruction (mnemonic : Nat → String) :
    ∀ (insts : List Instruction) (out : String),
      insts.foldl (emitInstruction mnemonic) out =
        out ++ concatText (insts.map (instructionLine mnemonic)) := by
  intro insts
  induction insts with
  | nil => intro out; simp [concatText]
  | cons i rest ih =>
    intro out
    simp only [List.foldl_cons, List.map_cons]
    rw [ih, emitInstruction_eq]
    simp only [concatText, List.foldr_cons, String.append_assoc]

/-- The text of a function is its declaration line, the three header comment lines, one
comment line per held instruction, in order, and the closing brace. -/
theorem generateFunction_eq (mnemonic : Nat → String) (st : Decomp) (func : FunctionInfo) :
    generateFunction mnemonic st func =
      declarationLine func.name ++ (concatText (headerLines func) ++
        (concatText ((heldInstructions st func).map (instructionLine mnemonic)) ++
          "\x7d")) := by
  unfold generateFunction heldInstructions declarationLine headerLines
  cases mapFind st.functionInstructions func.name with
  | none =>
    simp only [concatText, List.foldr_cons, List.foldr_nil, Option.getD_none, List.map_nil,
      String.append_assoc, String.append_empty, String.empty_append]
  | some insts =>
    simp only [foldl_emitInstruction, concatText, List.foldr_cons, List.foldr_nil,
      Option.getD_some, String.append_assoc, String.append_empty, String.empty_append]

theorem generateSource_eq (mnemonic : Nat → String) (st : Decomp) :
    generateSource mnemonic st =
      concatText (st.functions.map (fun f => generateFunction mnemonic st f ++ "\n\n")) := by
  unfold generateSource
  have h : ∀ (fns : List FunctionInfo) (out : String),
      fns.foldl (fun out func => out ++ generateFunction mnemonic st func ++ "\n\n") out =
        out ++ concatText (fns.map (fun f => generateFunction mnemonic st f ++ "\n\n")) := by
    intro fns
    induction fns with
    | nil => intro out; simp [concatText]
    | cons f rest ih =>
      intro out
      simp only [List.foldl_cons, List.map_cons]
      rw [ih]
      simp only [concatText, List.foldr_cons, String.append_assoc]
  rw [h]
  simp

/-- C15 (as stated, refuted): the name ".foo" contains a '.', its first segment is not
`public`, yet the declaration line is `function foo()` and not `function .foo()`: no
qualifier is emitted for an empty first segment. -/
theorem C15_declaration_counterexample :
    declarationLine (strBytes ".foo") = "function foo() \x7b\n" ∧
    declarationLine (strBytes ".foo") ≠ "function .foo() \x7b\n" := by
  decide

/-- C15 (amended): the text of a function starts with its declaration line, which follows
the qualifier rule: a name without '.' gives `function name()`; `public.rest` without a
second '.' gives `public function rest()`; `public.Object.rest` gives
`public function Object.rest()`; any other `Object.rest` gives `function Object.rest()`;
and in the last two cases an empty qualifier (`public..rest`, `.rest`) is left out together
with its '.'. -/
theorem C15_declaration (mnemonic : Nat → String) (st : Decomp) (func : FunctionInfo) :
    (∃ body, generateFunction mnemonic st func = declarationLine func.name ++ body) ∧
    (∀ name, dotByte ∉ name →
      declarationLine name = "function " ++ bytesToString name ++ "() \x7b\n") ∧
    (∀ rest, dotByte ∉ rest →
      declarationLine (publicBytes ++ dotByte :: rest) =
        "public function " ++ bytesToString rest ++ "() \x7b\n") ∧
    (∀ obj rest, dotByte ∉ obj →
      declarationLine (publicBytes ++ dotByte :: (obj ++ dotByte :: rest)) =
        if obj = [] then "public function " ++ bytesToString rest ++ "() \x7b\n"
        else "public function " ++ bytesToString obj ++ "." ++ bytesToString rest ++
          "() \x7b\n") ∧
    (∀ first rest, dotByte ∉ first → first ≠ publicBytes →
      declarationLine (first ++ dotByte :: rest) =
        if first = [] then "function " ++ bytesToString rest ++ "() \x7b\n"
        else "function " ++ bytesToString first ++ "." ++ bytesToString rest ++
          "() \x7b\n") := by
  have hpub : ∀ t : String, "public " ++ ("function " ++ t) = "public function " ++ t := by
    intro t
    rw [← String.append_assoc]
    rfl
  refine ⟨⟨_, generateFunction_eq mnemonic st func⟩, ?_, ?_, ?_, ?_⟩
  · intro name h
    unfold declarationLine
    rw [parseFunctionName_noDot name h]
    simp [emitDeclaration]
  · intro rest h
    unfold declarationLine
    rw [parseFunctionName_public rest h]
    simp [emitDeclaration, String.append_assoc, hpub]
  · intro obj rest h
    unfold declarationLine
    rw [parseFunctionName_publicObject obj rest h]
    cases obj with
    | nil => simp [emitDeclaration, String.append_assoc, hpub]
    | cons b tl => simp [emitDeclaration, String.append_assoc, hpub]
  · intro first rest h hp
    unfold declarationLine
    rw [parseFunctionName_object first rest h hp]
    cases first with
    | nil => simp [emitDeclaration, String.append_assoc]
    | cons b tl => simp [emitDeclaration, String.append_assoc]

theorem C15_declaration_witness :
    declarationLine (strBytes "public.Player.onCreated") =
      "public function Player.onCreated() \x7b\n" ∧
    declarationLine (strBytes "npc.onTimeout") = "function npc.onTimeout() \x7b\n" ∧
    declarationLine (strBytes "onCreated") = "function onCreated() \x7b\n" := by
  have h := C15_declaration sampleMnemonic Decomp.empty ⟨[], 0, 0, []⟩
  refine ⟨?_, ?_, ?_⟩
  · have h3 := h.2.2.2.1 (strBytes "Player") (strBytes "onCreated") (by decide)
    rw [if_neg (by decide)] at h3
    exact h3
  · have h4 := h.2.2.2.2 (strBytes "npc") (strBytes "onTimeout") (by decide) (by decide)
    rw [if_neg (by decide)] at h4
    exact h4
  · exact h.2.1 (strBytes "onCreated") (by decide)

/-! ## The instruction map -/

theorem mapFind_append_miss {κ ν : Type} [DecidableEq κ] (m : List (κ × ν)) (key : κ)
    (value : ν) (h : m.any (fun e => decide (e.1 = key)) = false) :
    mapFind (m ++ [(key, value)]) key = some value := by
  induction m with
  | nil => simp [mapFind]
  | cons e rest ih =>
    simp only [List.any_cons, Bool.or_eq_false_iff, decide_eq_false_iff_not] at h
    have := ih h.2
    unfold mapFind at this ⊢
    simp only [List.cons_append, List.find?_cons]
    rw [show decide (e.1 = key) = false from decide_eq_false h.1]
    exact this

theorem mapFind_map_hit {κ ν : Type} [DecidableEq κ] (m : List (κ × ν)) (key : κ)
    (value : ν) (h : m.any (fun e => decide (e.1 = key)) = true) :
    mapFind (m.map (fun e => if e.1 = key then (key, value) else e)) key = some value := by
  induction m with
  | nil => simp at h
  | cons e rest ih =>
    unfold mapFind
    simp only [List.map_cons, List.find?_cons]
    by_cases he : e.1 = key
    · simp [he]
    · simp only [List.any_cons, decide_eq_false he, Bool.false_or] at h
      simp only [if_neg he, decide_eq_false he]
      exact ih h

theorem mapFind_mapAssign_self {κ ν : Type} [DecidableEq κ] (m : List (κ × ν)) (key : κ)
    (value : ν) : mapFind (mapAssign m key value) key = some value := by
  unfold mapAssign
  split_ifs with h
  · exact mapFind_map_hit m key value h
  · exact mapFind_append_miss m key value (Bool.eq_false_iff.mpr h)

theorem mapFind_mapAssign_ne {κ ν : Type} [DecidableEq κ] (m : List (κ × ν)) (key k : κ)
    (value : ν) (hne : k ≠ key) : mapFind (mapAssign m key value) k = mapFind m k := by
  unfold mapAssign
  split_ifs with h
  · clear h
    induction m with
    | nil => rfl
    | cons e rest ih =>
      unfold mapFind at ih ⊢
      simp only [List.map_cons, List.find?_cons]
      by_cases he : e.1 = key
      · have hk : ¬ e.1 = k := fun h' => hne (h'.symm.trans he)
        simp only [if_pos he, decide_eq_false hk, decide_eq_false (Ne.symm hne)]
        exact ih
      · simp only [if_neg he]
        by_cases hk : e.1 = k
        · simp [hk]
        · simp only [decide_eq_false hk]
          exact ih
  · clear h
    induction m with
    | nil => simp [mapFind, Ne.symm hne]
    | cons e rest ih =>
      unfold mapFind at ih ⊢
      simp only [List.cons_append, List.find?_cons]
      by_cases hk : e.1 = k
      · simp [hk]
      · simp only [decide_eq_false hk]
        exact ih

theorem lastNamed_cons (f : FunctionInfo) (rest : List FunctionInfo) (name : List Byte) :
    lastNamed (f :: rest) name =
      match lastNamed rest name with
      | some g => some g
      | none => if f.name = name then some f else none := by
  unfold lastNamed
  simp only [List.filter_cons]
  by_cases hf : f.name = name
  · simp only [hf, decide_True, if_true]
    cases hl : rest.filter (fun g => decide (g.name = name)) with
    | nil => simp
    | cons a tl =>
      rw [List.getLast?_cons_cons]
      cases hg : (a :: tl).getLast? with
      | none => simp at hg
      | some g => rfl
  · simp only [hf, decide_False, if_false]
    cases hl : (rest.filter (fun g => decide (g.name = name))).getLast? <;> simp [hl]

theorem lastNamed_mem {fns : List FunctionInfo} {name : List Byte} {g : FunctionInfo}
    (h : lastNamed fns name = some g) : g ∈ fns ∧ g.name = name := by
  unfold lastNamed at h
  have hm := List.mem_of_getLast?_eq_some h
  simp only [List.mem_filter, decide_eq_true_eq] at hm
  exact hm

theorem lastNamed_of_mem {fns : List FunctionInfo} {f : FunctionInfo} (h : f ∈ fns) :
    ∃ g, lastNamed fns f.name = some g := by
  unfold lastNamed
  have hm : f ∈ fns.filter (fun g => decide (g.name = f.name)) := by
    simp [List.mem_filter, h]
  cases hl : (fns.filter (fun g => decide (g.name = f.name))).getLast? with
  | none =>
    rw [List.getLast?_eq_none_iff] at hl
    rw [hl] at hm
    simp at hm
  | some g => exact ⟨g, rfl⟩

/-- After `decodeInstructions` the instruction map holds, under each name carried by some
function, the sequence decoded from the slice of the last function with that name. -/
theorem decodeAll_instructions (ops : Opcodes) :
    ∀ (fns : List FunctionInfo) (st st' : Decomp), decodeAll ops fns st = some st' →
      ∀ name, mapFind st'.functionInstructions name =
        match lastNamed fns name with
        | some g => some (decodedInstructions ops st.stringTable g.bytecode)
        | none => mapFind st.functionInstructions name := by
  intro fns
  induction fns with
  | nil =>
    intro st st' h name
    simp only [decodeAll, Option.some.injEq] at h
    subst h
    simp [lastNamed]
  | cons f rest ih =>
    intro st st' h name
    simp only [decodeAll, decodeFunction_eq] at h
    rw [ih _ _ h name, lastNamed_cons]
    cases lastNamed rest name with
    | some g => rfl
    | none =>
      dsimp only
      by_cases hf : f.name = name
      · rw [if_pos hf, ← hf, mapFind_mapAssign_self]
      · rw [if_neg hf, mapFind_mapAssign_ne _ _ _ _ (Ne.symm hf)]

/-- C16, as the source has it (the claim is not met for functions that share a name): the
text of a function is its declaration line, the three header comment lines, then one
comment line per instruction of the sequence held under the function's name, in sequence
order, and the closing brace; each instruction line is `  // ` and the opcode mnemonic,
followed by the quoted string operand if that is not empty, otherwise by the integer
operand if that is not zero, otherwise by nothing. After a successful load the sequence
held under a name is the one decoded from the slice of the last function of the list that
carries the name: the lines of a function are those of its own decoded instructions when
no other function has its name, and those of another function's instructions when a
function of the same name follows it. -/
theorem C16_instruction_lines (mnemonic : Nat → String) (st : Decomp) (func : FunctionInfo) :
    generateFunction mnemonic st func =
      declarationLine func.name ++ (concatText (headerLines func) ++
        (concatText ((heldInstructions st func).map (instructionLine mnemonic)) ++
          "\x7d")) ∧
    (∀ inst : Instruction, inst.operandString ≠ [] →
      instructionLine mnemonic inst =
        "  // " ++ mnemonic inst.op ++ " \"" ++ bytesToString inst.operandString ++ "\"" ++
          "\n") ∧
    (∀ inst : Instruction, inst.operandString = [] → inst.operandInt ≠ 0 →
      instructionLine mnemonic inst =
        "  // " ++ mnemonic inst.op ++ " " ++ toString inst.operandInt ++ "\n") ∧
    (∀ inst : Instruction, inst.operandString = [] → inst.operandInt = 0 →
      instructionLine mnemonic inst = "  // " ++ mnemonic inst.op ++ "\n") ∧
    (∀ (out : String) (inst : Instruction),
      emitInstruction mnemonic out inst = out ++ instructionLine mnemonic inst) ∧
    (∀ (ops : Opcodes) (data : List Byte), loadBytecode ops data = some (true, st) →
      func ∈ st.functions →
      ∃ g, lastNamed st.functions func.name = some g ∧ g ∈ st.functions ∧
        g.name = func.name ∧
        heldInstructions st func = decodedInstructions ops st.stringTable g.bytecode ∧
        ((∀ g' ∈ st.functions, g'.name = func.name → g' = func) → g = func)) := by
  refine ⟨generateFunction_eq mnemonic st func, ?_, ?_, ?_,
    emitInstruction_eq mnemonic, ?_⟩
  · intro inst h
    unfold instructionLine
    rw [if_pos h]
    simp only [String.append_assoc]
  · intro inst h1 h2
    unfold instructionLine
    rw [if_neg (by simpa using h1), if_pos h2]
    simp only [String.append_assoc]
  · intro inst h1 h2
    unfold instructionLine
    rw [if_neg (by simpa using h1), if_neg (by simpa using h2)]
    simp only [String.append_empty]
  · intro ops data hload hmem
    obtain ⟨st0, _, hdec, _, hfi, _⟩ := loadBytecode_success hload
    obtain ⟨hfn, htab, _, _⟩ := decodeAll_spec ops _ _ _ hdec
    have hmap := decodeAll_instructions ops _ _ _ hdec func.name
    rw [← hfn] at hmap
    obtain ⟨g, hg⟩ := lastNamed_of_mem hmem
    rw [hg] at hmap
    have hgm := lastNamed_mem hg
    refine ⟨g, hg, hgm.1, hgm.2, ?_, fun huniq => huniq g hgm.1 hgm.2⟩
    unfold heldInstructions
    rw [hmap, htab]
    rfl

theorem C16_instruction_lines_witness :
    loadBytecode sampleOpcodes bufSharedSlices = some (true, stSharedSlices) ∧
    (∃ g, lastNamed stSharedSlices.functions [0x66] = some g ∧
      g ∈ stSharedSlices.functions ∧ g.name = [0x66] ∧
      heldInstructions stSharedSlices ⟨[0x66], 0, 2, [7, 7]⟩ =
        decodedInstructions sampleOpcodes stSharedSlices.stringTable g.bytecode ∧
      ((∀ g' ∈ stSharedSlices.functions, g'.name = [0x66] →
        g' = ⟨[0x66], 0, 2, [7, 7]⟩) → g = ⟨[0x66], 0, 2, [7, 7]⟩)) ∧
    lastNamed stSharedSlices.functions [0x66] = some ⟨[0x66], 2, UINT32_MAX, [8]⟩ ∧
    decodedInstructions sampleOpcodes stSharedSlices.stringTable [7, 7] =
      [⟨7, 0, 0, []⟩, ⟨7, 1, 0, []⟩] ∧
    generateFunction sampleMnemonic stSharedSlices ⟨[0x66], 0, 2, [7, 7]⟩ =
      "function f() \x7b\n  // Decompilation not fully implemented yet\n" ++
      "  // Function: f\n  // Opcodes: 2 bytes\n  // OP_8\n\x7d" ∧
    generateFunction sampleMnemonic stJumpsLoaded ⟨[0x66], 0, UINT32_MAX, codeJumps⟩ =
      "function f() \x7b\n  // Decompilation not fully implemented yet\n" ++
      "  // Function: f\n  // Opcodes: 7 bytes\n" ++
      "  // OP_10 -1\n  // OP_7\n  // OP_150 2\n\x7d" :=
  ⟨by decide,
    (C16_instruction_lines sampleMnemonic stSharedSlices ⟨[0x66], 0, 2, [7, 7]⟩).2.2.2.2.2
      sampleOpcodes bufSharedSlices (by decide) (by decide),
    by decide, by decide, by decide, by decide⟩

/-! ## End to end: one function -/

theorem containerOneFunction_u32 (b : Byte) :
    readU32BE (containerOneFunction b) 0 = 2 ∧ readU32BE (containerOneFunction b) 4 = 21 ∧
    readU32BE (containerOneFunction b) 8 = 0 ∧
    readU32BE (containerOneFunction b) 29 = 3 ∧ readU32BE (containerOneFunction b) 33 = 0 ∧
    readU32BE (containerOneFunction b) 37 = 4 ∧ readU32BE (containerOneFunction b) 41 = 1 := by
  simp only [readU32BE_eq]
  simp [byteAt, containerOneFunction]
  exact ⟨rfl, rfl, rfl⟩

theorem containerOneFunction_name (b : Byte) :
    readCString (containerOneFunction b) 12 = (strBytes "public.onCreated", 29) := by
  have hd : (containerOneFunction b).drop 12 =
      strBytes "public.onCreated" ++ 0 :: [0, 0, 0, 3, 0, 0, 0, 0, 0, 0, 0, 4, 0, 0, 0, 1, b] := by
    simp [containerOneFunction, strBytes]
    decide
  exact readCString_of_drop (containerOneFunction b) 12 (strBytes "public.onCreated") _
    (by simp [NulFree, strBytes]; decide) hd

theorem containerOneFunction_table (b : Byte) :
    parseFunctionTable (containerOneFunction b) 8 21 Decomp.empty =
      some (true, { Decomp.empty with
        functions := [⟨strBytes "public.onCreated", 0, UINT32_MAX, []⟩] }) := by
  have hl : (containerOneFunction b).length = 46 := rfl
  have hs1 : functionTableStep (containerOneFunction b) (8 + 21) (8, []) =
      .continue (29, [⟨strBytes "public.onCreated", 0, 0, []⟩]) := by
    unfold functionTableStep
    rw [if_pos (by decide), if_neg (by rw [hl]; decide)]
    dsimp only
    rw [(containerOneFunction_u32 b).2.2.1, containerOneFunction_name]
    rfl
  have hs2 : functionTableStep (containerOneFunction b) (8 + 21)
      (29, [⟨strBytes "public.onCreated", 0, 0, []⟩]) =
      .exit (true, [⟨strBytes "public.onCreated", 0, 0, []⟩]) := by
    unfold functionTableStep
    rw [if_neg (by decide)]
  unfold parseFunctionTable
  rw [hl]
  simp only [runLoop, Decomp.empty, hs1, hs2]
  rfl

theorem containerOneFunction_scan (b : Byte) :
    parseSegments (containerOneFunction b) Decomp.empty = some (true, stOneFunction b) := by
  have hl : (containerOneFunction b).length = 46 := rfl
  obtain ⟨h0, h4, -, h29, h33, h37, h41⟩ := containerOneFunction_u32 b
  have s1 : segmentStep (containerOneFunction b) 0 Decomp.empty =
      some (.next 29 { Decomp.empty with
        functions := [⟨strBytes "public.onCreated", 0, UINT32_MAX, []⟩] }) := by
    unfold segmentStep
    rw [if_pos (by rw [hl]; decide), if_neg (by rw [hl]; decide)]
    dsimp only
    rw [h0, h4, if_neg (by decide), if_neg (by rw [hl]; decide)]
    unfold dispatchSegment
    rw [if_neg (by decide), if_pos rfl, containerOneFunction_table]
  have s2 : segmentStep (containerOneFunction b) 29 { Decomp.empty with
        functions := [⟨strBytes "public.onCreated", 0, UINT32_MAX, []⟩] } =
      some (.next 37 { Decomp.empty with
        functions := [⟨strBytes "public.onCreated", 0, UINT32_MAX, []⟩] }) := by
    unfold segmentStep
    rw [if_pos (by rw [hl]; decide), if_neg (by rw [hl]; decide)]
    dsimp only
    rw [h29, h33, if_neg (by decide), if_neg (by rw [hl]; decide)]
    unfold dispatchSegment
    rw [if_neg (by decide), if_neg (by decide), if_pos rfl]
    rfl
  have s3 : segmentStep (containerOneFunction b) 37 { Decomp.empty with
        functions := [⟨strBytes "public.onCreated", 0, UINT32_MAX, []⟩] } =
      some (.next 46 (stOneFunction b)) := by
    rw [segmentStep_bytecode _ _ _ (by rw [hl]; decide) h37 (by rw [h41, hl]), h41]
    rfl
  have s4 : segmentStep (containerOneFunction b) 46 (stOneFunction b) =
      some (.done (stOneFunction b)) := by
    unfold segmentStep
    rw [if_neg (by rw [hl]; decide)]
  unfold parseSegments
  rw [parseSegmentsFrom_next s1, parseSegmentsFrom_next s2, parseSegmentsFrom_next s3,
    parseSegmentsFrom_done s4]

theorem containerOneFunction_load (ops : Opcodes) (b : Byte) (hb : b.val ∉ ops.labels) :
    loadBytecode ops (containerOneFunction b) = some (true, stOneFunctionLoaded b) := by
  have hdec : decodeFunction ops [] [b] [] = some ([⟨b.val, 0, 0, []⟩], []) := by
    have h := decodeLoop_plain ops [] [b] [] (by simpa using hb) 1 0 2 [] rfl (by omega)
    unfold decodeFunction
    exact h
  unfold loadBytecode
  rw [containerOneFunction_scan]
  unfold decodeInstructions
  have : decodeAll ops (stOneFunction b).functions (stOneFunction b) =
      some (stOneFunctionLoaded b) := by
    simp only [stOneFunction, Decomp.empty, decodeAll, hdec]
    rfl
  show Option.map (fun st' => (true, st'))
    (decodeAll ops (stOneFunction b).functions (stOneFunction b)) = _
  rw [this]
  rfl

theorem stOneFunctionLoaded_text (mnemonic : Nat → String) (b : Byte) :
    decompile mnemonic (stOneFunctionLoaded b) =
      "public function onCreated() \x7b\n" ++
      ("  // Decompilation not fully implemented yet\n" ++
      ("  // Function: public.onCreated\n" ++
      ("  // Opcodes: 1 bytes\n" ++
      ("  // " ++ (mnemonic b.val ++ ("\n" ++ "\x7d\n\n")))))) := by
  have hd : declarationLine (strBytes "public.onCreated") =
      "public function onCreated() \x7b\n" := by decide
  have hn : bytesToString (strBytes "public.onCreated") = "public.onCreated" := by decide
  have hheld : heldInstructions (stOneFunctionLoaded b)
      ⟨strBytes "public.onCreated", 0, UINT32_MAX, [b]⟩ = [⟨b.val, 0, 0, []⟩] := by
    simp [heldInstructions, stOneFunctionLoaded, mapFind]
  unfold decompile
  rw [generateSource_eq]
  have hf : (stOneFunctionLoaded b).functions =
      [⟨strBytes "public.onCreated", 0, UINT32_MAX, [b]⟩] := rfl
  rw [hf]
  simp only [List.map, concatText, List.foldr, generateFunction_eq, hheld, headerLines, hd, hn,
    instructionLine]
  rw [if_neg (by simp), if_neg (by simp)]
  have e1 : "  // Function: " ++ "public.onCreated" ++ "\n" =
      "  // Function: public.onCreated\n" := by decide
  have e2 : "  // Opcodes: " ++ toString [b].length ++ " bytes\n" =
      "  // Opcodes: 1 bytes\n" := by
    rw [List.length_singleton]
    decide
  have e3 : "\x7d" ++ "\n\n" = "\x7d\n\n" := by decide
  rw [e1, e2]
  simp only [String.append_assoc, String.append_empty, String.empty_append, e3]

theorem generateFunction_bodyLines (mnemonic : Nat → String) (st : Decomp)
    (func : FunctionInfo) :
    generateFunction mnemonic st func =
      declarationLine func.name ++ (concatText (bodyLines mnemonic st func) ++ "\x7d") := by
  have hcat : ∀ (xs ys : List String) (t : String),
      concatText (xs ++ ys) ++ t = concatText xs ++ (concatText ys ++ t) := by
    intro xs ys t
    induction xs with
    | nil => simp [concatText]
    | cons x xs ih =>
      simp only [concatText, List.cons_append, List.foldr_cons, String.append_assoc] at ih ⊢
      rw [ih]
  rw [generateFunction_eq, bodyLines, hcat]

theorem bodyLines_shape (mnemonic : Nat → String) (st : Decomp) (func : FunctionInfo) :
    ∀ l ∈ bodyLines mnemonic st func, ∃ t, l = "  // " ++ t ++ "\n" := by
  intro l hl
  unfold bodyLines at hl
  rcases List.mem_append.mp hl with h | h
  · simp only [headerLines, List.mem_cons, List.mem_singleton, List.not_mem_nil,
      or_false] at h
    rcases h with h | h | h
    · exact ⟨"Decompilation not fully implemented yet", by rw [h]; decide⟩
    · refine ⟨"Function: " ++ bytesToString func.name, ?_⟩
      rw [h, ← String.append_assoc]
      congr 1
    · refine ⟨"Opcodes: " ++ toString func.bytecode.length ++ " bytes", ?_⟩
      rw [h]
      simp only [String.append_assoc]
      rw [← String.append_assoc "  // " "Opcodes: "]
      congr 1
  · obtain ⟨inst, _, rfl⟩ := List.mem_map.mp h
    unfold instructionLine
    exact ⟨mnemonic inst.op ++
      (if inst.operandString ≠ [] then " \"" ++ bytesToString inst.operandString ++ "\""
       else if inst.operandInt ≠ 0 then " " ++ toString inst.operandInt
       else ""), by simp only [String.append_assoc]⟩

theorem loaded_heldInstructions {ops : Opcodes} {data : List Byte} {st : Decomp}
    (hload : loadBytecode ops data = some (true, st)) {func : FunctionInfo}
    (hmem : func ∈ st.functions)
    (huniq : ∀ g ∈ st.functions, g.name = func.name → g = func) :
    heldInstructions st func = decodedInstructions ops st.stringTable func.bytecode := by
  obtain ⟨st0, _, hdec, _, hfi, _⟩ := loadBytecode_success hload
  obtain ⟨hfn, htab, _, _⟩ := decodeAll_spec ops _ _ _ hdec
  have hmap := decodeAll_instructions ops _ _ _ hdec func.name
  rw [← hfn] at hmap
  obtain ⟨g, hg⟩ := lastNamed_of_mem hmem
  rw [hg] at hmap
  have hgm := lastNamed_mem hg
  have hgf : g = func := huniq g hgm.1 hgm.2
  unfold heldInstructions
  rw [hmap, htab, hgf]
  rfl

/-- C17, as the source has it (the claim is not met): `containerOneFunction 7` holds one
FunctionTable entry (0, "public.onCreated"), an empty StringTable and a Bytecode segment with
the single opcode byte 7, which carries no operand, so one instruction is decoded; the
decompiled text has four comment lines between the declaration and the closing brace, not
one: three header lines come before the line of the instruction. -/
theorem C17_end_to_end_counterexample :
    (7 : Byte).val ∉ sampleOpcodes.labels ∧
    (decodedInstructions sampleOpcodes [] [7]).length = 1 ∧
    (loadBytecode sampleOpcodes (containerOneFunction 7)).map
        (fun r => (r.1, decompile sampleMnemonic r.2)) =
      some (true, "public function onCreated() \x7b\n" ++
        "  // Decompilation not fully implemented yet\n" ++
        "  // Function: public.onCreated\n" ++
        "  // Opcodes: 1 bytes\n" ++
        "  // OP_7\n" ++
        "\x7d\n\n") ∧
    commentLineCount ("public function onCreated() \x7b\n" ++
        "  // Decompilation not fully implemented yet\n" ++
        "  // Function: public.onCreated\n" ++
        "  // Opcodes: 1 bytes\n" ++
        "  // OP_7\n" ++
        "\x7d\n\n") = 4 := by
  refine ⟨by decide, by decide, by decide, by decide⟩

/-- C17 (amended): for the container with one FunctionTable entry (0, "public.onCreated"),
an empty StringTable and a Bytecode segment of one opcode byte `b` without operand, the load
succeeds and the decompiled text is a single function block: the declaration
`public function onCreated() {`, three header comment lines (a fixed notice, the function
name, the byte count of the slice), one comment line with the mnemonic of `b`, the closing
`}` and an empty line. In general the text of a function is the declaration line, then the
three header comment lines and exactly one comment line per instruction held for the
function, each starting with `  // ` and ending with a newline, then `}`; after a successful
load the held instructions of a function whose name is unique are its decoded
instructions. -/
theorem C17_end_to_end (ops : Opcodes) (mnemonic : Nat → String) (b : Byte)
    (hb : b.val ∉ ops.labels) :
    (∃ st, loadBytecode ops (containerOneFunction b) = some (true, st) ∧
      decompile mnemonic st =
        "public function onCreated() \x7b\n" ++
        ("  // Decompilation not fully implemented yet\n" ++
        ("  // Function: public.onCreated\n" ++
        ("  // Opcodes: 1 bytes\n" ++
        ("  // " ++ (mnemonic b.val ++ ("\n" ++ "\x7d\n\n"))))))) ∧
    (∀ (st : Decomp) (func : FunctionInfo),
      generateFunction mnemonic st func =
        declarationLine func.name ++ (concatText (bodyLines mnemonic st func) ++ "\x7d") ∧
      (bodyLines mnemonic st func).length = 3 + (heldInstructions st func).length ∧
      (∀ l ∈ bodyLines mnemonic st func, ∃ t, l = "  // " ++ t ++ "\n") ∧
      (∀ (ops' : Opcodes) (data : List Byte), loadBytecode ops' data = some (true, st) →
        func ∈ st.functions →
        (∀ g ∈ st.functions, g.name = func.name → g = func) →
        (bodyLines mnemonic st func).length =
          3 + (decodedInstructions ops' st.stringTable func.bytecode).length)) := by
  refine ⟨⟨stOneFunctionLoaded b, containerOneFunction_load ops b hb,
    stOneFunctionLoaded_text mnemonic b⟩, ?_⟩
  intro st func
  have hlen : (bodyLines mnemonic st func).length = 3 + (heldInstructions st func).length := by
    simp only [bodyLines, headerLines, List.length_append, List.length_map, List.length_cons,
      List.length_nil]
  refine ⟨generateFunction_bodyLines mnemonic st func, hlen, bodyLines_shape mnemonic st func,
    ?_⟩
  intro ops' data hload hmem huniq
  rw [hlen, loaded_heldInstructions hload hmem huniq]

theorem C17_end_to_end_witness :
    ∃ st, loadBytecode sampleOpcodes (containerOneFunction 7) = some (true, st) ∧
      decompile sampleMnemonic st =
        "public function onCreated() \x7b\n" ++
        ("  // Decompilation not fully implemented yet\n" ++
        ("  // Function: public.onCreated\n" ++
        ("  // Opcodes: 1 bytes\n" ++
        ("  // " ++ (sampleMnemonic 7 ++ ("\n" ++ "\x7d\n\n")))))) :=
  (C17_end_to_end sampleOpcodes sampleMnemonic 7 (by decide)).1

/-! ## Outcome of the load -/

theorem readCString_pos_step (buf : List Byte) (pos : Nat) (h : pos < buf.length) :
    (readCString buf pos).2 =
      if byteAt buf pos = 0 then pos + 1 else (readCString buf (pos + 1)).2 := by
  have hb : byteAt buf pos = (buf[pos]).val := by
    unfold byteAt
    rw [List.getD_eq_getElem _ _ h]
  unfold readCString
  rw [List.drop_eq_getElem_cons h, hb]
  by_cases hz : (buf[pos]).val = 0
  · rw [if_pos hz, List.takeWhile_cons_of_neg (by simpa using hz)]
    simp only [List.length_nil, Nat.add_zero]
    rw [if_pos h]
  · rw [if_neg hz, List.takeWhile_cons_of_pos (by simpa using hz)]
    simp only [List.length_cons]
    rw [show pos + ((List.takeWhile (fun b => decide (b.val ≠ 0)) (List.drop (pos + 1) buf)).length
      + 1) = pos + 1 + (List.takeWhile (fun b => decide (b.val ≠ 0))
        (List.drop (pos + 1) buf)).length by omega]

theorem readCString_pos_agree (data data' : List Byte) (hlen : data'.length = data.length)
    (e : Nat) (he : e ≤ data.length) :
    ∀ (n pos : Nat), e - pos ≤ n →
      (∀ i, pos ≤ i → i < e → data'.getD i 0 = data.getD i 0) →
      (readCString data' pos).2 = (readCString data pos).2 ∨
        (e ≤ (readCString data pos).2 ∧ e ≤ (readCString data' pos).2) := by
  intro n
  induction n with
  | zero =>
    intro pos hn _
    exact Or.inr ⟨le_trans (by omega) (readCString_ge data pos),
      le_trans (by omega) (readCString_ge data' pos)⟩
  | succ n ih =>
    intro pos hn hag
    by_cases hpe : pos < e
    · have hb : byteAt data' pos = byteAt data pos := by
        unfold byteAt
        rw [hag pos (le_refl _) hpe]
      rw [readCString_pos_step data pos (by omega),
        readCString_pos_step data' pos (by omega), hb]
      by_cases hz : byteAt data pos = 0
      · rw [if_pos hz, if_pos hz]
        exact Or.inl rfl
      · rw [if_neg hz, if_neg hz]
        exact ih (pos + 1) (by omega) (fun i h1 h2 => hag i (by omega) h2)
    · exact Or.inr ⟨le_trans (by omega) (readCString_ge data pos),
        le_trans (by omega) (readCString_ge data' pos)⟩

theorem functionTableLoop_flag_agree (data data' : List Byte)
    (hlen : data'.length = data.length) (e : Nat) (he : e ≤ data.length) :
    ∀ (fuel : Nat) (s s' : Nat × List FunctionInfo),
      (s'.1 = s.1 ∧ ∀ i, s.1 ≤ i → i < e → data'.getD i 0 = data.getD i 0) ∨
        (e ≤ s.1 ∧ e ≤ s'.1) →
      (runLoop (functionTableStep data' e) fuel s').map Prod.fst =
        (runLoop (functionTableStep data e) fuel s).map Prod.fst := by
  intro fuel
  induction fuel with
  | zero => intro s s' _; rfl
  | succ fuel ih =>
    intro s s' hinv
    obtain ⟨p, fns⟩ := s
    obtain ⟨p', fns'⟩ := s'
    simp only [runLoop]
    rcases hinv with ⟨hp, hag⟩ | ⟨h1, h2⟩
    · dsimp only at hp hag
      subst hp
      by_cases hpe : p' < e
      · by_cases h4 : p' + 4 > data.length
        · simp only [functionTableStep, if_pos hpe, hlen, if_pos h4, Option.map_some']
        · simp only [functionTableStep, if_pos hpe, hlen, if_neg h4]
          apply ih
          dsimp only
          rcases readCString_pos_agree data data' hlen e he (e - (p' + 4)) (p' + 4) (le_refl _)
            (fun i h1 h2 => hag i (by omega) h2) with h | h
          · by_cases hq : (readCString data (p' + 4)).2 < e
            · refine Or.inl ⟨h, fun i h1 h2 => hag i ?_ h2⟩
              have := readCString_ge data (p' + 4)
              omega
            · exact Or.inr ⟨by omega, by omega⟩
          · exact Or.inr h
      · simp only [functionTableStep, if_neg hpe, Option.map_some']
    · dsimp only at h1 h2
      simp only [functionTableStep, if_neg (show ¬ p < e by omega),
        if_neg (show ¬ p' < e by omega), Option.map_some']

theorem parseFunctionTable_flag_agree (data data' : List Byte)
    (hlen : data'.length = data.length) (offset length : Nat)
    (hb : offset + length ≤ data.length)
    (hag : ∀ i, offset ≤ i → i < offset + length → data'.getD i 0 = data.getD i 0)
    (st st' : Decomp) :
    (parseFunctionTable data' offset length st').map Prod.fst =
      (parseFunctionTable data offset length st).map Prod.fst := by
  have h := functionTableLoop_flag_agree data data' hlen (offset + length) hb
    (data.length + 1) (offset, st.functions) (offset, st'.functions) (Or.inl ⟨rfl, hag⟩)
  unfold parseFunctionTable
  rw [hlen]
  cases h1 : runLoop (functionTableStep data (offset + length)) (data.length + 1)
      (offset, st.functions) with
  | none =>
    rw [h1] at h
    cases h2 : runLoop (functionTableStep data' (offset + length)) (data.length + 1)
        (offset, st'.functions) with
    | none => rfl
    | some r' => rw [h2] at h; cases h
  | some r =>
    rw [h1] at h
    cases h2 : runLoop (functionTableStep data' (offset + length)) (data.length + 1)
        (offset, st'.functions) with
    | none => rw [h2] at h; cases h
    | some r' =>
      rw [h2] at h
      obtain ⟨ok, fns⟩ := r
      obtain ⟨ok', fns'⟩ := r'
      simp only [Option.map_some', Option.some.injEq] at h
      subst h
      cases ok' <;> rfl

theorem readU32BE_agree (data data' : List Byte) (pos : Nat)
    (h : ∀ i, pos ≤ i → i < pos + 4 → data'.getD i 0 = data.getD i 0) :
    readU32BE data' pos = readU32BE data pos := by
  unfold readU32BE byteAt
  rw [h pos (by omega) (by omega), h (pos + 1) (by omega) (by omega),
    h (pos + 2) (by omega) (by omega), h (pos + 3) (by omega) (by omega)]

theorem bytecodePayloads_ge (data : List Byte) :
    ∀ (fuel pos : Nat) (r : Nat × Nat), r ∈ bytecodePayloads data fuel pos → pos + 8 ≤ r.1 := by
  intro fuel
  induction fuel with
  | zero => intro pos r h; simp [bytecodePayloads] at h
  | succ fuel ih =>
    intro pos r h
    unfold bytecodePayloads at h
    dsimp only at h
    split_ifs at h with h1 h2 h3
    · rcases List.mem_append.mp h with h | h
      · simp only [List.mem_singleton] at h
        rw [h]
      · have := ih _ r h
        omega
    · rw [List.nil_append] at h
      have := ih _ r h
      omega
    · simp at h
    · simp at h

theorem segmentStep_short (data : List Byte) (pos : Nat) (st : Decomp)
    (h : ¬ pos + 8 ≤ data.length) : segmentStep data pos st = some (.done st) := by
  unfold segmentStep
  by_cases hp : pos < data.length
  · rw [if_pos hp, if_pos (by omega)]
  · rw [if_neg hp]

theorem segmentStep_reject (data : List Byte) (pos : Nat) (st : Decomp)
    (hhdr : pos + 8 ≤ data.length)
    (h : ¬ (1 ≤ readU32BE data pos ∧ readU32BE data pos ≤ 4 ∧
      pos + 8 + readU32BE data (pos + 4) ≤ data.length)) :
    ∃ st', segmentStep data pos st = some (.fail st') ∧ st'.error ≠ "" := by
  unfold segmentStep
  rw [if_pos (by omega), if_neg (by omega)]
  dsimp only
  by_cases ht : readU32BE data pos < 1 ∨ readU32BE data pos > 4
  · rw [if_pos ht]
    refine ⟨_, rfl, ?_⟩
    simp only [Decomp.setError]
    intro hc
    have := congrArg String.length hc
    rw [String.length_append, show "Invalid segment type: ".length = 22 by decide,
      show "".length = 0 by decide] at this
    omega
  · rw [if_neg ht, if_pos (by omega)]
    exact ⟨_, rfl, by simp only [Decomp.setError]; decide⟩

theorem dispatchSegment_flag_agree (data data' : List Byte)
    (hlen : data'.length = data.length) (segType pos segLength : Nat)
    (hb : pos + segLength ≤ data.length)
    (hag : segType = 2 →
      ∀ i, pos ≤ i → i < pos + segLength → data'.getD i 0 = data.getD i 0)
    (st st' : Decomp) :
    (dispatchSegment data' segType pos segLength st').map Prod.fst =
      (dispatchSegment data segType pos segLength st).map Prod.fst := by
  unfold dispatchSegment
  by_cases h1 : segType = 1
  · rw [if_pos h1, if_pos h1]; rfl
  rw [if_neg h1, if_neg h1]
  by_cases h2 : segType = 2
  · rw [if_pos h2, if_pos h2]
    exact parseFunctionTable_flag_agree data data' hlen pos segLength hb (hag h2) st st'
  rw [if_neg h2, if_neg h2]
  by_cases h3 : segType = 3
  · rw [if_pos h3, if_pos h3]
    obtain ⟨s1, e1⟩ := parseStringTable_total data pos segLength st hb
    obtain ⟨s2, e2⟩ := parseStringTable_total data' pos segLength st' (by rw [hlen]; exact hb)
    rw [e1, e2]
    rfl
  rw [if_neg h3, if_neg h3]
  by_cases h4 : segType = 4
  · rw [if_pos h4, if_pos h4]; rfl
  rw [if_neg h4, if_neg h4]
  rfl

theorem bytecodePayloads_succ (data : List Byte) (fuel pos : Nat)
    (hhdr : pos + 8 ≤ data.length)
    (hv : 1 ≤ readU32BE data pos ∧ readU32BE data pos ≤ 4 ∧
      pos + 8 + readU32BE data (pos + 4) ≤ data.length) :
    bytecodePayloads data (fuel + 1) pos =
      (if readU32BE data pos = 4 then [(pos + 8, pos + 8 + readU32BE data (pos + 4))]
       else []) ++ bytecodePayloads data fuel (pos + 8 + readU32BE data (pos + 4)) := by
  rw [bytecodePayloads]
  dsimp only
  rw [if_pos hhdr, if_pos hv]

theorem scan_flag_agree (data data' : List Byte) (hlen : data'.length = data.length) :
    ∀ (n fuel pos : Nat) (st st' : Decomp), data.length - pos ≤ n → n < fuel →
      (∀ i, pos ≤ i → i < data.length →
        (∀ r ∈ bytecodePayloads data fuel pos, ¬ (r.1 ≤ i ∧ i < r.2)) →
        data'.getD i 0 = data.getD i 0) →
      (parseSegmentsFrom data' pos st').map Prod.fst =
        (parseSegmentsFrom data pos st).map Prod.fst := by
  intro n
  induction n with
  | zero =>
    intro fuel pos st st' hn _ _
    rw [parseSegmentsFrom_done (segmentStep_short data pos st (by omega)),
      parseSegmentsFrom_done (segmentStep_short data' pos st' (by omega))]
    rfl
  | succ n ih =>
    intro fuel pos st st' hn hf hag
    by_cases hhdr : pos + 8 ≤ data.length
    · obtain ⟨fuel, rfl⟩ : ∃ f, fuel = f + 1 := ⟨fuel - 1, by omega⟩
      have hhead : ∀ i, pos ≤ i → i < pos + 8 → data'.getD i 0 = data.getD i 0 :=
        fun i h1 h2 => hag i h1 (by omega) (fun r hr hc => by
          have := bytecodePayloads_ge data _ _ r hr
          omega)
      have ht := readU32BE_agree data data' pos (fun i h1 h2 => hhead i h1 (by omega))
      have hl := readU32BE_agree data data' (pos + 4)
        (fun i h1 h2 => hhead i (by omega) (by omega))
      by_cases hv : 1 ≤ readU32BE data pos ∧ readU32BE data pos ≤ 4 ∧
          pos + 8 + readU32BE data (pos + 4) ≤ data.length
      · obtain ⟨ok, s1, hd1, hs1⟩ :=
          segmentStep_in_bounds data pos st hhdr ⟨hv.1, hv.2.1⟩ hv.2.2
        obtain ⟨ok', s2, hd2, hs2⟩ :=
          segmentStep_in_bounds data' pos st' (by omega) (by rw [ht]; exact ⟨hv.1, hv.2.1⟩)
            (by rw [hl, hlen]; exact hv.2.2)
        have hpl := bytecodePayloads_succ data fuel pos hhdr hv
        have hfl := dispatchSegment_flag_agree data data' hlen (readU32BE data pos) (pos + 8)
          (readU32BE data (pos + 4)) hv.2.2
          (fun h2 i h1 hi => hag i (by omega) (by omega) (fun r hr hc => by
            rw [hpl, if_neg (by omega), List.nil_append] at hr
            have := bytecodePayloads_ge data _ _ r hr
            omega)) st st'
        rw [ht, hl] at hd2
        rw [hl] at hs2
        rw [hd1, hd2] at hfl
        simp only [Option.map_some', Option.some.injEq] at hfl
        subst hfl
        cases ok' with
        | false =>
          rw [parseSegmentsFrom_fail hs1, parseSegmentsFrom_fail hs2]
          rfl
        | true =>
          rw [parseSegmentsFrom_next hs1, parseSegmentsFrom_next hs2]
          apply ih fuel _ s1 s2 (by omega) (by omega)
          intro i h1 h2 hr
          apply hag i (by omega) h2
          intro r hr' hc
          rw [hpl] at hr'
          rcases List.mem_append.mp hr' with h | h
          · split_ifs at h with h4
            · simp only [List.mem_singleton] at h
              rw [h] at hc
              dsimp only at hc
              omega
            · simp at h
          · exact hr r h hc
      · obtain ⟨s1, hs1, _⟩ := segmentStep_reject data pos st hhdr hv
        obtain ⟨s2, hs2, _⟩ := segmentStep_reject data' pos st' (by omega)
          (by rw [ht, hl, hlen]; exact hv)
        rw [parseSegmentsFrom_fail hs1, parseSegmentsFrom_fail hs2]
        rfl
    · rw [parseSegmentsFrom_done (segmentStep_short data pos st hhdr),
        parseSegmentsFrom_done (segmentStep_short data' pos st' (by omega))]
      rfl

theorem loadBytecode_flag (ops : Opcodes) (data : List Byte) :
    (loadBytecode ops data).map Prod.fst = (parseSegments data Decomp.empty).map Prod.fst := by
  unfold loadBytecode
  obtain ⟨⟨ok, st0⟩, h⟩ := parseSegments_total data Decomp.empty
  rw [h]
  cases ok with
  | false => rfl
  | true =>
    obtain ⟨st, hst⟩ := decodeInstructions_total ops st0
    show (decodeInstructions ops st0).map Prod.fst = _
    rw [hst]
    rfl

theorem parseSegments_fail_error {data : List Byte} {st : Decomp}
    (h : parseSegments data Decomp.empty = some (false, st)) : st.error ≠ "" := by
  obtain ⟨pos, st0, hr, hs⟩ := parseSegments_final h
  simp only [Bool.false_eq_true, if_false] at hs
  by_cases hhdr : pos + 8 ≤ data.length
  · by_cases hv : 1 ≤ readU32BE data pos ∧ readU32BE data pos ≤ 4 ∧
        pos + 8 + readU32BE data (pos + 4) ≤ data.length
    · obtain ⟨ok, s1, hd1, hs1⟩ :=
        segmentStep_in_bounds data pos st0 hhdr ⟨hv.1, hv.2.1⟩ hv.2.2
      rw [hs1] at hs
      cases ok with
      | true => simp at hs
      | false =>
        simp only [Bool.false_eq_true, if_false, Option.some.injEq, ScanStep.fail.injEq] at hs
        subst hs
        rw [(dispatchSegment_error hd1).2 rfl]
        decide
    · obtain ⟨s1, hs1, he⟩ := segmentStep_reject data pos st0 hhdr hv
      rw [hs1] at hs
      simp only [Option.some.injEq, ScanStep.fail.injEq] at hs
      subst hs
      exact he
  · rw [segmentStep_short data pos st0 hhdr] at hs
    simp at hs

theorem segmentStep_next_valid {data : List Byte} {pos pos' : Nat} {st st' : Decomp}
    (h : segmentStep data pos st = some (.next pos' st')) :
    pos + 8 ≤ data.length ∧ (1 ≤ readU32BE data pos ∧ readU32BE data pos ≤ 4 ∧
      pos + 8 + readU32BE data (pos + 4) ≤ data.length) := by
  have hhdr := (segmentStep_next h).1
  refine ⟨hhdr, ?_⟩
  by_contra hv
  obtain ⟨s1, hs1, _⟩ := segmentStep_reject data pos st hhdr hv
  rw [hs1] at h
  cases h

theorem ScanReaches.payloads {data : List Byte} {pos : Nat} {st : Decomp}
    (h : ScanReaches data pos st) :
    ∃ k pre, 8 * k ≤ pos ∧
      bytecodePayloads data (data.length + 1) 0 =
        pre ++ bytecodePayloads data (data.length + 1 - k) pos := by
  induction h with
  | start => exact ⟨0, [], le_refl _, rfl⟩
  | @step pos pos' st st' _ hs ih =>
    obtain ⟨k, pre, hk, hp⟩ := ih
    obtain ⟨hhdr, hv⟩ := segmentStep_next_valid hs
    have hpos := (segmentStep_next hs).2.1
    obtain ⟨f, hf⟩ : ∃ f, data.length + 1 - k = f + 1 := ⟨data.length - k, by omega⟩
    rw [hf, bytecodePayloads_succ data f pos hhdr hv, ← List.append_assoc, ← hpos] at hp
    refine ⟨k + 1, pre ++ (if readU32BE data pos = 4 then
      [(pos + 8, pos + 8 + readU32BE data (pos + 4))] else []), by omega, ?_⟩
    rw [hp, show data.length + 1 - (k + 1) = f by omega, hpos]

theorem ScanReaches.inBytecodePayload {data : List Byte} {pos : Nat} {st : Decomp}
    (h : ScanReaches data pos st) (hhdr : pos + 8 ≤ data.length)
    (ht : readU32BE data pos = 4)
    (hb : pos + 8 + readU32BE data (pos + 4) ≤ data.length) (i : Nat)
    (h1 : pos + 8 ≤ i) (h2 : i < pos + 8 + readU32BE data (pos + 4)) :
    InBytecodePayload data i := by
  obtain ⟨k, pre, hk, hp⟩ := h.payloads
  obtain ⟨f, hf⟩ : ∃ f, data.length + 1 - k = f + 1 := ⟨data.length - k, by omega⟩
  rw [hf, bytecodePayloads_succ data f pos hhdr ⟨by omega, by omega, hb⟩, if_pos ht] at hp
  refine ⟨(pos + 8, pos + 8 + readU32BE data (pos + 4)), ?_, h1, h2⟩
  rw [hp]
  simp

/-- C18: the load always returns, and it succeeds exactly when the segment scan (with the
function-table parser it calls) returns true; the error string is non-empty exactly when
the load fails. After a successful scan the instruction decoder always returns true. Hence
a buffer that differs from `data` only at indices inside payloads of Bytecode segments of
`data` loads if and only if `data` does; the payload of every Bytecode segment that the
scan of `data` reaches counts as such. -/
theorem C18_load_outcome (ops : Opcodes) (data : List Byte) :
    (∃ ok st0 st, parseSegments data Decomp.empty = some (ok, st0) ∧
      loadBytecode ops data = some (ok, st) ∧ (st.error ≠ "" ↔ ok = false)) ∧
    (∀ st0 : Decomp, ∃ st, decodeInstructions ops st0 = some (true, st)) ∧
    (∀ data', SameOutsideBytecode data data' →
      (loadBytecode ops data').map Prod.fst = (loadBytecode ops data).map Prod.fst) ∧
    (∀ pos st, ScanReaches data pos st → pos + 8 ≤ data.length → readU32BE data pos = 4 →
      pos + 8 + readU32BE data (pos + 4) ≤ data.length →
      ∀ i, pos + 8 ≤ i → i < pos + 8 + readU32BE data (pos + 4) →
        InBytecodePayload data i) := by
  refine ⟨?_, decodeInstructions_total ops, ?_, ?_⟩
  · obtain ⟨⟨ok, st0⟩, hscan⟩ := parseSegments_total data Decomp.empty
    cases ok with
    | false =>
      refine ⟨false, st0, st0, hscan, ?_, ?_⟩
      · unfold loadBytecode
        rw [hscan]
      · exact ⟨fun _ => rfl, fun _ => parseSegments_fail_error hscan⟩
    | true =>
      obtain ⟨st, hst⟩ := decodeInstructions_total ops st0
      have hload : loadBytecode ops data = some (true, st) := by
        unfold loadBytecode
        rw [hscan]
        exact hst
      refine ⟨true, st0, st, hscan, hload, ?_⟩
      obtain ⟨st0', hscan', hdec, _, _, herr⟩ := loadBytecode_success hload
      have he := (decodeAll_spec ops _ _ _ hdec).2.2.1
      rw [herr] at he
      constructor
      · intro hne
        exact absurd he hne
      · intro hc
        cases hc
  · intro data' hsame
    obtain ⟨hlen, hag⟩ := hsame
    rw [loadBytecode_flag, loadBytecode_flag]
    unfold parseSegments
    apply scan_flag_agree data data' hlen data.length (data.length + 1) 0 _ _ (by omega)
      (by omega)
    intro i _ hi hr
    apply hag i hi
    rintro ⟨r, hr1, hr2⟩
    exact hr r hr1 hr2
  · intro pos st h hhdr ht hb i h1 h2
    exact h.inBytecodePayload hhdr ht hb i h1 h2

theorem C18_load_outcome_witness :
    SameOutsideBytecode bufTwoFunctions (bufTwoFunctions.set 29 10) ∧
    (loadBytecode sampleOpcodes (bufTwoFunctions.set 29 10)).map Prod.fst =
      (loadBytecode sampleOpcodes bufTwoFunctions).map Prod.fst ∧
    (loadBytecode sampleOpcodes bufTwoFunctions).map Prod.fst = some true :=
  ⟨by decide, (C18_load_outcome sampleOpcodes bufTwoFunctions).2.2.1 _ (by decide),
    by decide⟩

/-! ## Truncated function-table entries -/

theorem functionTableLoop_true (data : List Byte) (e : Nat) (he : e + 3 ≤ data.length) :
    ∀ (fuel : Nat) (s : Nat × List FunctionInfo) (r : Bool × List FunctionInfo),
      runLoop (functionTableStep data e) fuel s = some r → r.1 = true := by
  intro fuel
  induction fuel with
  | zero => intro s r h; simp [runLoop] at h
  | succ fuel ih =>
    intro s r h
    simp only [runLoop] at h
    unfold functionTableStep at h
    by_cases hpe : s.1 < e
    · rw [if_pos hpe, if_neg (by omega)] at h
      exact ih _ r h
    · rw [if_neg hpe] at h
      simp only [Option.some.injEq] at h
      rw [← h]

/-- C19, as the source has it (the claim is not met): `parseFunctionTable` compares the
position of an entry with the size of the whole buffer, not with the end of the segment.
When at least three more bytes of the buffer follow the payload, as they do whenever another
segment follows, the parser returns true whatever the payload holds; a payload that ends in
the middle of an entry is accepted. -/
theorem C19_truncated_entry_accepted (data : List Byte) (offset length : Nat) (st : Decomp)
    (h : offset + length + 3 ≤ data.length) :
    ∃ st', parseFunctionTable data offset length st = some (true, st') ∧
      st'.error = st.error := by
  obtain ⟨⟨ok, st'⟩, hr⟩ := parseFunctionTable_total data offset length st
  have hok : ok = true := by
    unfold parseFunctionTable at hr
    cases hl : runLoop (functionTableStep data (offset + length)) (data.length + 1)
        (offset, st.functions) with
    | none => rw [hl] at hr; cases hr
    | some r =>
      have ht := functionTableLoop_true data (offset + length) h _ _ _ hl
      obtain ⟨ok', fns⟩ := r
      dsimp only at ht
      subst ht
      rw [hl] at hr
      simp only [Option.some.injEq, Prod.mk.injEq] at hr
      exact hr.1.symm
  subst hok
  exact ⟨st', hr, (parseFunctionTable_error hr).1 rfl⟩

theorem C19_truncated_entry_accepted_witness :
    (∃ st', parseFunctionTable bufTruncatedEntry 8 2 Decomp.empty = some (true, st') ∧
      st'.error = Decomp.empty.error) ∧
    loadBytecode sampleOpcodes bufTruncatedEntry =
      some (true, { Decomp.empty with
        functions := [⟨[], 0, UINT32_MAX, []⟩], functionInstructions := [([], [])] }) ∧
    loadBytecode sampleOpcodes bufUnterminatedName =
      some (true, { Decomp.empty with
        functions := [⟨[0x61], 0, UINT32_MAX, []⟩],
        functionInstructions := [([0x61], [])] }) :=
  ⟨C19_truncated_entry_accepted bufTruncatedEntry 8 2 Decomp.empty (by decide),
    by decide, by decide⟩

/-! ## A failed load -/

theorem segmentStep_beyond (data : List Byte) (pos : Nat) (st : Decomp)
    (hhdr : pos + 8 ≤ data.length)
    (htype : 1 ≤ readU32BE data pos ∧ readU32BE data pos ≤ 4)
    (hlen : pos + 8 + readU32BE data (pos + 4) > data.length) :
    segmentStep data pos st =
      some (.fail (st.setError "Segment extends beyond file bounds")) := by
  unfold segmentStep
  rw [if_pos (by omega), if_neg (by omega)]
  dsimp only
  rw [if_neg (by omega), if_pos hlen]

theorem concatText_eq_empty (pieces : List String) (h : ∀ p ∈ pieces, p ≠ "") :
    concatText pieces = "" ↔ pieces = [] := by
  constructor
  · intro hc
    cases pieces with
    | nil => rfl
    | cons p rest =>
      exfalso
      have hp := h p (List.mem_cons_self _ _)
      simp only [concatText, List.foldr_cons] at hc
      have hl := congrArg String.length hc
      rw [String.length_append] at hl
      have h0 : p.length = 0 := by
        have : "".length = 0 := rfl
        omega
      apply hp
      apply String.ext
      exact List.length_eq_zero.mp h0
  · intro hc
    rw [hc]
    rfl

theorem generateSource_eq_empty (mnemonic : Nat → String) (st : Decomp) :
    generateSource mnemonic st = "" ↔ st.functions = [] := by
  rw [generateSource_eq, concatText_eq_empty]
  · exact List.map_eq_nil_iff
  · intro p hp
    obtain ⟨f, _, rfl⟩ := List.mem_map.mp hp
    intro hc
    have hl := congrArg String.length hc
    rw [String.length_append] at hl
    have h2 : "\n\n".length = 2 := by decide
    have h0 : "".length = 0 := rfl
    omega

/-- C20, as the source has it (the claim is not met): in `bufPartial` a FunctionTable segment
with (0, "a") and a StringTable segment with "s" come before a Bytecode header that claims
nine payload bytes where one is left. The load fails with "Segment extends beyond file
bounds", and the decompiler still holds the function and the string of the two earlier
segments; `decompile` on it returns the block of that function, not the empty text. -/
theorem C20_failed_load_counterexample :
    loadBytecode sampleOpcodes bufPartial =
      some (false, stPartial.setError "Segment extends beyond file bounds") ∧
    (stPartial.setError "Segment extends beyond file bounds").functions =
      [⟨[0x61], 0, UINT32_MAX, []⟩] ∧
    (stPartial.setError "Segment extends beyond file bounds").stringTable = [[0x73]] ∧
    decompile sampleMnemonic (stPartial.setError "Segment extends beyond file bounds") =
      "function a() \x7b\n  // Decompilation not fully implemented yet\n" ++
      "  // Function: a\n  // Opcodes: 0 bytes\n\x7d\n\n" := by
  refine ⟨by decide, by decide, by decide, by decide⟩

/-- C20 (amended): when the scan of a buffer reaches a header with a valid type code that
claims a length past the end of the buffer, the load returns false with the error
"Segment extends beyond file bounds" and no instruction has been decoded. The decompiler
keeps the functions and strings that the earlier segments added: `decompile` called on it
returns one block per such function, holding the declaration line, the three header
comment lines and the closing brace, so its text is empty only when no function was
parsed. There is no partial output from `decompileFile`: it returns an empty source, writes
nothing and reports the error. -/
theorem C20_failed_load (ops : Opcodes) (mnemonic : Nat → String) (data : List Byte)
    (pos : Nat) (st : Decomp) (hreach : ScanReaches data pos st)
    (hhdr : pos + 8 ≤ data.length)
    (htype : 1 ≤ readU32BE data pos ∧ readU32BE data pos ≤ 4)
    (hlen : pos + 8 + readU32BE data (pos + 4) > data.length) :
    ∃ st', loadBytecode ops data = some (false, st') ∧
      st'.error = "Segment extends beyond file bounds" ∧
      st'.functions = st.functions ∧ st'.stringTable = st.stringTable ∧
      st'.functionInstructions = [] ∧ st'.jumpTargets = [] ∧
      decompile mnemonic st' =
        concatText (st.functions.map (fun f =>
          declarationLine f.name ++ (concatText (headerLines f) ++ "\x7d") ++ "\n\n")) ∧
      (decompile mnemonic st' = "" ↔ st.functions = []) ∧
      decompileFile ops mnemonic data =
        some { source := "", written := none,
               errmsg := "Segment extends beyond file bounds" } := by
  have hstep := segmentStep_beyond data pos st hhdr htype hlen
  have hload := loadBytecode_of_scan_fail ops hreach hstep
  obtain ⟨hjt, hfi⟩ := hreach.decoderFields
  refine ⟨st.setError "Segment extends beyond file bounds", hload, rfl, rfl, rfl, hfi, hjt,
    ?_, ?_, ?_⟩
  · unfold decompile
    rw [generateSource_eq]
    show concatText (st.functions.map _) = _
    congr 1
    apply List.map_congr_left
    intro f _
    rw [generateFunction_eq]
    have hheld : heldInstructions (st.setError "Segment extends beyond file bounds") f = [] := by
      unfold heldInstructions
      show (mapFind st.functionInstructions f.name).getD [] = []
      rw [hfi]
      rfl
    rw [hheld]
    simp only [List.map_nil, concatText, List.foldr_nil, String.empty_append]
  · unfold decompile
    exact generateSource_eq_empty mnemonic _
  · unfold decompileFile
    rw [hload]
    rfl

theorem C20_failed_load_witness :
    ∃ st', loadBytecode sampleOpcodes bufPartial = some (false, st') ∧
      st'.error = "Segment extends beyond file bounds" ∧
      st'.functions = stPartial.functions ∧ st'.stringTable = stPartial.stringTable ∧
      st'.functionInstructions = [] ∧ st'.jumpTargets = [] ∧
      decompile sampleMnemonic st' =
        concatText (stPartial.functions.map (fun f =>
          declarationLine f.name ++ (concatText (headerLines f) ++ "\x7d") ++ "\n\n")) ∧
      (decompile sampleMnemonic st' = "" ↔ stPartial.functions = []) ∧
      decompileFile sampleOpcodes sampleMnemonic bufPartial =
        some { source := "", written := none,
               errmsg := "Segment extends beyond file bounds" } :=
  C20_failed_load sampleOpcodes sampleMnemonic bufPartial 24 stPartial
    (ScanReaches.step (ScanReaches.step ScanReaches.start
      (show segmentStep bufPartial 0 Decomp.empty =
        some (.next 14 { Decomp.empty with functions := [⟨[0x61], 0, UINT32_MAX, []⟩] })
        by decide))
      (show segmentStep bufPartial 14
          { Decomp.empty with functions := [⟨[0x61], 0, UINT32_MAX, []⟩] } =
        some (.next 24 stPartial) by decide))
    (by decide) (by decide) (by decide)

/-! ## Byte offsets of the decoded instructions -/

theorem length_le_of_increasing :
    ∀ (l : List Nat) (m n : Nat), l.Pairwise (fun a b => a < b) →
      (∀ x ∈ l, m ≤ x ∧ x < n) → l.length ≤ n - m
  | [], _, _, _, _ => Nat.zero_le _
  | a :: l, m, n, hp, hb => by
    have ha := hb a (List.mem_cons_self _ _)
    rw [List.pairwise_cons] at hp
    have ih := length_le_of_increasing l (m + 1) n hp.2 (fun x hx =>
      ⟨by have := hp.1 x hx; omega, (hb x (List.mem_cons_of_mem _ hx)).2⟩)
    rw [List.length_cons]
    omega

theorem decodeLoop_offsets (ops : Opcodes) (stringTable : List (List Byte))
    (code : List Byte) (jt : List Nat) (fuel : Nat) (r : List Instruction × List Nat)
    (h : runLoop (decodeStep ops stringTable code) fuel
      { pos := 0, instructions := [], jumpTargets := jt } = some r) :
    (r.1.map (fun inst => inst.bytecodeOffset)).Pairwise (fun a b => a < b) ∧
      (∀ inst ∈ r.1, inst.bytecodeOffset < code.length ∧
        inst.op = byteAt code inst.bytecodeOffset) ∧
      (code ≠ [] → ∃ inst, r.1.head? = some inst ∧ inst.bytecodeOffset = 0) := by
  obtain ⟨s, ⟨hpw, hall, hhead, hzero⟩, hexit⟩ := runLoop_invariant
    (decodeStep ops stringTable code)
    (fun s => (s.instructions.map (fun inst => inst.bytecodeOffset)).Pairwise
        (fun a b => a < b) ∧
      (∀ inst ∈ s.instructions, inst.bytecodeOffset < s.pos ∧
        inst.bytecodeOffset < code.length ∧ inst.op = byteAt code inst.bytecodeOffset) ∧
      (∀ inst, s.instructions.head? = some inst → inst.bytecodeOffset = 0) ∧
      (s.instructions = [] → s.pos = 0))
    (by
      intro s s' ⟨hpw, hall, hhead, hzero⟩ hs
      have hpos : s.pos < code.length := by
        by_contra hge
        unfold decodeStep at hs
        rw [if_neg hge] at hs
        cases hs
      obtain ⟨inst, pos', jt', hstep, hop, hoff, hlt⟩ :=
        decodeStep_continue ops stringTable code s hpos
      rw [hstep] at hs
      simp only [LoopStep.continue.injEq] at hs
      subst hs
      dsimp only
      refine ⟨?_, ?_, ?_, ?_⟩
      · rw [List.map_append, List.pairwise_append]
        refine ⟨hpw, by simp, ?_⟩
        intro a ha b hb
        obtain ⟨i, hi, rfl⟩ := List.mem_map.mp ha
        simp only [List.map_cons, List.map_nil, List.mem_singleton] at hb
        rw [hb, hoff]
        exact (hall i hi).1
      · intro i hi
        rcases List.mem_append.mp hi with hi | hi
        · obtain ⟨h1, h2, h3⟩ := hall i hi
          exact ⟨by omega, h2, h3⟩
        · simp only [List.mem_singleton] at hi
          subst hi
          exact ⟨by omega, by omega, by rw [hop, hoff]⟩
      · intro i hi
        cases hl : s.instructions with
        | nil =>
          rw [hl] at hi
          simp only [List.nil_append, List.head?_cons, Option.some.injEq] at hi
          rw [← hi, hoff]
          exact hzero hl
        | cons a l =>
          rw [hl] at hi
          simp only [List.cons_append, List.head?_cons, Option.some.injEq] at hi
          apply hhead
          rw [hl, ← hi]
          rfl
      · intro hnil
        simp at hnil)
    fuel _ r ⟨by simp, by simp, by simp, fun _ => rfl⟩ h
  have hge : ¬ s.pos < code.length := by
    intro hlt
    obtain ⟨_, _, _, hstep, _⟩ := decodeStep_continue ops stringTable code s hlt
    rw [hstep] at hexit
    cases hexit
  unfold decodeStep at hexit
  rw [if_neg hge] at hexit
  simp only [LoopStep.exit.injEq] at hexit
  subst hexit
  dsimp only
  refine ⟨hpw, ?_, ?_⟩
  · intro inst hi
    obtain ⟨_, h2, h3⟩ := hall inst hi
    exact ⟨h2, h3⟩
  · intro hne
    have hlen : 0 < code.length := List.length_pos.mpr hne
    cases hl : s.instructions with
    | nil =>
      have := hzero hl
      omega
    | cons a l =>
      exact ⟨a, rfl, hhead a (by rw [hl]; rfl)⟩

/-- C27: for every function slice, string table and set of jump targets the decoding loop
returns; the byte offsets of the decoded instructions are strictly increasing and all
smaller than the slice length, the first one is 0 when the slice is not empty, every
instruction's opcode is the byte of the slice at its offset, and there are at most as many
instructions as the slice has bytes. -/
theorem C27_instruction_offsets (ops : Opcodes) (stringTable : List (List Byte))
    (code : List Byte) (jt : List Nat) :
    ∃ insts jt', decodeFunction ops stringTable code jt = some (insts, jt') ∧
      (insts.map (fun inst => inst.bytecodeOffset)).Pairwise (fun a b => a < b) ∧
      (∀ inst ∈ insts, inst.bytecodeOffset < code.length ∧
        inst.op = byteAt code inst.bytecodeOffset) ∧
      (code ≠ [] → ∃ inst, insts.head? = some inst ∧ inst.bytecodeOffset = 0) ∧
      insts.length ≤ code.length := by
  obtain ⟨⟨insts, jt'⟩, hr⟩ := decodeFunction_total ops stringTable code jt
  obtain ⟨hpw, hall, hhead⟩ := decodeLoop_offsets ops stringTable code jt _ _ hr
  refine ⟨insts, jt', hr, hpw, hall, hhead, ?_⟩
  have := length_le_of_increasing (insts.map (fun inst => inst.bytecodeOffset)) 0
    code.length hpw (fun x hx => by
      obtain ⟨i, hi, rfl⟩ := List.mem_map.mp hx
      exact ⟨Nat.zero_le _, (hall i hi).1⟩)
  rw [List.length_map] at this
  omega

theorem C27_instruction_offsets_witness :
    ∃ insts jt', decodeFunction sampleOpcodes [] codeJumps [] = some (insts, jt') ∧
      (insts.map (fun inst => inst.bytecodeOffset)).Pairwise (fun a b => a < b) ∧
      (∀ inst ∈ insts, inst.bytecodeOffset < codeJumps.length ∧
        inst.op = byteAt codeJumps inst.bytecodeOffset) ∧
      (codeJumps ≠ [] → ∃ inst, insts.head? = some inst ∧ inst.bytecodeOffset = 0) ∧
      insts.length ≤ codeJumps.length :=
  C27_instruction_offsets sampleOpcodes [] codeJumps []

/-! ## The segments tile the buffer -/

theorem segmentChain_snoc (data : List Byte) :
    ∀ (segs : List Segment) (a b : Nat) (s : Segment), SegmentChain data a segs b →
      s.headerPos = b → s.segType = bigEndian (bytesAt data b 4) →
      s.length = bigEndian (bytesAt data (b + 4) 4) → 1 ≤ s.segType → s.segType ≤ 4 →
      b + 8 + s.length ≤ data.length →
      SegmentChain data a (segs ++ [s]) (b + 8 + s.length)
  | [], a, b, s, h, h1, h2, h3, h4, h5, h6 => by
    simp only [SegmentChain] at h
    subst h
    exact ⟨h1, h2, h3, h4, h5, h6, rfl⟩
  | x :: rest, a, b, s, h, h1, h2, h3, h4, h5, h6 => by
    obtain ⟨g1, g2, g3, g4, g5, g6, g7⟩ := h
    exact ⟨g1, g2, g3, g4, g5, g6, segmentChain_snoc data rest _ b s g7 h1 h2 h3 h4 h5 h6⟩

theorem segmentChain_comparable (data : List Byte) :
    ∀ (s1 s2 : List Segment) (a b c : Nat), SegmentChain data a s1 b →
      SegmentChain data a s2 c →
      (∃ t, s2 = s1 ++ t ∧ SegmentChain data b t c) ∨
        (∃ t, s1 = s2 ++ t ∧ SegmentChain data c t b)
  | [], s2, a, b, c, h1, h2 => by
    simp only [SegmentChain] at h1
    subst h1
    exact Or.inl ⟨s2, rfl, h2⟩
  | x :: r1, [], a, b, c, h1, h2 => by
    simp only [SegmentChain] at h2
    subst h2
    exact Or.inr ⟨x :: r1, rfl, h1⟩
  | x :: r1, y :: r2, a, b, c, h1, h2 => by
    obtain ⟨g1, g2, g3, _, _, _, g7⟩ := h1
    obtain ⟨k1, k2, k3, _, _, _, k7⟩ := h2
    have hxy : x = y := by
      cases x
      cases y
      simp only [Segment.mk.injEq]
      dsimp only at g1 g2 g3 k1 k2 k3
      exact ⟨by rw [g1, k1], by rw [g2, k2], by rw [g3, k3]⟩
    subst hxy
    rcases segmentChain_comparable data r1 r2 _ b c g7 k7 with ⟨t, ht, hc⟩ | ⟨t, ht, hc⟩
    · exact Or.inl ⟨t, by rw [ht]; rfl, hc⟩
    · exact Or.inr ⟨t, by rw [ht]; rfl, hc⟩

theorem ScanReaches.pos_le {data : List Byte} {pos : Nat} {st : Decomp}
    (h : ScanReaches data pos st) : pos ≤ data.length := by
  cases h with
  | start => exact Nat.zero_le _
  | step _ hs => exact (segmentStep_next hs).2.2

theorem ScanReaches.chain {data : List Byte} {pos : Nat} {st : Decomp}
    (h : ScanReaches data pos st) :
    ∃ segs, SegmentChain data 0 segs pos ∧
      ∀ s ∈ segs, ∃ st', ScanReaches data s.headerPos st' := by
  induction h with
  | start => exact ⟨[], rfl, by simp⟩
  | @step pos pos' st st' hr hs ih =>
    obtain ⟨segs, hc, hall⟩ := ih
    obtain ⟨hhdr, hv1, hv2, hv3⟩ := segmentStep_next_valid hs
    have hpos := (segmentStep_next hs).2.1
    have ht := readU32BE_eq_bigEndian data pos (by omega)
    have hl := readU32BE_eq_bigEndian data (pos + 4) (by omega)
    refine ⟨segs ++ [⟨pos, readU32BE data pos, readU32BE data (pos + 4)⟩], ?_, ?_⟩
    · rw [hpos]
      exact segmentChain_snoc data segs 0 pos ⟨pos, readU32BE data pos,
        readU32BE data (pos + 4)⟩ hc rfl ht hl hv1 hv2 hv3
    · intro s hs'
      rcases List.mem_append.mp hs' with h | h
      · exact hall s h
      · simp only [List.mem_singleton] at h
        subst h
        exact ⟨st, hr⟩

/-- C21: when the segment scan of a buffer succeeds, the segments it processed tile the
buffer: there is a chain of segments from offset 0, each header starting exactly at the end
of the payload before it, each with a type code in 1..4 and its payload inside the buffer,
after which fewer than 8 bytes remain; the positions at which the scanner loop stands are
exactly the header positions of the chain and its end. A scan that stands at a position
with fewer than 8 bytes left (no byte, or 1 to 7 bytes of a partial header) succeeds with
the state it has. -/
theorem C21_segments_tile (data : List Byte) :
    (∀ st, parseSegments data Decomp.empty = some (true, st) →
      ∃ segs e, SegmentChain data 0 segs e ∧ e ≤ data.length ∧ data.length < e + 8 ∧
        ScanReaches data e st ∧
        ∀ p, (∃ st', ScanReaches data p st') ↔ (p = e ∨ ∃ s ∈ segs, s.headerPos = p)) ∧
    (∀ pos st, ScanReaches data pos st → data.length < pos + 8 →
      parseSegments data Decomp.empty = some (true, st)) := by
  constructor
  · intro st h
    obtain ⟨e, st0, hr, hs⟩ := parseSegments_final h
    simp only [if_true] at hs
    have hshort : data.length < e + 8 := by
      by_contra hc
      have hhdr : e + 8 ≤ data.length := by omega
      by_cases hv : 1 ≤ readU32BE data e ∧ readU32BE data e ≤ 4 ∧
          e + 8 + readU32BE data (e + 4) ≤ data.length
      · obtain ⟨ok, s1, _, hs1⟩ :=
          segmentStep_in_bounds data e st0 hhdr ⟨hv.1, hv.2.1⟩ hv.2.2
        rw [hs1] at hs
        cases ok <;> simp at hs
      · obtain ⟨s1, hs1, _⟩ := segmentStep_reject data e st0 hhdr hv
        rw [hs1] at hs
        cases hs
    rw [segmentStep_short data e st0 (by omega)] at hs
    simp only [Option.some.injEq, ScanStep.done.injEq] at hs
    subst hs
    obtain ⟨segs, hc, hall⟩ := hr.chain
    refine ⟨segs, e, hc, hr.pos_le, hshort, hr, ?_⟩
    intro p
    constructor
    · rintro ⟨st', hp⟩
      obtain ⟨segsp, hcp, _⟩ := hp.chain
      rcases segmentChain_comparable data segsp segs 0 p e hcp hc with ⟨t, ht, hct⟩ | ⟨t, ht, hct⟩
      · cases t with
        | nil =>
          simp only [SegmentChain] at hct
          exact Or.inl hct
        | cons s t =>
          refine Or.inr ⟨s, ?_, hct.1⟩
          rw [ht]
          simp
      · cases t with
        | nil =>
          simp only [SegmentChain] at hct
          exact Or.inl hct.symm
        | cons s t =>
          obtain ⟨_, _, _, _, _, h6, _⟩ := hct
          omega
    · rintro (hp | ⟨s, hs, hp⟩)
      · rw [hp]
        exact ⟨st0, hr⟩
      · rw [← hp]
        exact hall s hs
  · intro pos st hr hshort
    rw [parseSegments_of_reaches hr,
      parseSegmentsFrom_done (segmentStep_short data pos st (by omega))]

theorem C21_segments_tile_witness :
    parseSegments bufTwoFunctions Decomp.empty = some (true, stTwoFunctionsSliced) ∧
    ∃ segs e, SegmentChain bufTwoFunctions 0 segs e ∧ e ≤ bufTwoFunctions.length ∧
      bufTwoFunctions.length < e + 8 ∧ ScanReaches bufTwoFunctions e stTwoFunctionsSliced ∧
      ∀ p, (∃ st', ScanReaches bufTwoFunctions p st') ↔
        (p = e ∨ ∃ s ∈ segs, s.headerPos = p) :=
  ⟨by decide, (C21_segments_tile bufTwoFunctions).1 stTwoFunctionsSliced (by decide)⟩

/-! ## Repeated segments -/

theorem stringTable_loop_append (data : List Byte) (endPos : Nat) :
    ∀ (n pos : Nat) (acc : List (List Byte)),
      runLoop (stringTableStep data endPos) n (pos, acc) =
        (runLoop (stringTableStep data endPos) n (pos, [])).map (fun r => acc ++ r) := by
  intro n
  induction n with
  | zero => intro pos acc; rfl
  | succ n ih =>
    intro pos acc
    simp only [runLoop, stringTableStep]
    split_ifs with h1
    · simp only [List.nil_append]
      rw [ih _ (acc ++ _), ih _ [_]]
      simp [Option.map_map, Function.comp_def]
    · simp

theorem parseStringTable_segment {data : List Byte} (s : Segment) {st st' : Decomp}
    {ok : Bool} (h : parseStringTable data (s.headerPos + 8) s.length st = some (ok, st')) :
    ok = true ∧
      st' = { st with stringTable := st.stringTable ++ segmentStrings data s } := by
  unfold parseStringTable at h
  rw [stringTable_loop_append] at h
  cases hl : runLoop (stringTableStep data (s.headerPos + 8 + s.length)) (s.length + 1)
      (s.headerPos + 8, []) with
  | none =>
    rw [hl] at h
    simp at h
  | some tab =>
    have hseg : segmentStrings data s = tab := by
      unfold segmentStrings parseStringTable
      rw [show Decomp.empty.stringTable = [] from rfl, hl]
    rw [hl] at h
    simp only [Option.map_some', Option.some.injEq, Prod.mk.injEq] at h
    rw [hseg]
    exact ⟨h.1.symm, h.2.symm⟩

theorem parseFunctionTable_segment {data : List Byte} (s : Segment) {st st' : Decomp}
    (h : parseFunctionTable data (s.headerPos + 8) s.length st = some (true, st')) :
    st'.functions = setEndIndices (sortByOpIndex (st.functions ++ segmentEntries data s)) ∧
      st'.stringTable = st.stringTable := by
  unfold segmentEntries readFunctionEntries
  unfold parseFunctionTable at h
  rw [functionTable_loop_append] at h
  cases hl : runLoop (functionTableStep data (s.headerPos + 8 + s.length)) (data.length + 1)
      (s.headerPos + 8, []) with
  | none =>
    rw [hl] at h
    simp at h
  | some r =>
    rw [hl] at h
    obtain ⟨ok, fns⟩ := r
    cases ok with
    | false => simp at h
    | true =>
      simp only [Option.map_some', Option.some.injEq, Prod.mk.injEq, true_and] at h
      subst h
      exact ⟨rfl, rfl⟩

theorem chainStrings_snoc (data : List Byte) (segs : List Segment) (s : Segment) :
    chainStrings data (segs ++ [s]) =
      chainStrings data segs ++ (if s.segType = 3 then segmentStrings data s else []) := by
  unfold chainStrings
  rw [List.filter_append, List.map_append, List.flatten_append]
  by_cases h : s.segType = 3
  · simp [h]
  · simp [h]

theorem chainEntries_snoc (data : List Byte) (segs : List Segment) (s : Segment) :
    chainEntries data (segs ++ [s]) =
      chainEntries data segs ++ (if s.segType = 2 then segmentEntries data s else []) := by
  unfold chainEntries
  rw [List.filter_append, List.map_append, List.flatten_append]
  by_cases h : s.segType = 2
  · simp [h]
  · simp [h]

theorem setEndIndices_sorted (l : List FunctionInfo)
    (h : l.Pairwise (fun a b => a.opIndex ≤ b.opIndex)) :
    (setEndIndices l).Pairwise (fun a b => a.opIndex ≤ b.opIndex) := by
  have h1 : (l.map (fun f => f.opIndex)).Pairwise (fun a b => a ≤ b) :=
    List.pairwise_map.mpr h
  rw [← setEndIndices_map_opIndex] at h1
  exact List.pairwise_map.mp h1

theorem segmentStep_accumulates {data : List Byte} {pos pos' : Nat} {st st' : Decomp}
    (h : segmentStep data pos st = some (.next pos' st')) :
    st'.stringTable = st.stringTable ++
        (if readU32BE data pos = 3 then
          segmentStrings data ⟨pos, readU32BE data pos, readU32BE data (pos + 4)⟩ else []) ∧
      (st'.functions.map FunctionInfo.entry).Perm
        ((st.functions ++
          (if readU32BE data pos = 2 then
            segmentEntries data ⟨pos, readU32BE data pos, readU32BE data (pos + 4)⟩
           else [])).map FunctionInfo.entry) ∧
      (st.functions.Pairwise (fun a b => a.opIndex ≤ b.opIndex) →
        st'.functions.Pairwise (fun a b => a.opIndex ≤ b.opIndex)) := by
  obtain ⟨hhdr, hv1, hv2, hv3⟩ := segmentStep_next_valid h
  obtain ⟨ok, s1, hd, hs⟩ := segmentStep_in_bounds data pos st hhdr ⟨hv1, hv2⟩ hv3
  rw [hs] at h
  cases ok with
  | false => simp at h
  | true =>
    simp only [if_true, Option.some.injEq, ScanStep.next.injEq] at h
    obtain ⟨_, hst⟩ := h
    subst hst
    unfold dispatchSegment at hd
    by_cases h1 : readU32BE data pos = 1
    · rw [if_pos h1] at hd
      simp only [parseGS1Flags, Option.some.injEq, Prod.mk.injEq, true_and] at hd
      subst hd
      rw [if_neg (by omega), if_neg (by omega)]
      simp
    rw [if_neg h1] at hd
    by_cases h2 : readU32BE data pos = 2
    · rw [if_pos h2] at hd
      obtain ⟨hf, ht⟩ := parseFunctionTable_segment
        ⟨pos, readU32BE data pos, readU32BE data (pos + 4)⟩ hd
      rw [hf, ht, if_neg (by omega), if_pos h2]
      refine ⟨by simp, ?_, fun _ => setEndIndices_sorted _ (sortByOpIndex_sorted _)⟩
      rw [setEndIndices_map_entry]
      exact (sortByOpIndex_perm _).map _
    rw [if_neg h2] at hd
    by_cases h3 : readU32BE data pos = 3
    · rw [if_pos h3] at hd
      have := (parseStringTable_segment
        ⟨pos, readU32BE data pos, readU32BE data (pos + 4)⟩ hd).2
      rw [this, if_pos h3, if_neg h2]
      simp
    rw [if_neg h3] at hd
    have h4 : readU32BE data pos = 4 := by omega
    rw [if_pos h4] at hd
    simp only [parseBytecodeSegment, Option.some.injEq, Prod.mk.injEq, true_and] at hd
    subst hd
    rw [if_neg h3, if_neg h2]
    dsimp only
    refine ⟨by simp, ?_, ?_⟩
    · rw [List.append_nil, List.map_map]
      apply List.Perm.of_eq
      apply List.map_congr_left
      intro f _
      obtain ⟨e1, e2, _⟩ := sliceFunction_fields data (pos + 8) (readU32BE data (pos + 4)) f
      simp only [Function.comp, FunctionInfo.entry, e1, e2]
    · intro hp
      have h1 : (st.functions.map (fun f => f.opIndex)).Pairwise (fun a b => a ≤ b) :=
        List.pairwise_map.mpr hp
      apply List.pairwise_map.mp
      rw [List.map_map]
      have : (fun f => f.opIndex) ∘ sliceFunction data (pos + 8) (readU32BE data (pos + 4)) =
          fun f => f.opIndex := by
        funext f
        exact (sliceFunction_fields data (pos + 8) (readU32BE data (pos + 4)) f).2.1
      rw [this]
      exact h1

theorem segmentChain_unique (data : List Byte) {s1 s2 : List Segment} {a b c : Nat}
    (h1 : SegmentChain data a s1 b) (h2 : SegmentChain data a s2 c)
    (hb : data.length < b + 8) (hc : data.length < c + 8) : s1 = s2 ∧ b = c := by
  rcases segmentChain_comparable data s1 s2 a b c h1 h2 with ⟨t, ht, hct⟩ | ⟨t, ht, hct⟩
  · cases t with
    | nil =>
      simp only [SegmentChain] at hct
      exact ⟨by rw [ht, List.append_nil], hct⟩
    | cons s t =>
      obtain ⟨_, _, _, _, _, h6, _⟩ := hct
      omega
  · cases t with
    | nil =>
      simp only [SegmentChain] at hct
      exact ⟨by rw [ht, List.append_nil], hct.symm⟩
    | cons s t =>
      obtain ⟨_, _, _, _, _, h6, _⟩ := hct
      omega

theorem parseSegments_end {data : List Byte} {st : Decomp}
    (h : parseSegments data Decomp.empty = some (true, st)) :
    ∃ e, ScanReaches data e st ∧ data.length < e + 8 := by
  obtain ⟨e, st0, hr, hs⟩ := parseSegments_final h
  simp only [if_true] at hs
  have hshort : data.length < e + 8 := by
    by_contra hc
    have hhdr : e + 8 ≤ data.length := by omega
    by_cases hv : 1 ≤ readU32BE data e ∧ readU32BE data e ≤ 4 ∧
        e + 8 + readU32BE data (e + 4) ≤ data.length
    · obtain ⟨ok, s1, _, hs1⟩ :=
        segmentStep_in_bounds data e st0 hhdr ⟨hv.1, hv.2.1⟩ hv.2.2
      rw [hs1] at hs
      cases ok <;> simp at hs
    · obtain ⟨s1, hs1, _⟩ := segmentStep_reject data e st0 hhdr hv
      rw [hs1] at hs
      cases hs
  rw [segmentStep_short data e st0 (by omega)] at hs
  simp only [Option.some.injEq, ScanStep.done.injEq] at hs
  subst hs
  exact ⟨e, hr, hshort⟩

theorem ScanReaches.chainState {data : List Byte} {pos : Nat} {st : Decomp}
    (h : ScanReaches data pos st) :
    ∃ segs, SegmentChain data 0 segs pos ∧ st.stringTable = chainStrings data segs ∧
      (st.functions.map FunctionInfo.entry).Perm
        ((chainEntries data segs).map FunctionInfo.entry) ∧
      st.functions.Pairwise (fun a b => a.opIndex ≤ b.opIndex) := by
  induction h with
  | start => exact ⟨[], rfl, rfl, List.Perm.refl _, List.Pairwise.nil⟩
  | @step pos pos' st st' hr hs ih =>
    obtain ⟨segs, hc, hstr, hperm, hsorted⟩ := ih
    obtain ⟨hhdr, hv1, hv2, hv3⟩ := segmentStep_next_valid hs
    have hpos := (segmentStep_next hs).2.1
    have ht := readU32BE_eq_bigEndian data pos (by omega)
    have hl := readU32BE_eq_bigEndian data (pos + 4) (by omega)
    obtain ⟨a1, a2, a3⟩ := segmentStep_accumulates hs
    refine ⟨segs ++ [⟨pos, readU32BE data pos, readU32BE data (pos + 4)⟩], ?_, ?_, ?_,
      a3 hsorted⟩
    · rw [hpos]
      exact segmentChain_snoc data segs 0 pos ⟨pos, readU32BE data pos,
        readU32BE data (pos + 4)⟩ hc rfl ht hl hv1 hv2 hv3
    · rw [a1, chainStrings_snoc, hstr]
    · rw [chainEntries_snoc]
      refine a2.trans ?_
      rw [List.map_append, List.map_append]
      exact hperm.append_right _

theorem segmentStep_closed {data : List Byte} {pos pos' : Nat} {st st' : Decomp}
    (h : segmentStep data pos st = some (.next pos' st'))
    (hc : ∀ (i : Nat) (f g : FunctionInfo), st.functions[i]? = some f →
      st.functions[i + 1]? = some g → f.endOpIndex = g.opIndex) :
    ∀ (i : Nat) (f g : FunctionInfo), st'.functions[i]? = some f →
      st'.functions[i + 1]? = some g → f.endOpIndex = g.opIndex := by
  obtain ⟨hhdr, hv1, hv2, hv3⟩ := segmentStep_next_valid h
  obtain ⟨ok, s1, hd, hs⟩ := segmentStep_in_bounds data pos st hhdr ⟨hv1, hv2⟩ hv3
  rw [hs] at h
  cases ok with
  | false => simp at h
  | true =>
    simp only [if_true, Option.some.injEq, ScanStep.next.injEq] at h
    obtain ⟨_, hst⟩ := h
    subst hst
    unfold dispatchSegment at hd
    by_cases h1 : readU32BE data pos = 1
    · rw [if_pos h1] at hd
      simp only [parseGS1Flags, Option.some.injEq, Prod.mk.injEq, true_and] at hd
      subst hd
      exact hc
    rw [if_neg h1] at hd
    by_cases h2 : readU32BE data pos = 2
    · rw [if_pos h2] at hd
      obtain ⟨hf, _⟩ := parseFunctionTable_segment
        ⟨pos, readU32BE data pos, readU32BE data (pos + 4)⟩ hd
      rw [hf]
      exact setEndIndices_chain _
    rw [if_neg h2] at hd
    by_cases h3 : readU32BE data pos = 3
    · rw [if_pos h3] at hd
      rw [parseStringTable_functions hd]
      exact hc
    rw [if_neg h3] at hd
    have h4 : readU32BE data pos = 4 := by omega
    rw [if_pos h4] at hd
    simp only [parseBytecodeSegment, Option.some.injEq, Prod.mk.injEq, true_and] at hd
    subst hd
    intro i f g hf hg
    dsimp only at hf hg
    rw [List.getElem?_map] at hf hg
    cases hf0 : st.functions[i]? with
    | none => rw [hf0] at hf; cases hf
    | some f0 =>
      cases hg0 : st.functions[i + 1]? with
      | none => rw [hg0] at hg; cases hg
      | some g0 =>
        rw [hf0] at hf
        rw [hg0] at hg
        simp only [Option.map_some', Option.some.injEq] at hf hg
        rw [← hf, ← hg,
          (sliceFunction_fields data (pos + 8) (readU32BE data (pos + 4)) f0).2.2,
          (sliceFunction_fields data (pos + 8) (readU32BE data (pos + 4)) g0).2.1]
        exact hc i f0 g0 hf0 hg0

theorem ScanReaches.rangesClosed {data : List Byte} {pos : Nat} {st : Decomp}
    (h : ScanReaches data pos st) :
    ∀ (i : Nat) (f g : FunctionInfo), st.functions[i]? = some f →
      st.functions[i + 1]? = some g → f.endOpIndex = g.opIndex := by
  induction h with
  | start =>
    intro i f g hf
    simp [Decomp.empty] at hf
  | step _ hs ih => exact segmentStep_closed hs ih

/-- C22, as the source has it (the claim is not met): with two StringTable segments holding
"a" and "b" the string table after the load is ["a", "b"], while the table built from the
second segment alone is ["b"]; with two FunctionTable segments holding (0, "a") and (1, "b")
the function list after the load has both functions, while the list built from the second
segment alone has "b" only. -/
theorem C22_segments_accumulate_counterexample :
    (loadBytecode sampleOpcodes bufTwoStringTables).map (fun r => (r.1, r.2.stringTable)) =
      some (true, [[0x61], [0x62]]) ∧
    (parseStringTable bufTwoStringTables 18 2 Decomp.empty).map
      (fun r => (r.1, r.2.stringTable)) = some (true, [[0x62]]) ∧
    (loadBytecode sampleOpcodes bufTwoFunctionTables).map (fun r => (r.1, r.2.functions)) =
      some (true, [⟨[0x61], 0, 1, []⟩, ⟨[0x62], 1, UINT32_MAX, []⟩]) ∧
    (parseFunctionTable bufTwoFunctionTables 22 6 Decomp.empty).map
      (fun r => (r.1, r.2.functions)) = some (true, [⟨[0x62], 1, UINT32_MAX, []⟩]) := by
  refine ⟨by decide, by decide, by decide, by decide⟩

/-- C22 (amended): a later segment adds to what an earlier segment of the same kind left.
For a buffer that loads successfully and is tiled by the segments `segs`, the string table
after the load is the concatenation, in file order, of the tables built from each
StringTable segment alone; the function list holds the entries (name and opIndex) of all
FunctionTable segments together, as a permutation sorted by opIndex, and its ranges are
closed over the whole list: the endOpIndex of each function is the opIndex of the function
after it in the list, and the endOpIndex of the last function is the sentinel
UINT32_MAX. -/
theorem C22_segments_accumulate (ops : Opcodes) (data : List Byte) (st : Decomp)
    (hload : loadBytecode ops data = some (true, st)) (segs : List Segment) (e : Nat)
    (hchain : SegmentChain data 0 segs e) (hend : data.length < e + 8) :
    st.stringTable = chainStrings data segs ∧
    (st.functions.map FunctionInfo.entry).Perm
      ((chainEntries data segs).map FunctionInfo.entry) ∧
    st.functions.Pairwise (fun a b => a.opIndex ≤ b.opIndex) ∧
    (∀ (i : Nat) (f g : FunctionInfo), st.functions[i]? = some f →
      st.functions[i + 1]? = some g → f.endOpIndex = g.opIndex) ∧
    (∀ f : FunctionInfo, st.functions.getLast? = some f → f.endOpIndex = UINT32_MAX) := by
  obtain ⟨st0, hscan, hdec, _, _, _⟩ := loadBytecode_success hload
  obtain ⟨hfn, htab, _, _⟩ := decodeAll_spec ops _ _ _ hdec
  obtain ⟨e0, hr, hshort⟩ := parseSegments_end hscan
  obtain ⟨segs0, hc0, hstr, hperm, hsorted⟩ := hr.chainState
  obtain ⟨hseg, _⟩ := segmentChain_unique data hchain hc0 hend hshort
  rw [hfn, htab, hseg]
  exact ⟨hstr, hperm, hsorted, ScanReaches.rangesClosed hr, hr.last_sentinel⟩

theorem C22_segments_accumulate_witness :
    loadBytecode sampleOpcodes bufRepeated = some (true, stRepeated) ∧
    SegmentChain bufRepeated 0 [⟨0, 2, 6⟩, ⟨14, 3, 2⟩, ⟨24, 2, 6⟩, ⟨38, 3, 2⟩] 48 ∧
    chainStrings bufRepeated [⟨0, 2, 6⟩, ⟨14, 3, 2⟩, ⟨24, 2, 6⟩, ⟨38, 3, 2⟩] =
      [[0x78], [0x79]] ∧
    (chainEntries bufRepeated [⟨0, 2, 6⟩, ⟨14, 3, 2⟩, ⟨24, 2, 6⟩, ⟨38, 3, 2⟩]).map
      FunctionInfo.entry = [([0x61], 1), ([0x62], 0)] ∧
    (stRepeated.stringTable =
        chainStrings bufRepeated [⟨0, 2, 6⟩, ⟨14, 3, 2⟩, ⟨24, 2, 6⟩, ⟨38, 3, 2⟩] ∧
      (stRepeated.functions.map FunctionInfo.entry).Perm
        ((chainEntries bufRepeated [⟨0, 2, 6⟩, ⟨14, 3, 2⟩, ⟨24, 2, 6⟩, ⟨38, 3, 2⟩]).map
          FunctionInfo.entry) ∧
      stRepeated.functions.Pairwise (fun a b => a.opIndex ≤ b.opIndex) ∧
      (∀ (i : Nat) (f g : FunctionInfo), stRepeated.functions[i]? = some f →
        stRepeated.functions[i + 1]? = some g → f.endOpIndex = g.opIndex) ∧
      (∀ f : FunctionInfo, stRepeated.functions.getLast? = some f →
        f.endOpIndex = UINT32_MAX)) :=
  ⟨by decide, by decide, by decide, by decide,
    C22_segments_accumulate sampleOpcodes bufRepeated stRepeated (by decide)
      [⟨0, 2, 6⟩, ⟨14, 3, 2⟩, ⟨24, 2, 6⟩, ⟨38, 3, 2⟩] 48 (by decide) (by decide)⟩

/-! ## Strings that run past the payload -/

theorem stringTable_loop_skip (post : List Byte) (endPos : Nat) :
    ∀ (ss : List (List Byte)) (pre : List Byte) (tab : List (List Byte)) (fuel : Nat),
      (∀ s ∈ ss, NulFree s) → pre.length + (cstrings ss).length ≤ endPos →
      runLoop (stringTableStep (pre ++ cstrings ss ++ post) endPos) (fuel + ss.length)
          (pre.length, tab) =
        runLoop (stringTableStep (pre ++ cstrings ss ++ post) endPos) fuel
          (pre.length + (cstrings ss).length, tab ++ ss) := by
  intro ss
  induction ss with
  | nil =>
    intro pre tab fuel _ _
    simp [cstrings]
  | cons s rest ih =>
    intro pre tab fuel hs he
    have hdata : pre ++ cstrings (s :: rest) ++ post =
        pre ++ s ++ 0 :: (cstrings rest ++ post) := by
      rw [cstrings_cons]; simp
    have hdata' : pre ++ s ++ 0 :: (cstrings rest ++ post) =
        (pre ++ s ++ [0]) ++ cstrings rest ++ post := by simp
    have hend : pre.length + (cstrings (s :: rest)).length =
        (pre ++ s ++ [0]).length + (cstrings rest).length := by
      rw [cstrings_cons]; simp; omega
    have hpos : pre.length + s.length + 1 = (pre ++ s ++ [0]).length := by simp; omega
    rw [List.length_cons, ← Nat.add_assoc]
    simp only [runLoop]
    have hstep : stringTableStep (pre ++ cstrings (s :: rest) ++ post) endPos
        (pre.length, tab) = .continue ((pre ++ s ++ [0]).length, tab ++ [s]) := by
      unfold stringTableStep
      rw [if_pos (by rw [cstrings_cons] at he; simp at he; dsimp only; omega)]
      dsimp only
      rw [hdata, readCString_terminated pre s _ (hs s (by simp)), hpos]
    rw [hstep]
    dsimp only
    rw [hdata, hdata', ih (pre ++ s ++ [0]) (tab ++ [s]) fuel
      (fun t ht => hs t (by simp [ht])) (by rw [← hend]; exact he), ← hend]
    simp

theorem readCString_unterminated (pre tail post : List Byte) (ht : NulFree tail) :
    (readCString (pre ++ tail ++ post) pre.length).1 =
        tail ++ post.takeWhile (fun b => decide (b.val ≠ 0)) ∧
      pre.length + tail.length ≤ (readCString (pre ++ tail ++ post) pre.length).2 := by
  have htw : (tail ++ post).takeWhile (fun b => decide (b.val ≠ 0)) =
      tail ++ post.takeWhile (fun b => decide (b.val ≠ 0)) := by
    rw [List.takeWhile_append_of_pos]
    intro a ha
    have := ht a ha
    simp only [ne_eq, decide_not, Bool.not_eq_true', decide_eq_false_iff_not]
    intro h0
    exact this (Fin.ext h0)
  have hdrop : (pre ++ tail ++ post).drop pre.length = tail ++ post := by
    rw [List.append_assoc, List.drop_left]
  unfold readCString
  dsimp only
  rw [hdrop, htw]
  refine ⟨rfl, ?_⟩
  rw [List.length_append]
  split_ifs <;> omega

/-- C26, as the source has it (the claim is not met): `parseStringTable` reads each string
up to the next NUL byte or the end of the whole buffer, not the end of the payload. When the
payload is a run of NUL-terminated strings followed by a non-empty last string without NUL,
the last string of the table is that string followed by the bytes that come after the
payload, up to the first NUL byte among them. -/
theorem C26_string_overread (pre post : List Byte) (ss : List (List Byte))
    (tail : List Byte) (st : Decomp) (hs : ∀ s ∈ ss, NulFree s) (ht : NulFree tail)
    (hne : tail ≠ []) :
    parseStringTable (pre ++ (cstrings ss ++ tail) ++ post) pre.length
        (cstrings ss ++ tail).length st =
      some (true, { st with stringTable := st.stringTable ++ ss ++
        [tail ++ post.takeWhile (fun b => decide (b.val ≠ 0))] }) := by
  have htl : 0 < tail.length := List.length_pos.mpr hne
  have hdata : pre ++ (cstrings ss ++ tail) ++ post = pre ++ cstrings ss ++ (tail ++ post) := by
    simp
  have hdata' : pre ++ cstrings ss ++ (tail ++ post) = (pre ++ cstrings ss) ++ tail ++ post := by
    simp
  have hfuel : (cstrings ss ++ tail).length + 1 =
      ((cstrings ss ++ tail).length + 1 - ss.length) + ss.length := by
    have := cstrings_length_ge ss
    rw [List.length_append]
    omega
  obtain ⟨n, hn⟩ : ∃ n, (cstrings ss ++ tail).length + 1 - ss.length = n + 2 := by
    have := cstrings_length_ge ss
    rw [List.length_append]
    exact ⟨(cstrings ss).length + tail.length + 1 - ss.length - 2, by omega⟩
  obtain ⟨h1, h2⟩ := readCString_unterminated (pre ++ cstrings ss) tail post ht
  unfold parseStringTable
  rw [hfuel, hdata, stringTable_loop_skip (tail ++ post) _ ss pre st.stringTable _ hs
    (by rw [List.length_append]; omega), hn]
  simp only [runLoop]
  have hstep : stringTableStep (pre ++ cstrings ss ++ (tail ++ post))
      (pre.length + (cstrings ss ++ tail).length)
      (pre.length + (cstrings ss).length, st.stringTable ++ ss) =
      .continue ((readCString ((pre ++ cstrings ss) ++ tail ++ post)
          (pre ++ cstrings ss).length).2,
        st.stringTable ++ ss ++ [tail ++ post.takeWhile (fun b => decide (b.val ≠ 0))]) := by
    unfold stringTableStep
    rw [if_pos (by rw [List.length_append]; dsimp only; omega)]
    dsimp only
    rw [hdata', ← List.length_append, h1]
  rw [hstep]
  dsimp only
  have hexit : stringTableStep (pre ++ cstrings ss ++ (tail ++ post))
      (pre.length + (cstrings ss ++ tail).length)
      ((readCString ((pre ++ cstrings ss) ++ tail ++ post) (pre ++ cstrings ss).length).2,
        st.stringTable ++ ss ++ [tail ++ post.takeWhile (fun b => decide (b.val ≠ 0))]) =
      .exit (st.stringTable ++ ss ++
        [tail ++ post.takeWhile (fun b => decide (b.val ≠ 0))]) := by
    unfold stringTableStep
    rw [if_neg (by
      simp only [List.length_append] at h2 ⊢
      omega)]
  rw [hexit]

theorem C26_string_overread_witness :
    parseStringTable (bufOverread 0x63) 8 2 Decomp.empty =
      some (true, { Decomp.empty with stringTable := [[0x61, 0x62, 0x63]] }) ∧
    loadBytecode sampleOpcodes (bufOverread 0x63) =
      some (true, { Decomp.empty with stringTable := [[0x61, 0x62, 0x63]] }) ∧
    loadBytecode sampleOpcodes (bufOverread 0x64) =
      some (true, { Decomp.empty with stringTable := [[0x61, 0x62, 0x64]] }) ∧
    (∀ i, i < 10 → (bufOverread 0x63).getD i 0 = (bufOverread 0x64).getD i 0) :=
  ⟨C26_string_overread [0, 0, 0, 3, 0, 0, 0, 2] [0x63] [] [0x61, 0x62] Decomp.empty
      (by simp) (by simp [NulFree]) (by simp),
    by decide, by decide, by decide⟩

/-! ## Functions that share a name -/

/-- C25, as the source has it (the claim is not met): the decoded sequences are stored under
the function's name, so after a successful load the instruction lines in the block of a
function are those decoded from the slice of the last function of the list that carries the
same name, not from its own slice when another function of that name follows it. -/
theorem C25_shared_name (ops : Opcodes) (mnemonic : Nat → String) (data : List Byte)
    (st : Decomp) (hload : loadBytecode ops data = some (true, st)) (func : FunctionInfo)
    (hmem : func ∈ st.functions) :
    ∃ g, lastNamed st.functions func.name = some g ∧ g ∈ st.functions ∧
      g.name = func.name ∧
      generateFunction mnemonic st func =
        declarationLine func.name ++ (concatText (headerLines func) ++
          (concatText ((decodedInstructions ops st.stringTable g.bytecode).map
            (instructionLine mnemonic)) ++ "\x7d")) := by
  obtain ⟨st0, _, hdec, _, hfi, _⟩ := loadBytecode_success hload
  obtain ⟨hfn, htab, _, _⟩ := decodeAll_spec ops _ _ _ hdec
  have hmap := decodeAll_instructions ops _ _ _ hdec func.name
  rw [← hfn] at hmap
  obtain ⟨g, hg⟩ := lastNamed_of_mem hmem
  rw [hg] at hmap
  have hgm := lastNamed_mem hg
  refine ⟨g, hg, hgm.1, hgm.2, ?_⟩
  rw [generateFunction_eq]
  have hheld : heldInstructions st func =
      decodedInstructions ops st.stringTable g.bytecode := by
    unfold heldInstructions
    rw [hmap, htab]
    rfl
  rw [hheld]

theorem C25_shared_name_witness :
    loadBytecode sampleOpcodes bufSharedName = some (true, stSharedName) ∧
    (∃ g, lastNamed stSharedName.functions [0x66] = some g ∧ g ∈ stSharedName.functions ∧
      g.name = [0x66] ∧
      generateFunction sampleMnemonic stSharedName ⟨[0x66], 0, 1, [7]⟩ =
        declarationLine [0x66] ++ (concatText (headerLines ⟨[0x66], 0, 1, [7]⟩) ++
          (concatText ((decodedInstructions sampleOpcodes stSharedName.stringTable
            g.bytecode).map (instructionLine sampleMnemonic)) ++ "\x7d"))) ∧
    generateFunction sampleMnemonic stSharedName ⟨[0x66], 0, 1, [7]⟩ =
      "function f() \x7b\n  // Decompilation not fully implemented yet\n" ++
      "  // Function: f\n  // Opcodes: 1 bytes\n  // OP_8\n\x7d" ∧
    decodedInstructions sampleOpcodes stSharedName.stringTable [7] = [⟨7, 0, 0, []⟩] :=
  ⟨by decide,
    C25_shared_name sampleOpcodes sampleMnemonic bufSharedName stSharedName (by decide)
      ⟨[0x66], 0, 1, [7]⟩ (by decide),
    by decide, by decide⟩

/-! ## Positional paths of the command line -/

theorem argumentLoop_cons (arg : String) (rest : List String) (args : Arguments) :
    argumentLoop (arg :: rest) args =
      if arg = "--help" ∨ arg = "-h" then .returned { args with help := true }
      else if arg = "--verbose" ∨ arg = "-v" then
        argumentLoop rest { args with verbose := true }
      else if arg = "--decompile" ∨ arg = "-d" then
        argumentLoop rest { args with decompile_mode := true }
      else if arg = "--output" ∨ arg = "-o" then
        match rest with
        | [] => .returned { args with error := "Missing output file after " ++ arg }
        | out :: rest' => argumentLoop rest' { args with output_path := out }
      else if startsWithDash arg then
        .returned { args with error := "Unknown option: " ++ arg }
      else argumentLoop rest { args with input_paths := args.input_paths ++ [arg] } := by
  rw [argumentLoop.eq_def]

theorem argumentLoop_plain :
    ∀ (args : List String) (a : Arguments),
      (∀ x ∈ args, isPlainFlag x = true ∨ startsWithDash x = false) →
      ∃ a', argumentLoop args a = .finished a' ∧
        a'.input_paths = a.input_paths ++ pathArguments args ∧
        a'.output_path = a.output_path ∧ a'.error = a.error ∧ a'.help = a.help ∧
        a'.directory_mode = a.directory_mode ∧ a'.multi_file_mode = a.multi_file_mode
  | [], a, _ => ⟨a, rfl, by simp [pathArguments], rfl, rfl, rfl, rfl, rfl⟩
  | x :: rest, a, h => by
    have hrest : ∀ y ∈ rest, isPlainFlag y = true ∨ startsWithDash y = false :=
      fun y hy => h y (List.mem_cons_of_mem _ hy)
    rcases h x (List.mem_cons_self _ _) with hx | hx
    · have hdash : startsWithDash x = true := by
        unfold isPlainFlag at hx
        rcases of_decide_eq_true hx with e | e | e | e <;> (rw [e]; decide)
      have hpath : pathArguments (x :: rest) = pathArguments rest := by
        simp [pathArguments, hdash]
      rw [hpath]
      unfold isPlainFlag at hx
      rcases of_decide_eq_true hx with e | e | e | e
      · obtain ⟨a', h1, h2⟩ := argumentLoop_plain rest { a with verbose := true } hrest
        refine ⟨a', ?_, h2⟩
        rw [argumentLoop_cons, if_neg (by rw [e]; decide), if_pos (Or.inl e)]
        exact h1
      · obtain ⟨a', h1, h2⟩ := argumentLoop_plain rest { a with verbose := true } hrest
        refine ⟨a', ?_, h2⟩
        rw [argumentLoop_cons, if_neg (by rw [e]; decide), if_pos (Or.inr e)]
        exact h1
      · obtain ⟨a', h1, h2⟩ := argumentLoop_plain rest { a with decompile_mode := true } hrest
        refine ⟨a', ?_, h2⟩
        rw [argumentLoop_cons, if_neg (by rw [e]; decide), if_neg (by rw [e]; decide),
          if_pos (Or.inl e)]
        exact h1
      · obtain ⟨a', h1, h2⟩ := argumentLoop_plain rest { a with decompile_mode := true } hrest
        refine ⟨a', ?_, h2⟩
        rw [argumentLoop_cons, if_neg (by rw [e]; decide), if_neg (by rw [e]; decide),
          if_pos (Or.inr e)]
        exact h1
    · have hne : ∀ s : String, startsWithDash s = true → x ≠ s := by
        intro s hs e
        rw [e, hs] at hx
        cases hx
      have hpath : pathArguments (x :: rest) = x :: pathArguments rest := by
        simp [pathArguments, hx]
      obtain ⟨a', h1, h2, h3⟩ := argumentLoop_plain rest
        { a with input_paths := a.input_paths ++ [x] } hrest
      refine ⟨a', ?_, ?_, h3⟩
      · rw [argumentLoop_cons,
          if_neg (by
            rintro (e | e)
            · exact hne _ (by decide) e
            · exact hne _ (by decide) e),
          if_neg (by
            rintro (e | e)
            · exact hne _ (by decide) e
            · exact hne _ (by decide) e),
          if_neg (by
            rintro (e | e)
            · exact hne _ (by decide) e
            · exact hne _ (by decide) e),
          if_neg (by
            rintro (e | e)
            · exact hne _ (by decide) e
            · exact hne _ (by decide) e),
          if_neg (by rw [hx]; decide)]
        exact h1
      · rw [h2, hpath]
        simp

/-- C24, as the source has it (the claim is not met): the command line with the two paths
`a.gs2` and `b.gs2` and no output option is read in the positional form INPUT OUTPUT: the
second path becomes the output path, one input is left and the multi-file mode is off. -/
theorem C24_positional_paths_counterexample :
    parseArguments (fun _ => false) sampleReplaceExtension ["gs2test", "a.gs2", "b.gs2"] =
      { Arguments.empty with input_paths := ["a.gs2"], output_path := "b.gs2",
                             multi_file_mode := false } := by
  decide

/-- C24 (amended): on a command line whose arguments are paths (not starting with `-`) and
the flags `-v`, `--verbose`, `-d`, `--decompile`, with no output option: when three or more
paths are named and none is a directory, all of them are input files, the multi-file mode
is on, no output path is set and there is no error; when exactly two paths are named, the
first is the only input file, the multi-file mode is off, and the second, if it is not the
empty string, is the output path. -/
theorem C24_positional_paths (isDirectory : String → Bool)
    (replaceExtension : String → String → String) (prog : String) (args : List String)
    (hargs : ∀ x ∈ args, isPlainFlag x = true ∨ startsWithDash x = false) :
    (3 ≤ (pathArguments args).length →
      (∀ p ∈ pathArguments args, isDirectory p = false) →
      (parseArguments isDirectory replaceExtension (prog :: args)).input_paths =
          pathArguments args ∧
        (parseArguments isDirectory replaceExtension (prog :: args)).multi_file_mode = true ∧
        (parseArguments isDirectory replaceExtension (prog :: args)).output_path = "" ∧
        (parseArguments isDirectory replaceExtension (prog :: args)).error = "" ∧
        (parseArguments isDirectory replaceExtension (prog :: args)).directory_mode = false) ∧
    (∀ p0 p1, pathArguments args = [p0, p1] →
      (parseArguments isDirectory replaceExtension (prog :: args)).input_paths = [p0] ∧
        (parseArguments isDirectory replaceExtension (prog :: args)).multi_file_mode = false ∧
        (p1 ≠ "" →
          (parseArguments isDirectory replaceExtension (prog :: args)).output_path = p1)) := by
  obtain ⟨a', hloop, hin, hout, herr, _, hdir, hmulti⟩ :=
    argumentLoop_plain args Arguments.empty hargs
  have hin' : a'.input_paths = pathArguments args := by rw [hin]; rfl
  have hout' : a'.output_path = "" := by rw [hout]; rfl
  obtain ⟨ip, op, hl, vb, dm, mm, dc, er⟩ := a'
  dsimp only at hin' hout' herr hdir hmulti
  subst hin' hout'
  have herr' : er = "" := herr
  have hdir' : dm = false := hdir
  have hmulti' : mm = false := hmulti
  subst herr' hdir' hmulti'
  have hparse : args ≠ [] → parseArguments isDirectory replaceExtension (prog :: args) =
      finishArguments isDirectory replaceExtension
        ⟨pathArguments args, "", hl, vb, false, false, dc, ""⟩ := by
    intro hne
    unfold parseArguments
    have hlen : ¬ (prog :: args).length < 2 := by
      cases args with
      | nil => exact absurd rfl hne
      | cons x r => simp
    rw [if_neg hlen]
    simp only [List.drop_succ_cons, List.drop_zero, hloop]
  constructor
  · intro h3 hnodir
    have hne : args ≠ [] := by
      intro hc
      rw [hc] at h3
      simp [pathArguments] at h3
    rw [hparse hne]
    have e1 : (pathArguments args).isEmpty = false := by
      cases hp : pathArguments args with
      | nil => rw [hp] at h3; simp at h3
      | cons x r => rfl
    have e2 : ¬ (pathArguments args).length = 2 := by omega
    have e3 : ¬ (pathArguments args).length = 1 := by omega
    have e4 : (pathArguments args).any isDirectory = false := by
      rw [List.any_eq_false]
      intro x hx
      rw [hnodir x hx]
      simp
    simp [finishArguments, e1, e2, e3, e4]
  · intro p0 p1 hp
    have hne : args ≠ [] := by
      intro hc
      rw [hc] at hp
      simp [pathArguments] at hp
    rw [hparse hne, hp]
    simp only [finishArguments]
    split_ifs <;> simp_all

theorem C24_positional_paths_witness :
    (parseArguments (fun _ => false) sampleReplaceExtension
        ["gs2test", "-v", "a.gs2", "b.gs2", "c.gs2"]).input_paths =
      ["a.gs2", "b.gs2", "c.gs2"] ∧
    (parseArguments (fun _ => false) sampleReplaceExtension
        ["gs2test", "-v", "a.gs2", "b.gs2", "c.gs2"]).multi_file_mode = true ∧
    (parseArguments (fun _ => false) sampleReplaceExtension
        ["gs2test", "-v", "a.gs2", "b.gs2", "c.gs2"]).output_path = "" ∧
    (parseArguments (fun _ => false) sampleReplaceExtension
        ["gs2test", "-v", "a.gs2", "b.gs2", "c.gs2"]).error = "" ∧
    (parseArguments (fun _ => false) sampleReplaceExtension
        ["gs2test", "-v", "a.gs2", "b.gs2", "c.gs2"]).directory_mode = false :=
  (C24_positional_paths (fun _ => false) sampleReplaceExtension "gs2test"
    ["-v", "a.gs2", "b.gs2", "c.gs2"] (by decide)).1 (by decide) (by decide)

/-! ## Order of the segments -/

theorem byteAt_append_right (pre post : List Byte) (i : Nat) :
    byteAt (pre ++ post) (pre.length + i) = byteAt post i := by
  unfold byteAt
  rw [List.getD_eq_getElem?_getD, List.getD_eq_getElem?_getD,
    List.getElem?_append_right (by omega)]
  simp

theorem readU32BE_be32 (pre post : List Byte) (n : Nat) (hn : n < 2 ^ 32) :
    readU32BE (pre ++ be32 n ++ post) pre.length = n := by
  rw [readU32BE_eq, List.append_assoc]
  have h0 := byteAt_append_right pre (be32 n ++ post) 0
  rw [Nat.add_zero] at h0
  rw [h0, byteAt_append_right, byteAt_append_right, byteAt_append_right]
  simp only [byteAt, be32, List.cons_append, List.getD_cons_zero, List.getD_cons_succ,
    Fin.ofNat, Fin.val_mk]
  omega

theorem be32_length (n : Nat) : (be32 n).length = 4 := rfl

theorem encodeEntries_cons (e : Nat × List Byte) (es : List (Nat × List Byte)) :
    encodeEntries (e :: es) = be32 e.1 ++ e.2 ++ 0 :: encodeEntries es := by
  simp [encodeEntries]

theorem encodeEntries_length_ge (es : List (Nat × List Byte)) :
    es.length ≤ (encodeEntries es).length := by
  induction es with
  | nil => simp [encodeEntries]
  | cons e es ih =>
    rw [encodeEntries_cons]
    simp only [List.length_append, List.length_cons, be32_length]
    omega

theorem functionTable_loop_encoded (post : List Byte) :
    ∀ (es : List (Nat × List Byte)) (pre : List Byte) (acc : List FunctionInfo) (fuel : Nat),
      (∀ e ∈ es, NulFree e.2 ∧ e.1 < 2 ^ 32) → es.length + 1 ≤ fuel →
      runLoop (functionTableStep (pre ++ encodeEntries es ++ post)
          (pre.length + (encodeEntries es).length)) fuel (pre.length, acc) =
        some (true, acc ++ es.map entryFunction) := by
  intro es
  induction es with
  | nil =>
    intro pre acc fuel _ hf
    obtain ⟨n, rfl⟩ : ∃ n, fuel = n + 1 := ⟨fuel - 1, by omega⟩
    simp [runLoop, functionTableStep, encodeEntries]
  | cons e rest ih =>
    intro pre acc fuel hs hf
    obtain ⟨n, rfl⟩ : ∃ n, fuel = n + 1 := ⟨fuel - 1, by omega⟩
    obtain ⟨hnul, hidx⟩ := hs e (List.mem_cons_self _ _)
    have hdata : pre ++ encodeEntries (e :: rest) ++ post =
        pre ++ be32 e.1 ++ (e.2 ++ 0 :: (encodeEntries rest ++ post)) := by
      rw [encodeEntries_cons]; simp
    have hdata1 : pre ++ be32 e.1 ++ (e.2 ++ 0 :: (encodeEntries rest ++ post)) =
        (pre ++ be32 e.1) ++ e.2 ++ 0 :: (encodeEntries rest ++ post) := by simp
    have hdata2 : (pre ++ be32 e.1) ++ e.2 ++ 0 :: (encodeEntries rest ++ post) =
        (pre ++ be32 e.1 ++ e.2 ++ [0]) ++ encodeEntries rest ++ post := by simp
    have hend : pre.length + (encodeEntries (e :: rest)).length =
        (pre ++ be32 e.1 ++ e.2 ++ [0]).length + (encodeEntries rest).length := by
      rw [encodeEntries_cons]
      simp only [List.length_append, List.length_cons, be32_length, List.length_nil]
      omega
    have hpos : pre.length + 4 = (pre ++ be32 e.1).length := by
      rw [List.length_append, be32_length]
    have hpos2 : (pre ++ be32 e.1).length + e.2.length + 1 =
        (pre ++ be32 e.1 ++ e.2 ++ [0]).length := by
      simp only [List.length_append, List.length_cons, be32_length, List.length_nil]
    have hstep : functionTableStep (pre ++ encodeEntries (e :: rest) ++ post)
        (pre.length + (encodeEntries (e :: rest)).length) (pre.length, acc) =
        .continue ((pre ++ be32 e.1 ++ e.2 ++ [0]).length, acc ++ [entryFunction e]) := by
      unfold functionTableStep
      rw [if_pos (by
        rw [encodeEntries_cons]
        simp only [List.length_append, List.length_cons, be32_length]
        omega),
        if_neg (by
          rw [encodeEntries_cons]
          simp only [List.length_append, List.length_cons, be32_length]
          omega)]
      dsimp only
      rw [hdata, readU32BE_be32 pre _ e.1 hidx, hpos, hdata1,
        readCString_terminated (pre ++ be32 e.1) e.2 _ hnul, hpos2]
      rfl
    simp only [runLoop]
    rw [hstep]
    dsimp only
    rw [hdata, hdata1, hdata2, hend,
      ih (pre ++ be32 e.1 ++ e.2 ++ [0]) (acc ++ [entryFunction e]) n
        (fun t ht => hs t (List.mem_cons_of_mem _ ht)) (by simp at hf; omega)]
    simp

theorem encodeSegment_length (segType : Nat) (payload : List Byte) :
    (encodeSegment segType payload).length = 8 + payload.length := by
  simp only [encodeSegment, List.length_append, be32_length]

theorem encodeSegment_header (data pre post payload : List Byte) (segType : Nat)
    (ht : segType < 2 ^ 32) (hl : payload.length < 2 ^ 32)
    (hdata : data = pre ++ encodeSegment segType payload ++ post) :
    readU32BE data pre.length = segType ∧ readU32BE data (pre.length + 4) = payload.length ∧
      data.length = pre.length + 8 + payload.length + post.length ∧
      data = (pre ++ be32 segType ++ be32 payload.length) ++ payload ++ post ∧
      (pre ++ be32 segType ++ be32 payload.length).length = pre.length + 8 := by
  subst hdata
  have h1 : pre ++ encodeSegment segType payload ++ post =
      pre ++ be32 segType ++ (be32 payload.length ++ payload ++ post) := by
    simp [encodeSegment]
  have h2 : pre ++ encodeSegment segType payload ++ post =
      (pre ++ be32 segType) ++ be32 payload.length ++ (payload ++ post) := by
    simp [encodeSegment]
  refine ⟨?_, ?_, ?_, ?_, ?_⟩
  · rw [h1, readU32BE_be32 _ _ _ ht]
  · rw [h2, show pre.length + 4 = (pre ++ be32 segType).length by
      rw [List.length_append, be32_length], readU32BE_be32 _ _ _ hl]
  · simp only [List.length_append, encodeSegment_length]
    omega
  · simp [encodeSegment]
  · simp only [List.length_append, be32_length]

theorem segmentStep_of_dispatch (data : List Byte) (pos : Nat) (st st' : Decomp)
    (hhdr : pos + 8 ≤ data.length)
    (htype : 1 ≤ readU32BE data pos ∧ readU32BE data pos ≤ 4)
    (hlen : pos + 8 + readU32BE data (pos + 4) ≤ data.length)
    (hd : dispatchSegment data (readU32BE data pos) (pos + 8) (readU32BE data (pos + 4)) st =
      some (true, st')) :
    segmentStep data pos st = some (.next (pos + 8 + readU32BE data (pos + 4)) st') := by
  obtain ⟨ok, s1, hd1, hs1⟩ := segmentStep_in_bounds data pos st hhdr htype hlen
  rw [hd] at hd1
  simp only [Option.some.injEq, Prod.mk.injEq] at hd1
  obtain ⟨h1, h2⟩ := hd1
  subst h1 h2
  rw [hs1]
  rfl

theorem scan_functionTable (data pre post : List Byte) (es : List (Nat × List Byte))
    (st : Decomp) (hes : ∀ e ∈ es, NulFree e.2 ∧ e.1 < 2 ^ 32)
    (hl : (encodeEntries es).length < 2 ^ 32)
    (hdata : data = pre ++ encodeSegment 2 (encodeEntries es) ++ post) :
    parseSegmentsFrom data pre.length st =
      parseSegmentsFrom data (pre ++ encodeSegment 2 (encodeEntries es)).length
        (addEntries es st) := by
  obtain ⟨h1, h2, h3, h4, h5⟩ :=
    encodeSegment_header data pre post (encodeEntries es) 2 (by norm_num) hl hdata
  have hstep := segmentStep_of_dispatch data pre.length st (addEntries es st)
    (by omega) (by rw [h1]; omega) (by rw [h2]; omega) (by
      rw [h1, h2]
      unfold dispatchSegment
      rw [if_neg (by decide), if_pos rfl]
      unfold parseFunctionTable
      have hloop := functionTable_loop_encoded post es
        (pre ++ be32 2 ++ be32 (encodeEntries es).length) st.functions (data.length + 1) hes
        (by have := encodeEntries_length_ge es; omega)
      rw [← h4, h5] at hloop
      rw [hloop]
      rfl)
  rw [parseSegmentsFrom_next hstep, h2, List.length_append, encodeSegment_length]
  congr 1
  omega

theorem scan_stringTable (data pre post : List Byte) (ss : List (List Byte))
    (st : Decomp) (hss : ∀ s ∈ ss, NulFree s) (hl : (cstrings ss).length < 2 ^ 32)
    (hdata : data = pre ++ encodeSegment 3 (cstrings ss) ++ post) :
    parseSegmentsFrom data pre.length st =
      parseSegmentsFrom data (pre ++ encodeSegment 3 (cstrings ss)).length
        (addStrings ss st) := by
  obtain ⟨h1, h2, h3, h4, h5⟩ :=
    encodeSegment_header data pre post (cstrings ss) 3 (by norm_num) hl hdata
  have hstep := segmentStep_of_dispatch data pre.length st (addStrings ss st)
    (by omega) (by rw [h1]; omega) (by rw [h2]; omega) (by
      rw [h1, h2]
      unfold dispatchSegment
      rw [if_neg (by decide), if_neg (by decide), if_pos rfl]
      unfold parseStringTable
      have hloop := stringTable_loop_cstrings post ss
        (pre ++ be32 3 ++ be32 (cstrings ss).length) st.stringTable
        ((cstrings ss).length + 1) hss
        (by have := cstrings_length_ge ss; omega)
      rw [← h4, h5] at hloop
      rw [hloop]
      rfl)
  rw [parseSegmentsFrom_next hstep, h2, List.length_append, encodeSegment_length]
  congr 1
  omega

theorem scan_bytecode (data pre post code : List Byte) (st : Decomp)
    (hl : code.length < 2 ^ 32)
    (hdata : data = pre ++ encodeSegment 4 code ++ post) :
    parseSegmentsFrom data pre.length st =
      parseSegmentsFrom data (pre ++ encodeSegment 4 code).length
        (sliceAll data (pre.length + 8) code.length st) := by
  obtain ⟨h1, h2, h3, h4, h5⟩ :=
    encodeSegment_header data pre post code 4 (by norm_num) hl hdata
  have hstep := segmentStep_of_dispatch data pre.length st
    (sliceAll data (pre.length + 8) code.length st)
    (by omega) (by rw [h1]; omega) (by rw [h2]; omega) (by
      rw [h1, h2]
      unfold dispatchSegment
      rw [if_neg (by decide), if_neg (by decide), if_neg (by decide), if_pos rfl]
      rfl)
  rw [parseSegmentsFrom_next hstep, h2, List.length_append, encodeSegment_length]
  congr 1
  omega

theorem sliceFunction_payload (pre code post : List Byte) (f : FunctionInfo)
    (hop : f.opIndex ≤ code.length)
    (hend : f.endOpIndex = UINT32_MAX ∨ f.endOpIndex ≤ code.length) :
    sliceFunction (pre ++ code ++ post) pre.length code.length f = payloadSlice code f := by
  have hlen : (pre ++ code ++ post).length = pre.length + code.length + post.length := by
    simp only [List.length_append]
  have hs : funcStart (pre ++ code ++ post) pre.length f = pre.length + f.opIndex := by
    unfold funcStart
    dsimp only
    rw [if_neg (by omega)]
  have hdrop : (pre ++ code ++ post).drop (pre.length + f.opIndex) =
      code.drop f.opIndex ++ post := by
    rw [List.append_assoc, ← List.drop_drop, List.drop_left,
      List.drop_append_of_le_length hop]
  unfold sliceFunction payloadSlice
  dsimp only
  rw [hs]
  by_cases hmax : f.endOpIndex = UINT32_MAX
  · have he : funcEnd (pre ++ code ++ post) pre.length code.length f =
        pre.length + code.length := by
      unfold funcEnd
      dsimp only
      rw [if_pos hmax, if_neg (by omega)]
    rw [he, if_pos hmax, if_pos (by omega), if_pos hop, hdrop,
      List.take_append_of_le_length (by rw [List.length_drop]; omega)]
    congr 2
    omega
  · have hle : f.endOpIndex ≤ code.length := by
      rcases hend with h | h
      · exact absurd h hmax
      · exact h
    have he : funcEnd (pre ++ code ++ post) pre.length code.length f =
        pre.length + f.endOpIndex := by
      unfold funcEnd
      dsimp only
      rw [if_neg hmax, if_neg (by omega)]
    rw [he, if_neg hmax]
    by_cases hord : f.opIndex ≤ f.endOpIndex
    · rw [if_pos (by omega), if_pos hord, hdrop,
        List.take_append_of_le_length (by rw [List.length_drop]; omega)]
      congr 2
      omega
    · rw [if_neg (by omega), if_neg hord]

theorem setEndIndices_ends :
    ∀ (l : List FunctionInfo) (f : FunctionInfo), f ∈ setEndIndices l →
      (∃ g ∈ l, f.opIndex = g.opIndex) ∧
        (f.endOpIndex = UINT32_MAX ∨ ∃ g ∈ l, f.endOpIndex = g.opIndex)
  | [], f, h => by simp [setEndIndices] at h
  | [a], f, h => by
    simp only [setEndIndices, List.mem_singleton] at h
    subst h
    exact ⟨⟨a, by simp, rfl⟩, Or.inl rfl⟩
  | a :: b :: rest, f, h => by
    simp only [setEndIndices, List.mem_cons] at h
    rcases h with h | h
    · subst h
      exact ⟨⟨a, by simp, rfl⟩, Or.inr ⟨b, by simp, rfl⟩⟩
    · obtain ⟨⟨g, hg, e1⟩, h2⟩ := setEndIndices_ends (b :: rest) f (by
        simpa only [List.mem_cons] using h)
      refine ⟨⟨g, List.mem_cons_of_mem _ hg, e1⟩, ?_⟩
      rcases h2 with h2 | ⟨g', hg', e2⟩
      · exact Or.inl h2
      · exact Or.inr ⟨g', List.mem_cons_of_mem _ hg', e2⟩

theorem functionsOf_bounds (es : List (Nat × List Byte)) (n : Nat)
    (hidx : ∀ e ∈ es, e.1 ≤ n) :
    ∀ f ∈ functionsOf es, f.opIndex ≤ n ∧ (f.endOpIndex = UINT32_MAX ∨ f.endOpIndex ≤ n) := by
  intro f hf
  have hmem : ∀ g ∈ sortByOpIndex (es.map entryFunction), g.opIndex ≤ n := by
    intro g hg
    have hg' := (sortByOpIndex_perm _).mem_iff.mp hg
    obtain ⟨e, he, rfl⟩ := List.mem_map.mp hg'
    exact hidx e he
  obtain ⟨⟨g, hg, e1⟩, h2⟩ := setEndIndices_ends _ f hf
  refine ⟨by rw [e1]; exact hmem g hg, ?_⟩
  rcases h2 with h2 | ⟨g', hg', e2⟩
  · exact Or.inl h2
  · exact Or.inr (by rw [e2]; exact hmem g' hg')

theorem functionsOf_bytecode (es : List (Nat × List Byte)) :
    ∀ f ∈ functionsOf es, f.bytecode = [] := by
  intro f hf
  have h1 : f.bytecode ∈ (functionsOf es).map (fun f => f.bytecode) :=
    List.mem_map_of_mem _ hf
  unfold functionsOf at h1
  rw [setEndIndices_map_bytecode] at h1
  obtain ⟨g, hg, e⟩ := List.mem_map.mp h1
  have hg' := (sortByOpIndex_perm _).mem_iff.mp hg
  obtain ⟨e', _, rfl⟩ := List.mem_map.mp hg'
  rw [← e]
  rfl

theorem scan_three (data A B C : List Byte) (T1 T2 T3 : Decomp → Decomp)
    (hdata : data = A ++ B ++ C)
    (h1 : ∀ st, parseSegmentsFrom data ([] : List Byte).length st =
      parseSegmentsFrom data ([] ++ A).length (T1 st))
    (h2 : ∀ st, parseSegmentsFrom data A.length st =
      parseSegmentsFrom data (A ++ B).length (T2 st))
    (h3 : ∀ st, parseSegmentsFrom data (A ++ B).length st =
      parseSegmentsFrom data (A ++ B ++ C).length (T3 st)) :
    parseSegments data Decomp.empty = some (true, T3 (T2 (T1 Decomp.empty))) := by
  unfold parseSegments
  have h1' := h1 Decomp.empty
  rw [List.length_nil, List.nil_append] at h1'
  rw [h1', h2, h3, ← hdata]
  exact parseSegmentsFrom_done (segmentStep_short data data.length _ (by omega))

theorem slice_map_payload (data pre post code : List Byte) (fns : List FunctionInfo)
    (hl : code.length < 2 ^ 32) (hdata : data = pre ++ encodeSegment 4 code ++ post)
    (hb : ∀ f ∈ fns, f.opIndex ≤ code.length ∧
      (f.endOpIndex = UINT32_MAX ∨ f.endOpIndex ≤ code.length)) :
    fns.map (sliceFunction data (pre.length + 8) code.length) =
      fns.map (payloadSlice code) := by
  obtain ⟨_, _, _, h4, h5⟩ := encodeSegment_header data pre post code 4 (by norm_num) hl hdata
  apply List.map_congr_left
  intro f hf
  rw [h4, ← h5]
  exact sliceFunction_payload _ code post f (hb f hf).1 (hb f hf).2


theorem scan_order_ft_st_bc (es : List (Nat × List Byte)) (ss : List (List Byte))
    (code : List Byte) (hes : ∀ e ∈ es, NulFree e.2 ∧ e.1 ≤ code.length)
    (hss : ∀ s ∈ ss, NulFree s) (hft : (encodeEntries es).length < 2 ^ 32)
    (hst : (cstrings ss).length < 2 ^ 32) (hbc : code.length < 2 ^ 32) :
    parseSegments (encodeSegment 2 (encodeEntries es) ++ encodeSegment 3 (cstrings ss) ++
        encodeSegment 4 code) Decomp.empty =
      some (true, scanWithSlices es ss code) := by
  have hes' : ∀ e ∈ es, NulFree e.2 ∧ e.1 < 2 ^ 32 :=
    fun e he => ⟨(hes e he).1, lt_of_le_of_lt (hes e he).2 hbc⟩
  rw [scan_three _ (encodeSegment 2 (encodeEntries es)) (encodeSegment 3 (cstrings ss))
    (encodeSegment 4 code)
    (addEntries es)
    (addStrings ss)
    (sliceAll (encodeSegment 2 (encodeEntries es) ++ encodeSegment 3 (cstrings ss) ++ encodeSegment 4 code)
      ((encodeSegment 2 (encodeEntries es) ++ encodeSegment 3 (cstrings ss)).length + 8) code.length)
    rfl
    (fun st => scan_functionTable _ ([] : List Byte) (encodeSegment 3 (cstrings ss) ++ encodeSegment 4 code) es st hes' hft (by simp))
    (fun st => scan_stringTable _ (encodeSegment 2 (encodeEntries es)) (encodeSegment 4 code) ss st hss hst rfl)
    (fun st => scan_bytecode _ (encodeSegment 2 (encodeEntries es) ++ encodeSegment 3 (cstrings ss)) ([] : List Byte) code st hbc (by simp))]
  simp only [sliceAll, addStrings, addEntries, Decomp.empty, List.nil_append, List.map_nil]
  have hsl := slice_map_payload (encodeSegment 2 (encodeEntries es) ++ encodeSegment 3 (cstrings ss) ++ encodeSegment 4 code)
    (encodeSegment 2 (encodeEntries es) ++ encodeSegment 3 (cstrings ss)) ([] : List Byte) code (functionsOf es) hbc (by simp)
    (functionsOf_bounds es code.length (fun e he => (hes e he).2))
  unfold functionsOf at hsl
  rw [hsl]
  rfl


theorem scan_order_ft_bc_st (es : List (Nat × List Byte)) (ss : List (List Byte))
    (code : List Byte) (hes : ∀ e ∈ es, NulFree e.2 ∧ e.1 ≤ code.length)
    (hss : ∀ s ∈ ss, NulFree s) (hft : (encodeEntries es).length < 2 ^ 32)
    (hst : (cstrings ss).length < 2 ^ 32) (hbc : code.length < 2 ^ 32) :
    parseSegments (encodeSegment 2 (encodeEntries es) ++ encodeSegment 4 code ++
        encodeSegment 3 (cstrings ss)) Decomp.empty =
      some (true, scanWithSlices es ss code) := by
  have hes' : ∀ e ∈ es, NulFree e.2 ∧ e.1 < 2 ^ 32 :=
    fun e he => ⟨(hes e he).1, lt_of_le_of_lt (hes e he).2 hbc⟩
  rw [scan_three _ (encodeSegment 2 (encodeEntries es)) (encodeSegment 4 code)
    (encodeSegment 3 (cstrings ss))
    (addEntries es)
    (sliceAll (encodeSegment 2 (encodeEntries es) ++ encodeSegment 4 code ++ encodeSegment 3 (cstrings ss))
      ((encodeSegment 2 (encodeEntries es)).length + 8) code.length)
    (addStrings ss)
    rfl
    (fun st => scan_functionTable _ ([] : List Byte) (encodeSegment 4 code ++ encodeSegment 3 (cstrings ss)) es st hes' hft (by simp))
    (fun st => scan_bytecode _ (encodeSegment 2 (encodeEntries es)) (encodeSegment 3 (cstrings ss)) code st hbc rfl)
    (fun st => scan_stringTable _ (encodeSegment 2 (encodeEntries es) ++ encodeSegment 4 code) ([] : List Byte) ss st hss hst (by simp))]
  simp only [sliceAll, addStrings, addEntries, Decomp.empty, List.nil_append, List.map_nil]
  have hsl := slice_map_payload (encodeSegment 2 (encodeEntries es) ++ encodeSegment 4 code ++ encodeSegment 3 (cstrings ss))
    (encodeSegment 2 (encodeEntries es)) (encodeSegment 3 (cstrings ss)) code (functionsOf es) hbc rfl
    (functionsOf_bounds es code.length (fun e he => (hes e he).2))
  unfold functionsOf at hsl
  rw [hsl]
  rfl


theorem scan_order_st_ft_bc (es : List (Nat × List Byte)) (ss : List (List Byte))
    (code : List Byte) (hes : ∀ e ∈ es, NulFree e.2 ∧ e.1 ≤ code.length)
    (hss : ∀ s ∈ ss, NulFree s) (hft : (encodeEntries es).length < 2 ^ 32)
    (hst : (cstrings ss).length < 2 ^ 32) (hbc : code.length < 2 ^ 32) :
    parseSegments (encodeSegment 3 (cstrings ss) ++ encodeSegment 2 (encodeEntries es) ++
        encodeSegment 4 code) Decomp.empty =
      some (true, scanWithSlices es ss code) := by
  have hes' : ∀ e ∈ es, NulFree e.2 ∧ e.1 < 2 ^ 32 :=
    fun e he => ⟨(hes e he).1, lt_of_le_of_lt (hes e he).2 hbc⟩
  rw [scan_three _ (encodeSegment 3 (cstrings ss)) (encodeSegment 2 (encodeEntries es))
    (encodeSegment 4 code)
    (addStrings ss)
    (addEntries es)
    (sliceAll (encodeSegment 3 (cstrings ss) ++ encodeSegment 2 (encodeEntries es) ++ encodeSegment 4 code)
      ((encodeSegment 3 (cstrings ss) ++ encodeSegment 2 (encodeEntries es)).length + 8) code.length)
    rfl
    (fun st => scan_stringTable _ ([] : List Byte) (encodeSegment 2 (encodeEntries es) ++ encodeSegment 4 code) ss st hss hst (by simp))
    (fun st => scan_functionTable _ (encodeSegment 3 (cstrings ss)) (encodeSegment 4 code) es st hes' hft rfl)
    (fun st => scan_bytecode _ (encodeSegment 3 (cstrings ss) ++ encodeSegment 2 (encodeEntries es)) ([] : List Byte) code st hbc (by simp))]
  simp only [sliceAll, addStrings, addEntries, Decomp.empty, List.nil_append, List.map_nil]
  have hsl := slice_map_payload (encodeSegment 3 (cstrings ss) ++ encodeSegment 2 (encodeEntries es) ++ encodeSegment 4 code)
    (encodeSegment 3 (cstrings ss) ++ encodeSegment 2 (encodeEntries es)) ([] : List Byte) code (functionsOf es) hbc (by simp)
    (functionsOf_bounds es code.length (fun e he => (hes e he).2))
  unfold functionsOf at hsl
  rw [hsl]
  rfl


theorem scan_order_st_bc_ft (es : List (Nat × List Byte)) (ss : List (List Byte))
    (code : List Byte) (hes : ∀ e ∈ es, NulFree e.2 ∧ e.1 ≤ code.length)
    (hss : ∀ s ∈ ss, NulFree s) (hft : (encodeEntries es).length < 2 ^ 32)
    (hst : (cstrings ss).length < 2 ^ 32) (hbc : code.length < 2 ^ 32) :
    parseSegments (encodeSegment 3 (cstrings ss) ++ encodeSegment 4 code ++
        encodeSegment 2 (encodeEntries es)) Decomp.empty =
      some (true, scanWithoutSlices es ss) := by
  have hes' : ∀ e ∈ es, NulFree e.2 ∧ e.1 < 2 ^ 32 :=
    fun e he => ⟨(hes e he).1, lt_of_le_of_lt (hes e he).2 hbc⟩
  rw [scan_three _ (encodeSegment 3 (cstrings ss)) (encodeSegment 4 code)
    (encodeSegment 2 (encodeEntries es))
    (addStrings ss)
    (sliceAll (encodeSegment 3 (cstrings ss) ++ encodeSegment 4 code ++ encodeSegment 2 (encodeEntries es))
      ((encodeSegment 3 (cstrings ss)).length + 8) code.length)
    (addEntries es)
    rfl
    (fun st => scan_stringTable _ ([] : List Byte) (encodeSegment 4 code ++ encodeSegment 2 (encodeEntries es)) ss st hss hst (by simp))
    (fun st => scan_bytecode _ (encodeSegment 3 (cstrings ss)) (encodeSegment 2 (encodeEntries es)) code st hbc rfl)
    (fun st => scan_functionTable _ (encodeSegment 3 (cstrings ss) ++ encodeSegment 4 code) ([] : List Byte) es st hes' hft (by simp))]
  simp only [sliceAll, addStrings, addEntries, Decomp.empty, List.nil_append, List.map_nil]
  rfl


theorem scan_order_bc_ft_st (es : List (Nat × List Byte)) (ss : List (List Byte))
    (code : List Byte) (hes : ∀ e ∈ es, NulFree e.2 ∧ e.1 ≤ code.length)
    (hss : ∀ s ∈ ss, NulFree s) (hft : (encodeEntries es).length < 2 ^ 32)
    (hst : (cstrings ss).length < 2 ^ 32) (hbc : code.length < 2 ^ 32) :
    parseSegments (encodeSegment 4 code ++ encodeSegment 2 (encodeEntries es) ++
        encodeSegment 3 (cstrings ss)) Decomp.empty =
      some (true, scanWithoutSlices es ss) := by
  have hes' : ∀ e ∈ es, NulFree e.2 ∧ e.1 < 2 ^ 32 :=
    fun e he => ⟨(hes e he).1, lt_of_le_of_lt (hes e he).2 hbc⟩
  rw [scan_three _ (encodeSegment 4 code) (encodeSegment 2 (encodeEntries es))
    (encodeSegment 3 (cstrings ss))
    (sliceAll (encodeSegment 4 code ++ encodeSegment 2 (encodeEntries es) ++ encodeSegment 3 (cstrings ss))
      (([] : List Byte).length + 8) code.length)
    (addEntries es)
    (addStrings ss)
    rfl
    (fun st => scan_bytecode _ ([] : List Byte) (encodeSegment 2 (encodeEntries es) ++ encodeSegment 3 (cstrings ss)) code st hbc (by simp))
    (fun st => scan_functionTable _ (encodeSegment 4 code) (encodeSegment 3 (cstrings ss)) es st hes' hft rfl)
    (fun st => scan_stringTable _ (encodeSegment 4 code ++ encodeSegment 2 (encodeEntries es)) ([] : List Byte) ss st hss hst (by simp))]
  simp only [sliceAll, addStrings, addEntries, Decomp.empty, List.nil_append, List.map_nil]
  rfl


theorem scan_order_bc_st_ft (es : List (Nat × List Byte)) (ss : List (List Byte))
    (code : List Byte) (hes : ∀ e ∈ es, NulFree e.2 ∧ e.1 ≤ code.length)
    (hss : ∀ s ∈ ss, NulFree s) (hft : (encodeEntries es).length < 2 ^ 32)
    (hst : (cstrings ss).length < 2 ^ 32) (hbc : code.length < 2 ^ 32) :
    parseSegments (encodeSegment 4 code ++ encodeSegment 3 (cstrings ss) ++
        encodeSegment 2 (encodeEntries es)) Decomp.empty =
      some (true, scanWithoutSlices es ss) := by
  have hes' : ∀ e ∈ es, NulFree e.2 ∧ e.1 < 2 ^ 32 :=
    fun e he => ⟨(hes e he).1, lt_of_le_of_lt (hes e he).2 hbc⟩
  rw [scan_three _ (encodeSegment 4 code) (encodeSegment 3 (cstrings ss))
    (encodeSegment 2 (encodeEntries es))
    (sliceAll (encodeSegment 4 code ++ encodeSegment 3 (cstrings ss) ++ encodeSegment 2 (encodeEntries es))
      (([] : List Byte).length + 8) code.length)
    (addStrings ss)
    (addEntries es)
    rfl
    (fun st => scan_bytecode _ ([] : List Byte) (encodeSegment 3 (cstrings ss) ++ encodeSegment 2 (encodeEntries es)) code st hbc (by simp))
    (fun st => scan_stringTable _ (encodeSegment 4 code) (encodeSegment 2 (encodeEntries es)) ss st hss hst rfl)
    (fun st => scan_functionTable _ (encodeSegment 4 code ++ encodeSegment 3 (cstrings ss)) ([] : List Byte) es st hes' hft (by simp))]
  simp only [sliceAll, addStrings, addEntries, Decomp.empty, List.nil_append, List.map_nil]
  rfl

theorem decodedInstructions_nil (ops : Opcodes) (stringTable : List (List Byte)) :
    decodedInstructions ops stringTable [] = [] := by
  simp [decodedInstructions, decodeFunction, runLoop, decodeStep]

theorem loadBytecode_of_scan (ops : Opcodes) (data : List Byte) (st0 st : Decomp)
    (hscan : parseSegments data Decomp.empty = some (true, st0))
    (hdec : decodeInstructions ops st0 = some (true, st)) :
    loadBytecode ops data = some (true, st) := by
  unfold loadBytecode
  rw [hscan]
  exact hdec

theorem decodeInstructions_spec {ops : Opcodes} {st0 st : Decomp}
    (h : decodeInstructions ops st0 = some (true, st)) :
    decodeAll ops st0.functions st0 = some st := by
  unfold decodeInstructions at h
  cases hd : decodeAll ops st0.functions st0 with
  | none => rw [hd] at h; cases h
  | some s =>
    rw [hd] at h
    simp only [Option.map_some', Option.some.injEq, Prod.mk.injEq, true_and] at h
    rw [h]

theorem sorted_perm_unique (l1 l2 : List FunctionInfo) (hp : l1.Perm l2)
    (hnd : (l2.map (fun f => f.opIndex)).Nodup)
    (h1 : l1.Pairwise (fun a b => a.opIndex ≤ b.opIndex))
    (h2 : l2.Pairwise (fun a b => a.opIndex ≤ b.opIndex)) : l1 = l2 := by
  have hnd1 : (l1.map (fun f => f.opIndex)).Nodup := (hp.map _).nodup_iff.mpr hnd
  have strict : ∀ l : List FunctionInfo, (l.map (fun f => f.opIndex)).Nodup →
      l.Pairwise (fun a b => a.opIndex ≤ b.opIndex) →
      l.Pairwise (fun a b => a.opIndex < b.opIndex) := by
    intro l hn hl
    have hne : l.Pairwise (fun a b => a.opIndex ≠ b.opIndex) := List.pairwise_map.mp hn
    exact (hl.and hne).imp (fun h => lt_of_le_of_ne h.1 h.2)
  haveI : IsAntisymm FunctionInfo (fun a b => a.opIndex < b.opIndex) :=
    ⟨fun a b h h' => absurd h (Nat.lt_asymm h')⟩
  exact List.eq_of_perm_of_sorted hp (strict l1 hnd1 h1) (strict l2 hnd h2)

theorem functionsOf_unique (es : List (Nat × List Byte))
    (hdist : (es.map (fun e => e.1)).Nodup) (l : List FunctionInfo)
    (hp : l.Perm (es.map entryFunction))
    (hs : l.Pairwise (fun a b => a.opIndex ≤ b.opIndex)) :
    setEndIndices l = functionsOf es := by
  have hkeys : (es.map entryFunction).map (fun f => f.opIndex) = es.map (fun e => e.1) := by
    rw [List.map_map]
    rfl
  have hnd : ((sortByOpIndex (es.map entryFunction)).map (fun f => f.opIndex)).Nodup := by
    rw [((sortByOpIndex_perm _).map _).nodup_iff, hkeys]
    exact hdist
  unfold functionsOf
  rw [sorted_perm_unique l (sortByOpIndex (es.map entryFunction))
    (hp.trans (sortByOpIndex_perm _).symm) hnd hs (sortByOpIndex_sorted _)]

/-- C23, as the source has it (the claim is not met): the same three segments, a
FunctionTable with (0, "a"), an empty StringTable and a Bytecode segment with the payload
07, are loaded in two orders. With the FunctionTable first the function holds the slice 07
and one decoded instruction; with the Bytecode segment first the function holds an empty
slice and no instruction. -/
theorem C23_segment_order_counterexample :
    loadBytecode sampleOpcodes
        (encodeSegment 2 (encodeEntries [(0, [0x61])]) ++ encodeSegment 3 (cstrings []) ++
          encodeSegment 4 [7]) =
      some (true, { Decomp.empty with
        functions := [⟨[0x61], 0, UINT32_MAX, [7]⟩],
        functionInstructions := [([0x61], [⟨7, 0, 0, []⟩])] }) ∧
    loadBytecode sampleOpcodes
        (encodeSegment 4 [7] ++ encodeSegment 2 (encodeEntries [(0, [0x61])]) ++
          encodeSegment 3 (cstrings [])) =
      some (true, { Decomp.empty with
        functions := [⟨[0x61], 0, UINT32_MAX, []⟩],
        functionInstructions := [([0x61], [])] }) := by
  refine ⟨by decide, by decide⟩

/-- C23 (amended): let a container hold one FunctionTable segment with well-formed entries
(NUL-free names, pairwise distinct opIndex values, each inside the Bytecode payload), one
StringTable segment of NUL-terminated strings and one Bytecode segment. The loaded result
does not depend on where the StringTable segment stands, but it depends on the order of the
other two: in the three orders with the FunctionTable before the Bytecode segment the load
gives one and the same state, in which every function holds its slice of the payload; in
the three orders with the Bytecode segment before the FunctionTable the load gives one and
the same state, in which every function holds an empty slice and no decoded instruction.
As no two entries have the same opIndex, the function list is the only arrangement of the
entries that is sorted by opIndex, with its ranges closed: it does not depend on how the
sort orders equal keys. -/
theorem C23_segment_order (ops : Opcodes) (es : List (Nat × List Byte))
    (ss : List (List Byte)) (code : List Byte)
    (hes : ∀ e ∈ es, NulFree e.2 ∧ e.1 ≤ code.length)
    (hdist : (es.map (fun e => e.1)).Nodup) (hss : ∀ s ∈ ss, NulFree s)
    (hft : (encodeEntries es).length < 2 ^ 32) (hst : (cstrings ss).length < 2 ^ 32)
    (hbc : code.length < 2 ^ 32) :
    ∃ good bad,
      loadBytecode ops (encodeSegment 2 (encodeEntries es) ++ encodeSegment 3 (cstrings ss) ++
        encodeSegment 4 code) = some (true, good) ∧
      loadBytecode ops (encodeSegment 2 (encodeEntries es) ++ encodeSegment 4 code ++
        encodeSegment 3 (cstrings ss)) = some (true, good) ∧
      loadBytecode ops (encodeSegment 3 (cstrings ss) ++ encodeSegment 2 (encodeEntries es) ++
        encodeSegment 4 code) = some (true, good) ∧
      loadBytecode ops (encodeSegment 4 code ++ encodeSegment 2 (encodeEntries es) ++
        encodeSegment 3 (cstrings ss)) = some (true, bad) ∧
      loadBytecode ops (encodeSegment 4 code ++ encodeSegment 3 (cstrings ss) ++
        encodeSegment 2 (encodeEntries es)) = some (true, bad) ∧
      loadBytecode ops (encodeSegment 3 (cstrings ss) ++ encodeSegment 4 code ++
        encodeSegment 2 (encodeEntries es)) = some (true, bad) ∧
      good.functions = (functionsOf es).map (payloadSlice code) ∧ good.stringTable = ss ∧
      bad.functions = functionsOf es ∧ bad.stringTable = ss ∧
      (∀ f ∈ bad.functions, f.bytecode = [] ∧ heldInstructions bad f = []) ∧
      (∀ l : List FunctionInfo, l.Perm (es.map entryFunction) →
        l.Pairwise (fun a b => a.opIndex ≤ b.opIndex) →
        setEndIndices l = functionsOf es) := by
  obtain ⟨good, hgood⟩ := decodeInstructions_total ops (scanWithSlices es ss code)
  obtain ⟨bad, hbad⟩ := decodeInstructions_total ops (scanWithoutSlices es ss)
  have hg := decodeInstructions_spec hgood
  have hb := decodeInstructions_spec hbad
  obtain ⟨g1, g2, _, _⟩ := decodeAll_spec ops _ _ _ hg
  obtain ⟨b1, b2, _, _⟩ := decodeAll_spec ops _ _ _ hb
  refine ⟨good, bad,
    loadBytecode_of_scan ops _ _ _ (scan_order_ft_st_bc es ss code hes hss hft hst hbc) hgood,
    loadBytecode_of_scan ops _ _ _ (scan_order_ft_bc_st es ss code hes hss hft hst hbc) hgood,
    loadBytecode_of_scan ops _ _ _ (scan_order_st_ft_bc es ss code hes hss hft hst hbc) hgood,
    loadBytecode_of_scan ops _ _ _ (scan_order_bc_ft_st es ss code hes hss hft hst hbc) hbad,
    loadBytecode_of_scan ops _ _ _ (scan_order_bc_st_ft es ss code hes hss hft hst hbc) hbad,
    loadBytecode_of_scan ops _ _ _ (scan_order_st_bc_ft es ss code hes hss hft hst hbc) hbad,
    g1, g2, b1, b2, ?_, functionsOf_unique es hdist⟩
  intro f hf
  rw [b1] at hf
  have hfb : ∀ g ∈ (scanWithoutSlices es ss).functions, g.bytecode = [] :=
    functionsOf_bytecode es
  refine ⟨hfb f hf, ?_⟩
  have hmap := decodeAll_instructions ops _ _ _ hb f.name
  obtain ⟨g, hgl⟩ := lastNamed_of_mem hf
  rw [hgl] at hmap
  dsimp only at hmap
  unfold heldInstructions
  rw [hmap, hfb g (lastNamed_mem hgl).1, decodedInstructions_nil]
  rfl

theorem C23_segment_order_witness :
    ∃ good bad,
      loadBytecode sampleOpcodes
        (encodeSegment 2 (encodeEntries [(1, [0x62]), (0, [0x61])]) ++
          encodeSegment 3 (cstrings [[0x73]]) ++ encodeSegment 4 [7, 8]) =
        some (true, good) ∧
      loadBytecode sampleOpcodes
        (encodeSegment 3 (cstrings [[0x73]]) ++
          encodeSegment 2 (encodeEntries [(1, [0x62]), (0, [0x61])]) ++
          encodeSegment 4 [7, 8]) = some (true, good) ∧
      loadBytecode sampleOpcodes
        (encodeSegment 4 [7, 8] ++ encodeSegment 2 (encodeEntries [(1, [0x62]), (0, [0x61])]) ++
          encodeSegment 3 (cstrings [[0x73]])) = some (true, bad) ∧
      good.functions = [⟨[0x61], 0, 1, [7]⟩, ⟨[0x62], 1, UINT32_MAX, [8]⟩] ∧
      bad.functions = [⟨[0x61], 0, 1, []⟩, ⟨[0x62], 1, UINT32_MAX, []⟩] :=
  let ⟨good, bad, h1, _, h3, h4, _, _, h7, _, h9, _, _, _⟩ :=
    C23_segment_order sampleOpcodes [(1, [0x62]), (0, [0x61])] [[0x73]] [7, 8]
      (by simp [NulFree]) (by decide) (by simp [NulFree]) (by decide) (by decide)
      (by decide)
  ⟨good, bad, h1, h3, h4, h7.trans (by decide), h9.trans (by decide)⟩

end GS2
